import Mathlib

/-!
Shallow embedding of the bchd mempool (package `mempool`, file `mempool.go`,
together with the fork-height parameters of `chaincfg/params.go`) and proofs
about it.  Go maps are modelled by association lists (`alLookup`/`alInsert`/
`alEraseKey`); Go map update `m[k] = v` is modelled by erasing the key and
appending the new binding, and iteration over a Go map (whose order is
unspecified) is modelled by iteration over the association list.  Machine
integers (`int32`, `int64`) are modelled by `Int`; `time.Time` values by their
Unix second count as `Int`; the `float64` rate-limit accumulator by `ℚ`.
External collaborators (the UTXO view provider, the script validator, the
chain queries and the policy helpers living outside `mempool.go`) are
parameters of the model (`Oracles`) or are modelled from the specification
where noted.  The unbounded recursions of `removeOrphan` / `removeTransaction`
/ `processOrphans` are given an explicit fuel parameter; public entry points
pass a fuel that dominates the recursion depth for index-consistent states,
and the invariant theorems hold for every fuel.
-/

set_option maxHeartbeats 1000000

namespace Bchd

/-- A 32-byte hash (`chainhash.Hash`), abstracted to a natural number with
decidable equality. -/
abbrev Hash := Nat

/-- wire.OutPoint: a `(transaction hash, output index)` pair naming one
transaction output. -/
structure OutPoint where
  hash : Hash
  index : Nat
  deriving DecidableEq, Repr

/-- The part of a `bchutil.Tx` / `wire.MsgTx` the mempool code inspects:
its hash, the previous outpoints of its inputs, its number of outputs,
its serialized size in bytes and whether it is a coinbase
(`blockchain.IsCoinBase`). -/
structure Tx where
  hash : Hash
  inputs : List OutPoint
  numTxOut : Nat
  serializeSize : Int
  isCoinBase : Bool
  deriving DecidableEq, Repr

/-- Association-list lookup: the first binding of the key, mirroring a Go
map read. -/
def alLookup {α β : Type} [DecidableEq α] : List (α × β) → α → Option β
  | [], _ => none
  | (k', v) :: t, k => if k' = k then some v else alLookup t k

/-- Removes every binding of the key, mirroring Go `delete(m, k)`. -/
def alEraseKey {α β : Type} [DecidableEq α] : List (α × β) → α → List (α × β)
  | [], _ => []
  | (k', v) :: t, k => if k' = k then alEraseKey t k else (k', v) :: alEraseKey t k

/-- Go map assignment `m[k] = v`: erase the key, then append the new
binding. -/
def alInsert {α β : Type} [DecidableEq α] (l : List (α × β)) (k : α) (v : β) :
    List (α × β) :=
  alEraseKey l k ++ [(k, v)]

/-- Go `_, ok := m[k]` membership test. -/
def alContains {α β : Type} [DecidableEq α] (l : List (α × β)) (k : α) : Bool :=
  (alLookup l k).isSome

/-- Reject codes of `wire.RejectCode` used by the mempool
(`Duplicate`, `Nonstandard`, `InsufficientFee`, `Invalid`). -/
inductive RejectCode
  | duplicate
  | nonstandard
  | insufficientFee
  | invalid
  deriving DecidableEq, Repr

/-- Errors flowing through the acceptance pipeline: a mempool policy
rejection built by `txRuleError` (carrying its reject code), a wrapped
`blockchain.RuleError` (`chainRuleError`), or any other error such as a
store I/O failure. -/
inductive GoErr
  | txRule (code : RejectCode)
  | chainRule
  | ioError
  deriving DecidableEq, Repr

instance {ε α : Type} [DecidableEq ε] [DecidableEq α] : DecidableEq (Except ε α) := fun a b =>
  match a, b with
  | .ok x, .ok y => if h : x = y then .isTrue (by subst h; rfl) else .isFalse (by simp [h])
  | .error x, .error y => if h : x = y then .isTrue (by subst h; rfl) else .isFalse (by simp [h])
  | .ok _, .error _ => .isFalse (by simp)
  | .error _, .ok _ => .isFalse (by simp)

/-- Modelled from the spec: `extractRejectCode` (mempool error helpers are
not included in src/) recovers the reject code of a policy error; "when not
possible, fall back to a non standard error". -/
def rejectCodeOf : GoErr → RejectCode
  | .txRule c => c
  | _ => .nonstandard

/-- The script-verification flags `maybeAcceptTransaction` manipulates,
as independent bits: `txscript.ScriptVerifyInputSigChecks`,
`txscript.ScriptAllowCashTokens`, `txscript.ScriptAllowMay2025` and
`txscript.ScriptAllowMay2025StandardOnly`.  The remaining bits of
`txscript.StandardVerifyFlags` are never touched by the mempool and are
not represented. -/
structure ScriptFlags where
  verifyInputSigChecks : Bool
  allowCashTokens : Bool
  allowMay2025 : Bool
  allowMay2025StandardOnly : Bool
  deriving DecidableEq, Repr

/-- Modelled from the spec: `txscript.StandardVerifyFlags` (the txscript
package is external).  It contains `ScriptVerifyInputSigChecks` — the
`LimitSigChecks` policy "toggles ScriptVerifyInputSigChecks in flags", an
additional standardness limit that is active by default — and none of the
upgrade-gated allow flags. -/
def StandardVerifyFlags : ScriptFlags :=
  { verifyInputSigChecks := true
    allowCashTokens := false
    allowMay2025 := false
    allowMay2025StandardOnly := false }

/-- mempool.Policy: the configuration parameters controlling the pool.
`MinRelayTxFee` is in satoshi per kB; `FreeTxRelayLimit` in thousands of
bytes per minute. -/
structure Policy where
  maxTxVersion : Int
  disableRelayPriority : Bool
  acceptNonStd : Bool
  freeTxRelayLimit : ℚ
  maxOrphanTxs : Int
  maxOrphanTxSize : Int
  limitSigChecks : Bool
  minRelayTxFee : Int

/-- The fork-activation parameters of `chaincfg.Params` consulted by the
mempool: `MagneticAnonomalyForkHeight`, `Upgrade9ForkHeight` (both block
heights) and `Upgrade11ActivationTime` (a Unix time). -/
structure ChainParams where
  magneticAnonomalyForkHeight : Int
  upgrade9ForkHeight : Int
  upgrade11ActivationTime : Int

/-- The fixed part of `mempool.Config`, plus `mining.MinHighPriority`
(an external constant of the mining package). -/
structure Config where
  policy : Policy
  chainParams : ChainParams
  minHighPriority : ℚ

/-- One entry of a `blockchain.UtxoViewpoint`: only the spent flag is
relevant to the mempool control flow. -/
structure UtxoEntry where
  spent : Bool
  deriving DecidableEq, Repr

/-- A `blockchain.UtxoViewpoint`: outpoint-keyed entries, where a key bound
to `none` models a nil entry pointer stored in the map. -/
abbrev UtxoView := List (OutPoint × Option UtxoEntry)

/-- UtxoViewpoint.LookupEntry: nil both for an absent key and for a key
bound to a nil entry. -/
def lookupEntry (v : UtxoView) (op : OutPoint) : Option UtxoEntry :=
  match alLookup v op with
  | some e => e
  | none => none

/-- UtxoViewpoint.AddTxOut: records output `index` of `tx` as a fresh
unspent entry; out-of-range indices are ignored. -/
def addTxOut (v : UtxoView) (tx : Tx) (index : Nat) : UtxoView :=
  if index < tx.numTxOut then alInsert v ⟨tx.hash, index⟩ (some { spent := false }) else v

/-- A `blockchain.SequenceLock`: the relative time and height locks
computed by the chain backend. -/
structure SeqLock where
  seconds : Int
  blockHeight : Int
  deriving DecidableEq, Repr

/-- Modelled from the spec: `blockchain.SequenceLockActive` (the blockchain
package is external) — the lock is satisfied when both the seconds lock is
before the median time past and the height lock is below the next block
height. -/
def sequenceLockActive (lock : SeqLock) (blockHeight medianTimePast : Int) : Bool :=
  lock.seconds < medianTimePast && lock.blockHeight < blockHeight

/-- The per-call view of the external collaborators of `mempool.Config`:
chain queries (`BestHeight`, `MedianTimePast`, `FetchUtxoView`,
`CalcSequenceLock`) and the external validators of the blockchain, policy
and mining packages.  Each public pool operation may observe different
values, which models the mutable chain state behind these callbacks. -/
structure Oracles where
  fetchUtxoView : Tx → Except GoErr UtxoView
  bestHeight : Int
  medianTimePast : Int
  calcSequenceLock : Tx → UtxoView → Except GoErr SeqLock
  checkTransactionSanity : Tx → Bool → Bool → ScriptFlags → Option GoErr
  checkTransactionStandard : Tx → Int → Int → Int → Int → Bool → Option GoErr
  checkInputsStandard : Tx → UtxoView → ScriptFlags → Option GoErr
  checkTransactionInputs : Tx → Int → UtxoView → Except GoErr Int
  validateTransactionScripts : Tx → UtxoView → ScriptFlags → Option GoErr
  calcPriority : Tx → UtxoView → Int → ℚ

/-- mempool.TxDesc (embedding mining.TxDesc): a pool transaction with its
metadata. -/
structure TxDesc where
  tx : Tx
  added : Int
  height : Int
  fee : Int
  feePerKB : Int
  startingPriority : ℚ
  deriving DecidableEq, Repr

/-- mempool.orphanTx: an orphan transaction with its introducing-peer tag
and its expiration time. -/
structure OrphanTx where
  tx : Tx
  tag : Nat
  expiration : Int
  deriving DecidableEq, Repr

/-- The mutable state of a mempool.TxPool: the four co-indexed maps, the
penny-flood accumulator, the next orphan-expiry scan time and the
last-updated stamp. -/
structure MempoolState where
  pool : List (Hash × TxDesc)
  orphans : List (Hash × OrphanTx)
  orphansByPrev : List (OutPoint × List (Hash × Tx))
  outpoints : List (OutPoint × Tx)
  pennyTotal : ℚ
  lastPennyUnix : Int
  nextExpireScan : Int
  lastUpdated : Int
  deriving DecidableEq, Repr

/-- DefaultBlockPrioritySize: the default size in bytes for high-priority /
low-fee transactions. -/
def DefaultBlockPrioritySize : Int := 1600000

/-- orphanTTL: 15 minutes, in seconds. -/
def orphanTTL : Int := 15 * 60

/-- orphanExpireScanInterval: 5 minutes, in seconds. -/
def orphanExpireScanInterval : Int := 5 * 60

/-- Modelled from the spec: `calcMinRequiredTxRelayFee` (mempool/policy.go
is not included in src/) — "Let `min_fee = max(1, size *
min_relay_fee_per_kb / 1000)`".  The division truncates as Go integer
division does. -/
def calcMinRequiredTxRelayFee (serializedSize minRelayTxFee : Int) : Int :=
  max 1 (Int.tdiv (serializedSize * minRelayTxFee) 1000)

/-- New: the empty pool, with the first orphan-expiry scan scheduled one
interval ahead. -/
def newTxPool (now : Int) : MempoolState :=
  { pool := []
    orphans := []
    orphansByPrev := []
    outpoints := []
    pennyTotal := 0
    lastPennyUnix := 0
    nextExpireScan := now + orphanExpireScanInterval
    lastUpdated := 0 }

/-- The set of orphans spending `op`, i.e. `orphansByPrev[op]` read as a
possibly-absent Go map. -/
def byPrevGet (bp : List (OutPoint × List (Hash × Tx))) (op : OutPoint) :
    List (Hash × Tx) :=
  (alLookup bp op).getD []

/-- Registers `h ↦ tx` under `op` in the previous-orphan index, creating the
inner map when absent (the loop body of addOrphan). -/
def byPrevAdd (bp : List (OutPoint × List (Hash × Tx))) (op : OutPoint) (h : Hash)
    (tx : Tx) : List (OutPoint × List (Hash × Tx)) :=
  alInsert bp op (alInsert (byPrevGet bp op) h tx)

/-- Deletes `h` from `orphansByPrev[op]`, dropping the inner map entirely
when it becomes empty (the back-index scrub loop body of removeOrphan). -/
def byPrevRemove (bp : List (OutPoint × List (Hash × Tx))) (op : OutPoint) (h : Hash) :
    List (OutPoint × List (Hash × Tx)) :=
  match alLookup bp op with
  | none => bp
  | some orphans =>
    let orphans' := alEraseKey orphans h
    if orphans'.isEmpty then alEraseKey bp op else alInsert bp op orphans'

/-- A hash is a member of the previous-orphan index under `op`. -/
def byPrevMem (S : MempoolState) (op : OutPoint) (h : Hash) : Prop :=
  alContains (byPrevGet S.orphansByPrev op) h = true

instance (S : MempoolState) (op : OutPoint) (h : Hash) : Decidable (byPrevMem S op h) := by
  unfold byPrevMem
  infer_instance

/-- removeOrphan: scrubs the orphan from the previous-orphan index of its
stored inputs, optionally removes every orphan redeeming one of its outputs
(recursively), and deletes it from the orphan map.  The Go recursion is
unbounded; `fuel` bounds it here, and every caller passes a fuel that
dominates the recursion depth on index-consistent states. -/
def removeOrphan (S : MempoolState) (tx : Tx) (removeRedeemers : Bool) :
    Nat → MempoolState
  | 0 => S
  | fuel + 1 =>
    match alLookup S.orphans tx.hash with
    | none => S
    | some otx =>
      let S1 := otx.tx.inputs.foldl
        (fun s op => { s with orphansByPrev := byPrevRemove s.orphansByPrev op tx.hash }) S
      let S2 :=
        if removeRedeemers then
          (List.range tx.numTxOut).foldl
            (fun s i =>
              (byPrevGet s.orphansByPrev ⟨tx.hash, i⟩).foldl
                (fun s2 p => removeOrphan s2 p.2 true fuel) s)
            S1
        else S1
      { S2 with orphans := alEraseKey S2.orphans tx.hash }

/-- The fuel handed to `removeOrphan` by its callers inside the model:
strictly more than the number of orphans, which dominates the recursion
depth whenever the orphan indices are consistent. -/
def orphanRemoveFuel (S : MempoolState) : Nat := S.orphans.length + 3

/-- The expiry-scan stage of limitNumOrphans: when the scan time has
passed, removes every expired orphan together with its redeemers and
schedules the next scan one interval after `now`. -/
def expireOrphans (now : Int) (S : MempoolState) : MempoolState :=
  if now > S.nextExpireScan then
    let Sscan := S.orphans.foldl
      (fun s p => if now > p.2.expiration then removeOrphan s p.2.tx true (orphanRemoveFuel s) else s) S
    { Sscan with nextExpireScan := now + orphanExpireScanInterval }
  else S

/-- limitNumOrphans: runs the periodic expiry scan, then, if adding one
more orphan would exceed `MaxOrphanTxs`, evicts one orphan (the Go code
evicts whichever entry map iteration yields first; the model evicts the
head of the list) without removing its redeemers. -/
def limitNumOrphans (cfg : Config) (now : Int) (S : MempoolState) : MempoolState :=
  let S1 := expireOrphans now S
  if (S1.orphans.length : Int) + 1 ≤ cfg.policy.maxOrphanTxs then S1
  else
    match S1.orphans with
    | [] => S1
    | p :: _ => removeOrphan S1 p.2.tx false (orphanRemoveFuel S1)

/-- addOrphan: a no-op when no orphans are allowed; otherwise enforces the
orphan limit, stores the orphan with expiration `now + orphanTTL`, and
registers it in the previous-orphan index under each of its inputs. -/
def addOrphan (cfg : Config) (now : Int) (S : MempoolState) (tx : Tx) (tag : Nat) :
    MempoolState :=
  if cfg.policy.maxOrphanTxs ≤ 0 then S
  else
    let S1 := limitNumOrphans cfg now S
    let S2 := { S1 with
      orphans := alInsert S1.orphans tx.hash { tx := tx, tag := tag, expiration := now + orphanTTL } }
    tx.inputs.foldl
      (fun s op => { s with orphansByPrev := byPrevAdd s.orphansByPrev op tx.hash tx }) S2

/-- maybeAddOrphan: rejects orphans whose serialized size exceeds
`MaxOrphanTxSize` as non-standard, otherwise adds them. -/
def maybeAddOrphan (cfg : Config) (now : Int) (S : MempoolState) (tx : Tx) (tag : Nat) :
    Option GoErr × MempoolState :=
  if tx.serializeSize > cfg.policy.maxOrphanTxSize then
    (some (.txRule .nonstandard), S)
  else
    (none, addOrphan cfg now S tx tag)

/-- removeOrphanDoubleSpends: removes (with their redeemers) all orphans
that spend an outpoint spent by `tx`. -/
def removeOrphanDoubleSpends (S : MempoolState) (tx : Tx) : MempoolState :=
  tx.inputs.foldl
    (fun s op =>
      (byPrevGet s.orphansByPrev op).foldl
        (fun s2 p => removeOrphan s2 p.2 true (orphanRemoveFuel s2)) s)
    S

/-- removeTransaction: when `removeRedeemers` is set, first recursively
removes every pool transaction spending one of `tx`'s outputs; then, if the
transaction is in the pool, unmarks its referenced outpoints and deletes it.
The Go recursion is unbounded; `fuel` bounds it here. -/
def removeTransaction (now : Int) (S : MempoolState) (tx : Tx) (removeRedeemers : Bool) :
    Nat → MempoolState
  | 0 => S
  | fuel + 1 =>
    let S1 :=
      if removeRedeemers then
        (List.range tx.numTxOut).foldl
          (fun s i =>
            match alLookup s.outpoints ⟨tx.hash, i⟩ with
            | some txRedeemer => removeTransaction now s txRedeemer true fuel
            | none => s)
          S
      else S
    match alLookup S1.pool tx.hash with
    | none => S1
    | some txDesc =>
      { S1 with
        outpoints := txDesc.tx.inputs.foldl (fun o op => alEraseKey o op) S1.outpoints
        pool := alEraseKey S1.pool tx.hash
        lastUpdated := now }

/-- RemoveDoubleSpends: removes (with their redeemers) every pool
transaction other than `tx` spending an outpoint spent by `tx`. -/
def removeDoubleSpends (now : Int) (S : MempoolState) (tx : Tx) : MempoolState :=
  tx.inputs.foldl
    (fun s op =>
      match alLookup s.outpoints op with
      | some txRedeemer =>
        if ¬ txRedeemer.hash = tx.hash then
          removeTransaction now s txRedeemer true (s.pool.length + 1)
        else s
      | none => s)
    S

/-- RemoveOrphansByTag: removes (with their redeemers) every orphan tagged
with the given identifier. -/
def removeOrphansByTag (S : MempoolState) (tag : Nat) : MempoolState :=
  S.orphans.foldl
    (fun s p => if p.2.tag = tag then removeOrphan s p.2.tx true (orphanRemoveFuel s) else s) S

/-- checkPoolDoubleSpend: rejects with a duplicate code when any input's
outpoint is already spent by a pool transaction. -/
def checkPoolDoubleSpend (S : MempoolState) (tx : Tx) : Option GoErr :=
  if tx.inputs.any (fun op => alContains S.outpoints op) then
    some (.txRule .duplicate)
  else none

/-- fetchInputUtxos: the chain view of the transaction's inputs, patched
with the outputs of pool transactions for inputs the chain view reports
missing or spent. -/
def fetchInputUtxos (ora : Oracles) (S : MempoolState) (tx : Tx) :
    Except GoErr UtxoView := do
  let base ← ora.fetchUtxoView tx
  pure (tx.inputs.foldl
    (fun v op =>
      match lookupEntry v op with
      | some e =>
        if ¬ e.spent then v
        else
          match alLookup S.pool op.hash with
          | some poolTxDesc => addTxOut v poolTxDesc.tx op.index
          | none => v
      | none =>
        match alLookup S.pool op.hash with
        | some poolTxDesc => addTxOut v poolTxDesc.tx op.index
        | none => v)
    base)

/-- The loop of maybeAcceptTransaction over the transaction's own output
indices: rejects when the chain already has an unspent entry at
`(txHash, i)`, and removes each such entry from the view. -/
def checkOwnOutputs (v : UtxoView) (txHash : Hash) : List Nat → Except GoErr UtxoView
  | [] => .ok v
  | i :: rest =>
    let op : OutPoint := ⟨txHash, i⟩
    match lookupEntry v op with
    | some e =>
      if ¬ e.spent then .error (.txRule .duplicate)
      else checkOwnOutputs (alEraseKey v op) txHash rest
    | none => checkOwnOutputs (alEraseKey v op) txHash rest

/-- The missing-parent collection of maybeAcceptTransaction: the hashes of
every view entry that is absent or spent. -/
def missingParentsOf (v : UtxoView) : List Hash :=
  v.foldr
    (fun p acc =>
      match p.2 with
      | none => p.1.hash :: acc
      | some e => if e.spent then p.1.hash :: acc else acc)
    []

/-- The script-flag computation of maybeAcceptTransaction: starts from
`StandardVerifyFlags`, XORs out `ScriptVerifyInputSigChecks` unless
`LimitSigChecks` is set, and ORs in the token / May2025 allowances when the
respective upgrades are active. -/
def scriptFlagsFor (cfg : Config) (upgrade9Active upgrade11Active : Bool) : ScriptFlags :=
  let f0 := StandardVerifyFlags
  let f1 :=
    if ¬ cfg.policy.limitSigChecks then
      { f0 with verifyInputSigChecks := ! f0.verifyInputSigChecks }
    else f0
  let f2 := if upgrade9Active then { f1 with allowCashTokens := true } else f1
  if upgrade11Active then
    let f3 := { f2 with allowMay2025 := true }
    if ¬ cfg.policy.acceptNonStd then { f3 with allowMay2025StandardOnly := true } else f3
  else f2

/-- addTransaction: builds the TxDesc, inserts it into the pool, marks each
referenced outpoint as spent by `tx`, and stamps `lastUpdated`.  (The
address-index and fee-estimator notifications have no pool state.) -/
def addTransaction (ora : Oracles) (now : Int) (S : MempoolState) (utxoView : UtxoView)
    (tx : Tx) (height fee : Int) : TxDesc × MempoolState :=
  let txD : TxDesc :=
    { tx := tx
      added := now
      height := height
      fee := fee
      feePerKB := Int.tdiv (fee * 1000) tx.serializeSize
      startingPriority := ora.calcPriority tx utxoView height }
  (txD,
    { S with
      pool := alInsert S.pool tx.hash txD
      outpoints := tx.inputs.foldl (fun o op => alInsert o op tx) S.outpoints
      lastUpdated := now })

/-- The three-way result of maybeAcceptTransaction: an error, a non-empty
list of missing parent hashes, or the descriptor of the accepted
transaction. -/
inductive AcceptResult
  | err (e : GoErr)
  | missing (parents : List Hash)
  | accepted (txD : TxDesc)
  deriving DecidableEq, Repr

/-- The tail of maybeAcceptTransaction after the free-tx rate limiter:
script validation, then insertion into the pool. -/
def validateAndAdd (ora : Oracles) (now : Int) (S : MempoolState) (tx : Tx)
    (utxoView : UtxoView) (scriptFlags : ScriptFlags) (bestHeight txFee : Int) :
    AcceptResult × MempoolState :=
  match ora.validateTransactionScripts tx utxoView scriptFlags with
  | some e => (.err e, S)
  | none =>
    let (txD, S') := addTransaction ora now S utxoView tx bestHeight txFee
    (.accepted txD, S')

/-- The tail of maybeAcceptTransaction from the minimum-fee computation on:
minimum-fee gate, priority gate, free-tx rate limiter, script validation
and admission. -/
def feeGateStage (cfg : Config) (ora : Oracles) (now : Int) (S : MempoolState)
    (tx : Tx) (isNew rateLimit : Bool) (scriptFlags : ScriptFlags)
    (utxoView : UtxoView) (txFee : Int) : AcceptResult × MempoolState :=
  let bestHeight := ora.bestHeight
  let nextBlockHeight := bestHeight + 1
  let serializedSize := tx.serializeSize
  let minFee := calcMinRequiredTxRelayFee serializedSize cfg.policy.minRelayTxFee
  if serializedSize ≥ DefaultBlockPrioritySize - 1000 ∧ txFee < minFee then
    (.err (.txRule .insufficientFee), S)
  else
  if isNew ∧ ¬ cfg.policy.disableRelayPriority = true ∧ txFee < minFee ∧
      ora.calcPriority tx utxoView nextBlockHeight ≤ cfg.minHighPriority then
    (.err (.txRule .insufficientFee), S)
  else
  if rateLimit ∧ txFee < minFee then
    let S1 := { S with
      pennyTotal := S.pennyTotal * (1 - 1 / 600 : ℚ) ^ (now - S.lastPennyUnix)
      lastPennyUnix := now }
    if S1.pennyTotal ≥ cfg.policy.freeTxRelayLimit * 10 * 1000 then
      (.err (.txRule .insufficientFee), S1)
    else
      let S2 := { S1 with pennyTotal := S1.pennyTotal + (serializedSize : ℚ) }
      validateAndAdd ora now S2 tx utxoView scriptFlags bestHeight txFee
  else
    validateAndAdd ora now S tx utxoView scriptFlags bestHeight txFee

/-- maybeAcceptTransaction: the acceptance pipeline, in source order —
duplicate check, context and flag derivation, sanity, coinbase rejection,
standardness, in-pool double spend, input fetch, already-mined check,
orphan detection, sequence locks, input checks and fee, input standardness,
then the fee-gate tail (`feeGateStage`). -/
def maybeAcceptTransaction (cfg : Config) (ora : Oracles) (now : Int) (S : MempoolState)
    (tx : Tx) (isNew rateLimit rejectDupOrphans : Bool) : AcceptResult × MempoolState :=
  if alContains S.pool tx.hash || (rejectDupOrphans && alContains S.orphans tx.hash) then
    (.err (.txRule .duplicate), S)
  else
    let medianTimePast := ora.medianTimePast
    let bestHeight := ora.bestHeight
    let nextBlockHeight := bestHeight + 1
    let magneticAnomalyActive := decide (nextBlockHeight > cfg.chainParams.magneticAnonomalyForkHeight)
    let upgrade9Active := decide (nextBlockHeight > cfg.chainParams.upgrade9ForkHeight)
    let upgrade11Active := decide (medianTimePast ≥ cfg.chainParams.upgrade11ActivationTime)
    let scriptFlags := scriptFlagsFor cfg upgrade9Active upgrade11Active
    match ora.checkTransactionSanity tx magneticAnomalyActive upgrade9Active scriptFlags with
    | some e => (.err e, S)
    | none =>
    if tx.isCoinBase then (.err (.txRule .invalid), S)
    else
    match
      (if ¬ cfg.policy.acceptNonStd then
        ora.checkTransactionStandard tx nextBlockHeight medianTimePast
          cfg.policy.minRelayTxFee cfg.policy.maxTxVersion upgrade9Active
      else none) with
    | some e => (.err (.txRule (rejectCodeOf e)), S)
    | none =>
    match checkPoolDoubleSpend S tx with
    | some e => (.err e, S)
    | none =>
    match fetchInputUtxos ora S tx with
    | .error e => (.err e, S)
    | .ok utxoView0 =>
    match checkOwnOutputs utxoView0 tx.hash (List.range tx.numTxOut) with
    | .error e => (.err e, S)
    | .ok utxoView =>
    let missingParents := missingParentsOf utxoView
    if missingParents.length > 0 then (.missing missingParents, S)
    else
    match ora.calcSequenceLock tx utxoView with
    | .error e => (.err e, S)
    | .ok sequenceLock =>
    if ¬ sequenceLockActive sequenceLock nextBlockHeight medianTimePast then
      (.err (.txRule .nonstandard), S)
    else
    match ora.checkTransactionInputs tx nextBlockHeight utxoView with
    | .error e => (.err e, S)
    | .ok txFee =>
    match
      (if ¬ cfg.policy.acceptNonStd then ora.checkInputsStandard tx utxoView scriptFlags
       else none) with
    | some e => (.err (.txRule (rejectCodeOf e)), S)
    | none =>
    feeGateStage cfg ora now S tx isNew rateLimit scriptFlags utxoView txFee

/-- The inner loop of processOrphans over the orphans redeeming one output:
tries each in turn; on an error the orphan and its redeemers are removed and
the loop breaks; an orphan with still-missing parents is skipped; the first
accepted orphan is removed from the orphan pool (keeping its redeemers) and
returned, and the loop breaks. -/
def processOrphanOutMembers (cfg : Config) (ora : Oracles) (now : Int) :
    List (Hash × Tx) → MempoolState → MempoolState × Option (TxDesc × Tx)
  | [], S => (S, none)
  | p :: rest, S =>
    match maybeAcceptTransaction cfg ora now S p.2 true true false with
    | (.err _, S1) => (removeOrphan S1 p.2 true (orphanRemoveFuel S1), none)
    | (.missing _, S1) => processOrphanOutMembers cfg ora now rest S1
    | (.accepted txD, S1) => (removeOrphan S1 p.2 false (orphanRemoveFuel S1), some (txD, p.2))

/-- The loop of processOrphans over the outputs of one process-list item:
accumulates the accepted descriptors and the transactions to enqueue. -/
def processOrphanOutputs (cfg : Config) (ora : Oracles) (now : Int) (h : Hash) :
    List Nat → MempoolState → List TxDesc → List Tx →
    MempoolState × List TxDesc × List Tx
  | [], S, accD, accT => (S, accD, accT)
  | i :: rest, S, accD, accT =>
    match alLookup S.orphansByPrev ⟨h, i⟩ with
    | none => processOrphanOutputs cfg ora now h rest S accD accT
    | some orphans =>
      match processOrphanOutMembers cfg ora now orphans S with
      | (S', none) => processOrphanOutputs cfg ora now h rest S' accD accT
      | (S', some (txD, t)) =>
        processOrphanOutputs cfg ora now h rest S' (accD ++ [txD]) (accT ++ [t])

/-- The breadth-first process list of processOrphans.  `fuel` bounds the
number of dequeues (in Go the loop runs until the list empties; one initial
item plus at most one enqueue per accepted orphan makes `|orphans| + 1`
dequeues enough on index-consistent states). -/
def processOrphansLoop (cfg : Config) (ora : Oracles) (now : Int) :
    Nat → List Tx → List TxDesc → MempoolState → List TxDesc × MempoolState
  | 0, _, accD, S => (accD, S)
  | _ + 1, [], accD, S => (accD, S)
  | fuel + 1, item :: rest, accD, S =>
    match processOrphanOutputs cfg ora now item.hash (List.range item.numTxOut) S [] [] with
    | (S', accD', accT') =>
      processOrphansLoop cfg ora now fuel (rest ++ accT') (accD ++ accD') S'

/-- processOrphans: breadth-first promotion of the orphans made
satisfiable by `acceptedTx`, then removal of every orphan double spending an
output redeemed by the accepted transactions. -/
def processOrphans (cfg : Config) (ora : Oracles) (now : Int) (S : MempoolState)
    (acceptedTx : Tx) : List TxDesc × MempoolState :=
  match processOrphansLoop cfg ora now (S.orphans.length + 1) [acceptedTx] [] S with
  | (acceptedTxns, S') =>
    let S'' := removeOrphanDoubleSpends S' acceptedTx
    let S''' := acceptedTxns.foldl (fun s d => removeOrphanDoubleSpends s d.tx) S''
    (acceptedTxns, S''')

/-- ProcessTransaction: accepts the transaction, promotes its orphan
descendants on success, and otherwise either rejects the orphan or stashes
it in the orphan pool depending on `allowOrphan`. -/
def processTransaction (cfg : Config) (ora : Oracles) (now : Int) (S : MempoolState)
    (tx : Tx) (allowOrphan rateLimit : Bool) (tag : Nat) :
    Except GoErr (List TxDesc) × MempoolState :=
  match maybeAcceptTransaction cfg ora now S tx true rateLimit true with
  | (.err e, S') => (.error e, S')
  | (.accepted txD, S') =>
    match processOrphans cfg ora now S' tx with
    | (newTxs, S'') => (.ok (txD :: newTxs), S'')
  | (.missing _, S') =>
    if ¬ allowOrphan then (.error (.txRule .duplicate), S')
    else
      match maybeAddOrphan cfg now S' tx tag with
      | (some e, S'') => (.error e, S'')
      | (none, S'') => (.ok [], S'')

/-- One mutation of the pool state by a public TxPool operation (each
acquires the pool mutex around the corresponding internal function). -/
inductive PoolStep (cfg : Config) : MempoolState → MempoolState → Prop
  | processTransaction (ora : Oracles) (now : Int) (S : MempoolState) (tx : Tx)
      (allowOrphan rateLimit : Bool) (tag : Nat) :
      PoolStep cfg S (processTransaction cfg ora now S tx allowOrphan rateLimit tag).2
  | maybeAcceptTransaction (ora : Oracles) (now : Int) (S : MempoolState) (tx : Tx)
      (isNew rateLimit : Bool) :
      PoolStep cfg S (maybeAcceptTransaction cfg ora now S tx isNew rateLimit true).2
  | processOrphans (ora : Oracles) (now : Int) (S : MempoolState) (acceptedTx : Tx) :
      PoolStep cfg S (processOrphans cfg ora now S acceptedTx).2
  | removeTransaction (now : Int) (S : MempoolState) (tx : Tx) (removeRedeemers : Bool) :
      PoolStep cfg S (removeTransaction now S tx removeRedeemers (S.pool.length + 1))
  | removeDoubleSpends (now : Int) (S : MempoolState) (tx : Tx) :
      PoolStep cfg S (removeDoubleSpends now S tx)
  | removeOrphan (S : MempoolState) (tx : Tx) :
      PoolStep cfg S (removeOrphan S tx false (orphanRemoveFuel S))
  | removeOrphansByTag (S : MempoolState) (tag : Nat) :
      PoolStep cfg S (removeOrphansByTag S tag)

/-- The pool states observable outside the pool mutex: those reached from a
freshly constructed pool by a sequence of public operations. -/
inductive Reachable (cfg : Config) : MempoolState → Prop
  | init (now : Int) : Reachable cfg (newTxPool now)
  | step {S S' : MempoolState} : Reachable cfg S → PoolStep cfg S S' → Reachable cfg S'

/-- The four maps, the scan deadline and the update stamp of `S'` agree
with `S` (only the rate-limit accumulator may differ). -/
def MapsEq (S S' : MempoolState) : Prop :=
  S'.pool = S.pool ∧ S'.outpoints = S.outpoints ∧ S'.orphans = S.orphans ∧
  S'.orphansByPrev = S.orphansByPrev ∧ S'.nextExpireScan = S.nextExpireScan ∧
  S'.lastUpdated = S.lastUpdated

/-- What each outcome of maybeAcceptTransaction implies about the state it
returns: an error leaves every map as it was; an orphan report leaves the
state untouched; an accepted transaction is inserted into `pool` and
`outpoints` of an otherwise unchanged state after the duplicate and in-pool
double-spend guards passed. -/
def AcceptSpec (S : MempoolState) (tx : Tx) (rejectDupOrphans : Bool) :
    AcceptResult × MempoolState → Prop
  | (.err _, S') => MapsEq S S'
  | (.missing _, S') => S' = S
  | (.accepted txD, S') =>
    txD.tx = tx ∧
    S'.pool = alInsert S.pool tx.hash txD ∧
    S'.outpoints = tx.inputs.foldl (fun o op => alInsert o op tx) S.outpoints ∧
    S'.orphans = S.orphans ∧
    S'.orphansByPrev = S.orphansByPrev ∧
    S'.nextExpireScan = S.nextExpireScan ∧
    alContains S.pool tx.hash = false ∧
    checkPoolDoubleSpend S tx = none ∧
    (rejectDupOrphans = true → alContains S.orphans tx.hash = false)

/-- The script-verification flags `maybeAcceptTransaction` derives from the
chain context of one call. -/
def mempoolScriptFlags (cfg : Config) (ora : Oracles) : ScriptFlags :=
  scriptFlagsFor cfg (decide (ora.bestHeight + 1 > cfg.chainParams.upgrade9ForkHeight))
    (decide (ora.medianTimePast ≥ cfg.chainParams.upgrade11ActivationTime))

/-- The pipeline of `maybeAcceptTransaction` passes every stage before the
minimum-fee gate: no duplicate, sanity ok, not a coinbase, standard (or
standardness not enforced), no in-pool double spend, inputs fetched as `v`,
no own unspent output in the chain (view `v2` after removal), no missing
parents, sequence lock `lock` computed and active, input checks yield
`txFee`, and input standardness ok. -/
def ReachesFeeStage (cfg : Config) (ora : Oracles) (S : MempoolState) (tx : Tx)
    (rejectDupOrphans : Bool) (v v2 : UtxoView) (lock : SeqLock) (txFee : Int) : Prop :=
  (alContains S.pool tx.hash || (rejectDupOrphans && alContains S.orphans tx.hash)) = false ∧
  ora.checkTransactionSanity tx
    (decide (ora.bestHeight + 1 > cfg.chainParams.magneticAnonomalyForkHeight))
    (decide (ora.bestHeight + 1 > cfg.chainParams.upgrade9ForkHeight))
    (mempoolScriptFlags cfg ora) = none ∧
  tx.isCoinBase = false ∧
  (if ¬ cfg.policy.acceptNonStd then
    ora.checkTransactionStandard tx (ora.bestHeight + 1) ora.medianTimePast
      cfg.policy.minRelayTxFee cfg.policy.maxTxVersion
      (decide (ora.bestHeight + 1 > cfg.chainParams.upgrade9ForkHeight))
  else none) = none ∧
  checkPoolDoubleSpend S tx = none ∧
  fetchInputUtxos ora S tx = .ok v ∧
  checkOwnOutputs v tx.hash (List.range tx.numTxOut) = .ok v2 ∧
  missingParentsOf v2 = [] ∧
  ora.calcSequenceLock tx v2 = .ok lock ∧
  sequenceLockActive lock (ora.bestHeight + 1) ora.medianTimePast = true ∧
  ora.checkTransactionInputs tx (ora.bestHeight + 1) v2 = .ok txFee ∧
  (if ¬ cfg.policy.acceptNonStd then
    ora.checkInputsStandard tx v2 (mempoolScriptFlags cfg ora)
  else none) = none

instance (cfg : Config) (ora : Oracles) (S : MempoolState) (tx : Tx)
    (rejectDupOrphans : Bool) (v v2 : UtxoView) (lock : SeqLock) (txFee : Int) :
    Decidable (ReachesFeeStage cfg ora S tx rejectDupOrphans v v2 lock txFee) := by
  unfold ReachesFeeStage
  infer_instance

/-- A permissive example policy for concrete runs. -/
def exPolicy : Policy :=
  { maxTxVersion := 2
    disableRelayPriority := false
    acceptNonStd := true
    freeTxRelayLimit := 15
    maxOrphanTxs := 100
    maxOrphanTxSize := 100000
    limitSigChecks := true
    minRelayTxFee := 1000 }

/-- Example chain parameters with every upgrade already active. -/
def exParams : ChainParams :=
  { magneticAnonomalyForkHeight := 0
    upgrade9ForkHeight := 0
    upgrade11ActivationTime := 0 }

/-- Example mempool configuration. -/
def exCfg : Config :=
  { policy := exPolicy, chainParams := exParams, minHighPriority := 57600000 }

/-- Example chain view holding one unspent output at `(1, 0)`. -/
def exChainView : UtxoView := [(⟨1, 0⟩, some { spent := false })]

/-- Example oracles: every validator passes, the chain view is
`exChainView`, and the input checks report the given fee. -/
def exOra (fee : Int) : Oracles :=
  { fetchUtxoView := fun _ => .ok exChainView
    bestHeight := 100
    medianTimePast := 1000
    calcSequenceLock := fun _ _ => .ok { seconds := -1, blockHeight := -1 }
    checkTransactionSanity := fun _ _ _ _ => none
    checkTransactionStandard := fun _ _ _ _ _ _ => none
    checkInputsStandard := fun _ _ _ => none
    checkTransactionInputs := fun _ _ _ => .ok fee
    validateTransactionScripts := fun _ _ _ => none
    calcPriority := fun _ _ _ => 1000000000 }

/-- Example large transaction (size within 1000 bytes of the block
priority area) spending `(1, 0)`. -/
def exBigTx : Tx :=
  { hash := 10, inputs := [⟨1, 0⟩], numTxOut := 1, serializeSize := 1599000, isCoinBase := false }

/-- Example small transaction spending `(1, 0)`. -/
def exSmallTx : Tx :=
  { hash := 10, inputs := [⟨1, 0⟩], numTxOut := 1, serializeSize := 200, isCoinBase := false }

/-- Example orphan transaction: spends the unknown output `(5, 0)`. -/
def exOrphanTx : Tx :=
  { hash := 20, inputs := [⟨5, 0⟩], numTxOut := 1, serializeSize := 200, isCoinBase := false }

/-- Example oracles under which every parent is missing. -/
def exOraMissing : Oracles :=
  { exOra 5 with fetchUtxoView := fun _ => .ok [(⟨5, 0⟩, none)] }

/-- Accumulated effect of removal-only operations on the orphan state: the
pool side and the rate-limit accumulator are untouched, the orphan map only
loses bindings, the previous-orphan index only loses members, and a member
lost from the index while `escape` is not its hash has also been removed
from the orphan map. -/
def RemovalAux (escape : Option Hash) (S S' : MempoolState) : Prop :=
  S'.pool = S.pool ∧ S'.outpoints = S.outpoints ∧ S'.pennyTotal = S.pennyTotal ∧
  S'.lastPennyUnix = S.lastPennyUnix ∧ S'.nextExpireScan = S.nextExpireScan ∧
  S'.lastUpdated = S.lastUpdated ∧
  S'.orphans.Sublist S.orphans ∧
  (∀ h o, alLookup S'.orphans h = some o → alLookup S.orphans h = some o) ∧
  (∀ op h t, alLookup (byPrevGet S'.orphansByPrev op) h = some t →
      alLookup (byPrevGet S.orphansByPrev op) h = some t) ∧
  (∀ op h, alContains (byPrevGet S.orphansByPrev op) h = true →
      alContains (byPrevGet S'.orphansByPrev op) h = false →
      alContains S'.orphans h = false ∨ escape = some h)

/-- RemovalAux with no escape hash: every member lost from the index has
been removed from the orphan map. -/
def RemovalOk (S S' : MempoolState) : Prop := RemovalAux none S S'

/-- Every orphan-map binding stores a transaction whose hash is the binding
key (true of all states built by addOrphan). -/
def OrphansWellKeyed (S : MempoolState) : Prop :=
  ∀ p ∈ S.orphans, (p.2 : OrphanTx).tx.hash = p.1

/-- The pool/outpoints invariant: every pool binding is keyed by its
transaction's hash, and every input of a pool transaction is recorded in
`outpoints` as spent by exactly that transaction. -/
def PoolInv (S : MempoolState) : Prop :=
  ∀ h d, alLookup S.pool h = some d → d.tx.hash = h ∧
    ∀ op ∈ d.tx.inputs, alLookup S.outpoints op = some d.tx

/-- No hash is simultaneously in the pool and in the orphan pool. -/
def PoolOrphanDisjoint (S : MempoolState) : Prop :=
  ∀ h, alContains S.pool h = true → alContains S.orphans h = false

/-- The combined invariant of reachable pool states used by the
invariant claims. -/
def StateInv (cfg : Config) (S : MempoolState) : Prop :=
  PoolInv S ∧ PoolOrphanDisjoint S ∧ OrphansWellKeyed S ∧
  (0 ≤ cfg.policy.maxOrphanTxs → (S.orphans.length : Int) ≤ cfg.policy.maxOrphanTxs)

/-- Accumulated effect of pool-removal operations: the orphan side and the
rate-limit accumulator are untouched, the pool only loses bindings, and the
pool/outpoints invariant is preserved. -/
def PoolShrinkOk (S S' : MempoolState) : Prop :=
  S'.orphans = S.orphans ∧ S'.orphansByPrev = S.orphansByPrev ∧
  S'.pennyTotal = S.pennyTotal ∧ S'.lastPennyUnix = S.lastPennyUnix ∧
  S'.nextExpireScan = S.nextExpireScan ∧
  (∀ h d, alLookup S'.pool h = some d → alLookup S.pool h = some d) ∧
  (PoolInv S → PoolInv S')

/-- A pool state whose orphan map is at its capacity of one. -/
def exOrphanOtx : OrphanTx := { tx := exOrphanTx, tag := 7, expiration := 900 }

/-- A pool state holding one orphan. -/
def exFullPool : MempoolState := { newTxPool 0 with orphans := [(20, exOrphanOtx)] }

/-- Example configuration with an orphan capacity of one. -/
def exCfgMax1 : Config := { exCfg with policy := { exPolicy with maxOrphanTxs := 1 } }

/-- The set of orphan hashes registered in one inner list of the
previous-orphan index. -/
def innerKeys (l : List (Hash × Tx)) : Finset Hash :=
  l.foldr (fun q a => insert q.1 a) ∅

/-- The set of orphan hashes registered anywhere in the previous-orphan
index.  On well-formed states its cardinality bounds the recursion depth of
`removeOrphan` with redeemer removal. -/
def idxKeys (bp : List (OutPoint × List (Hash × Tx))) : Finset Hash :=
  bp.foldr (fun p a => innerKeys p.2 ∪ a) ∅

/-- Consistency of the orphan pool with its previous-orphan index: every
index binding stores a transaction keyed by its own hash, registered under
one of its input outpoints, and matching the transaction held in the
orphan map for that hash; orphan-map bindings are keyed by their
transaction hash; and the orphan map, the outer index map and every inner
index list carry no duplicate keys.  All states built by the pool
operations keep this shape. -/
def WfIdx (S : MempoolState) : Prop :=
  (∀ pr ∈ S.orphansByPrev, ∀ q ∈ (pr : OutPoint × List (Hash × Tx)).2,
      (q : Hash × Tx).2.hash = q.1 ∧ pr.1 ∈ q.2.inputs ∧
      (alLookup S.orphans q.1).map OrphanTx.tx = some q.2) ∧
  (∀ p ∈ S.orphans, (p : Hash × OrphanTx).2.tx.hash = p.1) ∧
  (S.orphans.map Prod.fst).Nodup ∧
  (S.orphansByPrev.map Prod.fst).Nodup ∧
  (∀ pr ∈ S.orphansByPrev, ((pr : OutPoint × List (Hash × Tx)).2.map Prod.fst).Nodup)

instance (S : MempoolState) : Decidable (WfIdx S) := by
  unfold WfIdx
  infer_instance

/-- Removal accounting extended with redeemer closure: additionally, every
redeemer registered in the start state's index under an output of an orphan
that the operation removed is itself removed (or is the escape hash). -/
def RemCloA (esc : Option Hash) (S S' : MempoolState) : Prop :=
  RemovalAux esc S S' ∧
  ∀ q o i c t, alLookup S.orphans q = some o → alContains S'.orphans q = false →
    i < o.tx.numTxOut → alLookup (byPrevGet S.orphansByPrev ⟨q, i⟩) c = some t →
    (alContains S'.orphans c = false ∨ esc = some c)

/-- Orphan `d` is a descendant of orphan `q` in state `S`: the index
registers `d` as redeeming one of the outputs of the transaction stored in
the orphan map for `q`, or transitively so. -/
inductive OrphanDescendant (S : MempoolState) : Hash → Hash → Prop
  | direct {q : Hash} {o : OrphanTx} {i : Nat} {c : Hash} {t : Tx} :
      alLookup S.orphans q = some o → i < o.tx.numTxOut →
      alLookup (byPrevGet S.orphansByPrev ⟨q, i⟩) c = some t →
      OrphanDescendant S q c
  | trans {a b c : Hash} : OrphanDescendant S a b → OrphanDescendant S b c →
      OrphanDescendant S a c

/-- Example: an expired orphan spending a missing parent output. -/
def exTx20 : Tx :=
  { hash := 20, inputs := [⟨5, 0⟩], numTxOut := 1, serializeSize := 100, isCoinBase := false }

/-- Example: a child orphan redeeming output 0 of the expired orphan. -/
def exTx30 : Tx :=
  { hash := 30, inputs := [⟨20, 0⟩], numTxOut := 1, serializeSize := 100, isCoinBase := false }

/-- The expired orphan entry. -/
def exO20 : OrphanTx := { tx := exTx20, tag := 1, expiration := 100 }

/-- The unexpired descendant orphan entry. -/
def exO30 : OrphanTx := { tx := exTx30, tag := 1, expiration := 5000 }

/-- A well-formed pool state holding an expired orphan together with an
unexpired descendant orphan. -/
def exWfState : MempoolState :=
  { newTxPool 0 with
    orphans := [(20, exO20), (30, exO30)]
    orphansByPrev := [(⟨5, 0⟩, [(20, exTx20)]), (⟨20, 0⟩, [(30, exTx30)])] }

/-- A fresh orphan to admit. -/
def exTx40 : Tx :=
  { hash := 40, inputs := [⟨6, 0⟩], numTxOut := 1, serializeSize := 100, isCoinBase := false }

/-- Example parent transaction with two outputs, spending the known chain
output `(1, 0)`. -/
def exParentTx : Tx :=
  { hash := 100, inputs := [⟨1, 0⟩], numTxOut := 2, serializeSize := 200, isCoinBase := false }

/-- Orphan child spending the parent's first output. -/
def exChildA : Tx :=
  { hash := 101, inputs := [⟨100, 0⟩], numTxOut := 1, serializeSize := 200, isCoinBase := false }

/-- Orphan child spending the parent's second output. -/
def exChildB : Tx :=
  { hash := 102, inputs := [⟨100, 1⟩], numTxOut := 1, serializeSize := 200, isCoinBase := false }

/-- Orphan child conflicting with `exChildA`: it spends the same parent
output. -/
def exChildC : Tx :=
  { hash := 103, inputs := [⟨100, 0⟩], numTxOut := 1, serializeSize := 200, isCoinBase := false }

/-- Oracles for the promotion scenarios: the chain knows only `(1, 0)`, so
a transaction's view holds exactly its inputs, with the parent's chain
input present and every other input absent; reported fees are ample. -/
def exOraC5 : Oracles :=
  { exOra 100000 with
    fetchUtxoView := fun tx => .ok (tx.inputs.map (fun op =>
      (op, if op = ⟨1, 0⟩ then some { spent := false } else none))) }

/-- State equivalence preserved by the orphan-promotion pipeline: the pool,
outpoints and rate-limit accumulator agree, and the orphan map and the
previous-orphan index hold the same bindings as Go maps (the association
lists may order them differently), duplicate-free on the orphan side. -/
def StEquiv (S S' : MempoolState) : Prop :=
  S.pool = S'.pool ∧ S.outpoints = S'.outpoints ∧ S.pennyTotal = S'.pennyTotal ∧
  S.lastPennyUnix = S'.lastPennyUnix ∧
  (∀ k, alLookup S.orphans k = alLookup S'.orphans k) ∧
  (S.orphans.map Prod.fst).Nodup ∧ (S'.orphans.map Prod.fst).Nodup ∧
  (∀ op, alLookup S.orphansByPrev op = alLookup S'.orphansByPrev op)

theorem alLookup_append {α β : Type} [DecidableEq α] (l₁ l₂ : List (α × β)) (k : α) :
    alLookup (l₁ ++ l₂) k =
      match alLookup l₁ k with
      | some v => some v
      | none => alLookup l₂ k := by
  induction l₁ with
  | nil => simp [alLookup]
  | cons p t ih =>
    by_cases h : p.1 = k
    · simp [alLookup, h]
    · simp [alLookup, h, ih]

theorem alLookup_eraseKey_self {α β : Type} [DecidableEq α] (l : List (α × β)) (k : α) :
    alLookup (alEraseKey l k) k = none := by
  induction l with
  | nil => simp [alEraseKey, alLookup]
  | cons p t ih =>
    by_cases h : p.1 = k
    · simp [alEraseKey, h, ih]
    · simp [alEraseKey, alLookup, h, ih]

theorem alLookup_eraseKey_ne {α β : Type} [DecidableEq α] (l : List (α × β)) {k k' : α}
    (h : k' ≠ k) : alLookup (alEraseKey l k) k' = alLookup l k' := by
  induction l with
  | nil => simp [alEraseKey]
  | cons p t ih =>
    have hne : k ≠ k' := fun hh => h hh.symm
    by_cases hp : p.1 = k
    · simp [alEraseKey, hp, alLookup, hne, ih]
    · by_cases hp' : p.1 = k'
      · simp [alEraseKey, hp, alLookup, hp', hne, h]
      · simp [alEraseKey, hp, alLookup, hp', ih]

theorem alLookup_insert_self {α β : Type} [DecidableEq α] (l : List (α × β)) (k : α) (v : β) :
    alLookup (alInsert l k v) k = some v := by
  simp [alInsert, alLookup_append, alLookup_eraseKey_self, alLookup]

theorem alLookup_insert_ne {α β : Type} [DecidableEq α] (l : List (α × β)) {k k' : α} (v : β)
    (h : k' ≠ k) : alLookup (alInsert l k v) k' = alLookup l k' := by
  have hne : ¬k = k' := fun hh => h hh.symm
  simp [alInsert, alLookup_append, alLookup_eraseKey_ne l h, alLookup, hne]
  cases alLookup l k' <;> simp

theorem alEraseKey_length_le {α β : Type} [DecidableEq α] (l : List (α × β)) (k : α) :
    (alEraseKey l k).length ≤ l.length := by
  induction l with
  | nil => simp [alEraseKey]
  | cons p t ih =>
    by_cases h : p.1 = k
    · simp [alEraseKey, h]; omega
    · simp [alEraseKey, h]; omega

theorem alEraseKey_length_lt {α β : Type} [DecidableEq α] (l : List (α × β)) (k : α)
    (h : alContains l k = true) : (alEraseKey l k).length < l.length := by
  induction l with
  | nil => simp [alContains, alLookup] at h
  | cons p t ih =>
    by_cases hp : p.1 = k
    · have := alEraseKey_length_le t k
      simp [alEraseKey, hp]
      omega
    · have hmem : alContains t k = true := by
        simpa [alContains, alLookup, hp] using h
      have := ih hmem
      simp [alEraseKey, hp]
      omega

theorem alInsert_length_le {α β : Type} [DecidableEq α] (l : List (α × β)) (k : α) (v : β) :
    (alInsert l k v).length ≤ l.length + 1 := by
  have := alEraseKey_length_le l k
  simp [alInsert]
  omega

theorem alContains_iff {α β : Type} [DecidableEq α] (l : List (α × β)) (k : α) :
    alContains l k = true ↔ ∃ v, alLookup l k = some v := by
  unfold alContains
  cases alLookup l k <;> simp

theorem mapsEq_refl (S : MempoolState) : MapsEq S S :=
  ⟨rfl, rfl, rfl, rfl, rfl, rfl⟩

theorem maybeAcceptTransaction_spec (cfg : Config) (ora : Oracles) (now : Int)
    (S : MempoolState) (tx : Tx) (isNew rateLimit rejectDupOrphans : Bool) :
    AcceptSpec S tx rejectDupOrphans
      (maybeAcceptTransaction cfg ora now S tx isNew rateLimit rejectDupOrphans) := by
  unfold maybeAcceptTransaction
  split
  · exact mapsEq_refl S
  · rename_i hdup
    have hpool : alContains S.pool tx.hash = false := by
      cases h : alContains S.pool tx.hash
      · rfl
      · exact absurd (by simp [h]) hdup
    have horph : rejectDupOrphans = true → alContains S.orphans tx.hash = false := by
      intro hrd
      cases h : alContains S.orphans tx.hash
      · rfl
      · exact absurd (by simp [hpool, hrd, h]) hdup
    dsimp only
    split
    · exact mapsEq_refl S
    · split
      · exact mapsEq_refl S
      · split
        · exact mapsEq_refl S
        · split
          · exact mapsEq_refl S
          · rename_i hdbl
            split
            · exact mapsEq_refl S
            · split
              · exact mapsEq_refl S
              · split
                · rfl
                · split
                  · exact mapsEq_refl S
                  · split
                    · exact mapsEq_refl S
                    · split
                      · exact mapsEq_refl S
                      · split
                        · exact mapsEq_refl S
                        · unfold feeGateStage
                          dsimp only
                          split
                          · exact mapsEq_refl S
                          · split
                            · exact mapsEq_refl S
                            · split
                              · -- rate-limited path
                                split
                                · exact ⟨rfl, rfl, rfl, rfl, rfl, rfl⟩
                                · unfold validateAndAdd
                                  split
                                  · exact ⟨rfl, rfl, rfl, rfl, rfl, rfl⟩
                                  · exact ⟨rfl, rfl, rfl, rfl, rfl, rfl, hpool, hdbl, horph⟩
                              · unfold validateAndAdd
                                split
                                · exact mapsEq_refl S
                                · exact ⟨rfl, rfl, rfl, rfl, rfl, rfl, hpool, hdbl, horph⟩

theorem maybeAcceptTransaction_eval (cfg : Config) (ora : Oracles) (now : Int)
    (S : MempoolState) (tx : Tx) (isNew rateLimit rejectDupOrphans : Bool)
    (v v2 : UtxoView) (lock : SeqLock) (txFee : Int)
    (hpipe : ReachesFeeStage cfg ora S tx rejectDupOrphans v v2 lock txFee) :
    maybeAcceptTransaction cfg ora now S tx isNew rateLimit rejectDupOrphans =
      feeGateStage cfg ora now S tx isNew rateLimit (mempoolScriptFlags cfg ora) v2 txFee := by
  obtain ⟨hdup, hsan, hcb, hstd, hdbl, hfetch, hown, hmiss, hseq, hact, hfee, hinstd⟩ := hpipe
  unfold mempoolScriptFlags at hsan hinstd ⊢
  unfold maybeAcceptTransaction
  simp only [hdup, hsan, hcb, hstd, hdbl, hfetch, hown, hseq, hact, hfee, hinstd, hmiss,
    Bool.false_eq_true, if_false, ite_false, List.length_nil, gt_iff_lt, lt_self_iff_false,
    Bool.not_eq_true]
  simp_all

theorem feeGateStage_accepted (cfg : Config) (ora : Oracles) (now : Int) (S : MempoolState)
    (tx : Tx) (isNew rateLimit : Bool) (scriptFlags : ScriptFlags) (utxoView : UtxoView)
    (txFee : Int) (txD : TxDesc)
    (h : (feeGateStage cfg ora now S tx isNew rateLimit scriptFlags utxoView txFee).1 =
      .accepted txD) :
    txD.fee = txFee ∧
    ¬ (tx.serializeSize ≥ DefaultBlockPrioritySize - 1000 ∧
        txFee < calcMinRequiredTxRelayFee tx.serializeSize cfg.policy.minRelayTxFee) := by
  unfold feeGateStage validateAndAdd addTransaction at h
  dsimp only at h
  split at h
  · exact absurd h (by simp)
  · rename_i hgate
    split at h
    · exact absurd h (by simp)
    · split at h
      · split at h
        · exact absurd h (by simp)
        · split at h
          · exact absurd h (by simp)
          · refine ⟨?_, hgate⟩
            simp only [AcceptResult.accepted.injEq] at h
            rw [← h]
      · split at h
        · exact absurd h (by simp)
        · refine ⟨?_, hgate⟩
          simp only [AcceptResult.accepted.injEq] at h
          rw [← h]

theorem feeGateStage_reject (cfg : Config) (ora : Oracles) (now : Int) (S : MempoolState)
    (tx : Tx) (isNew rateLimit : Bool) (scriptFlags : ScriptFlags) (utxoView : UtxoView)
    (txFee : Int)
    (h : tx.serializeSize ≥ DefaultBlockPrioritySize - 1000 ∧
        txFee < calcMinRequiredTxRelayFee tx.serializeSize cfg.policy.minRelayTxFee) :
    feeGateStage cfg ora now S tx isNew rateLimit scriptFlags utxoView txFee =
      (.err (.txRule .insufficientFee), S) := by
  unfold feeGateStage
  rw [if_pos h]

theorem maybeAcceptTransaction_accepted_fee_ge (cfg : Config) (ora : Oracles) (now : Int)
    (S : MempoolState) (tx : Tx) (isNew rateLimit rejectDupOrphans : Bool) (txD : TxDesc)
    (h : (maybeAcceptTransaction cfg ora now S tx isNew rateLimit rejectDupOrphans).1 =
      .accepted txD)
    (hsize : tx.serializeSize ≥ DefaultBlockPrioritySize - 1000) :
    txD.fee ≥ Int.tdiv (tx.serializeSize * cfg.policy.minRelayTxFee) 1000 := by
  unfold maybeAcceptTransaction at h
  split at h
  · exact absurd h (by simp)
  · dsimp only at h
    split at h
    · exact absurd h (by simp)
    · split at h
      · exact absurd h (by simp)
      · split at h
        · exact absurd h (by simp)
        · split at h
          · exact absurd h (by simp)
          · split at h
            · exact absurd h (by simp)
            · split at h
              · exact absurd h (by simp)
              · split at h
                · exact absurd h (by simp)
                · split at h
                  · exact absurd h (by simp)
                  · split at h
                    · exact absurd h (by simp)
                    · split at h
                      · exact absurd h (by simp)
                      · split at h
                        · exact absurd h (by simp)
                        · obtain ⟨hfee, hgate⟩ := feeGateStage_accepted _ _ _ _ _ _ _ _ _ _ _ h
                          rw [ge_iff_le, hfee]
                          have hge := le_of_not_lt (fun hlt => hgate ⟨hsize, hlt⟩)
                          exact le_trans (le_max_right _ _) hge

theorem maybeAcceptTransaction_dup_pool (cfg : Config) (ora : Oracles) (now : Int)
    (S : MempoolState) (tx : Tx) (isNew rateLimit rejectDupOrphans : Bool)
    (h : alContains S.pool tx.hash = true) :
    maybeAcceptTransaction cfg ora now S tx isNew rateLimit rejectDupOrphans =
      (.err (.txRule .duplicate), S) := by
  unfold maybeAcceptTransaction
  simp [h]

theorem maybeAcceptTransaction_dup_orphan (cfg : Config) (ora : Oracles) (now : Int)
    (S : MempoolState) (tx : Tx) (isNew rateLimit : Bool)
    (h : alContains S.orphans tx.hash = true) :
    maybeAcceptTransaction cfg ora now S tx isNew rateLimit true =
      (.err (.txRule .duplicate), S) := by
  unfold maybeAcceptTransaction
  simp [h]

theorem feeGateStage_rate_limited_reject (cfg : Config) (ora : Oracles) (now : Int)
    (S : MempoolState) (tx : Tx) (isNew : Bool) (scriptFlags : ScriptFlags)
    (utxoView : UtxoView) (txFee : Int)
    (hnogate : ¬ (tx.serializeSize ≥ DefaultBlockPrioritySize - 1000 ∧
        txFee < calcMinRequiredTxRelayFee tx.serializeSize cfg.policy.minRelayTxFee))
    (hnoprio : ¬ (isNew ∧ ¬ cfg.policy.disableRelayPriority = true ∧
        txFee < calcMinRequiredTxRelayFee tx.serializeSize cfg.policy.minRelayTxFee ∧
        ora.calcPriority tx utxoView (ora.bestHeight + 1) ≤ cfg.minHighPriority))
    (hlow : txFee < calcMinRequiredTxRelayFee tx.serializeSize cfg.policy.minRelayTxFee)
    (hover : S.pennyTotal * (1 - 1 / 600 : ℚ) ^ (now - S.lastPennyUnix) ≥
        cfg.policy.freeTxRelayLimit * 10 * 1000) :
    feeGateStage cfg ora now S tx isNew true scriptFlags utxoView txFee =
      (.err (.txRule .insufficientFee),
        { S with
          pennyTotal := S.pennyTotal * (1 - 1 / 600 : ℚ) ^ (now - S.lastPennyUnix)
          lastPennyUnix := now }) := by
  unfold feeGateStage
  dsimp only
  rw [if_neg hnogate, if_neg hnoprio, if_pos ⟨rfl, hlow⟩, if_pos hover]

theorem feeGateStage_rate_limited_charge (cfg : Config) (ora : Oracles) (now : Int)
    (S : MempoolState) (tx : Tx) (isNew : Bool) (scriptFlags : ScriptFlags)
    (utxoView : UtxoView) (txFee : Int)
    (hnogate : ¬ (tx.serializeSize ≥ DefaultBlockPrioritySize - 1000 ∧
        txFee < calcMinRequiredTxRelayFee tx.serializeSize cfg.policy.minRelayTxFee))
    (hnoprio : ¬ (isNew ∧ ¬ cfg.policy.disableRelayPriority = true ∧
        txFee < calcMinRequiredTxRelayFee tx.serializeSize cfg.policy.minRelayTxFee ∧
        ora.calcPriority tx utxoView (ora.bestHeight + 1) ≤ cfg.minHighPriority))
    (hlow : txFee < calcMinRequiredTxRelayFee tx.serializeSize cfg.policy.minRelayTxFee)
    (hunder : ¬ S.pennyTotal * (1 - 1 / 600 : ℚ) ^ (now - S.lastPennyUnix) ≥
        cfg.policy.freeTxRelayLimit * 10 * 1000) :
    (feeGateStage cfg ora now S tx isNew true scriptFlags utxoView txFee).2.pennyTotal =
      S.pennyTotal * (1 - 1 / 600 : ℚ) ^ (now - S.lastPennyUnix) + (tx.serializeSize : ℚ) ∧
    (feeGateStage cfg ora now S tx isNew true scriptFlags utxoView txFee).2.lastPennyUnix = now := by
  unfold feeGateStage
  dsimp only
  rw [if_neg hnogate, if_neg hnoprio, if_pos ⟨rfl, hlow⟩, if_neg hunder]
  unfold validateAndAdd addTransaction
  dsimp only
  split
  · exact ⟨rfl, rfl⟩
  · exact ⟨rfl, rfl⟩

theorem feeGateStage_no_rate_limit (cfg : Config) (ora : Oracles) (now : Int)
    (S : MempoolState) (tx : Tx) (isNew rateLimit : Bool) (scriptFlags : ScriptFlags)
    (utxoView : UtxoView) (txFee : Int)
    (hnorl : ¬ (rateLimit = true ∧
        txFee < calcMinRequiredTxRelayFee tx.serializeSize cfg.policy.minRelayTxFee)) :
    (feeGateStage cfg ora now S tx isNew rateLimit scriptFlags utxoView txFee).2.pennyTotal =
      S.pennyTotal ∧
    (feeGateStage cfg ora now S tx isNew rateLimit scriptFlags utxoView txFee).2.lastPennyUnix =
      S.lastPennyUnix := by
  unfold feeGateStage validateAndAdd addTransaction
  dsimp only
  repeat' split
  all_goals first
    | exact ⟨rfl, rfl⟩
    | exact absurd (by assumption) hnorl

/-- C7: in maybeAcceptTransaction the script-verification flag set equals
`StandardVerifyFlags` with `ScriptVerifyInputSigChecks` removed exactly when
`Policy.LimitSigChecks` is false, with `ScriptAllowCashTokens` added exactly
when `best_height + 1 > Upgrade9ForkHeight`, with `ScriptAllowMay2025` added
exactly when `median_time_past ≥ Upgrade11ActivationTime`, and with
`ScriptAllowMay2025StandardOnly` additionally added when the latter holds
and `Policy.AcceptNonStd` is false; and the magnetic-anomaly activation flag
holds exactly when `best_height + 1 > MagneticAnonomalyForkHeight`. -/
theorem C7_script_flags (cfg : Config) (ora : Oracles) :
    mempoolScriptFlags cfg ora =
      { StandardVerifyFlags with
        verifyInputSigChecks := cfg.policy.limitSigChecks
        allowCashTokens := decide (ora.bestHeight + 1 > cfg.chainParams.upgrade9ForkHeight)
        allowMay2025 := decide (ora.medianTimePast ≥ cfg.chainParams.upgrade11ActivationTime)
        allowMay2025StandardOnly :=
          decide (ora.medianTimePast ≥ cfg.chainParams.upgrade11ActivationTime) &&
            ! cfg.policy.acceptNonStd } ∧
    (decide (ora.bestHeight + 1 > cfg.chainParams.magneticAnonomalyForkHeight) = true ↔
      ora.bestHeight + 1 > cfg.chainParams.magneticAnonomalyForkHeight) := by
  constructor
  · unfold mempoolScriptFlags scriptFlagsFor StandardVerifyFlags
    cases hl : cfg.policy.limitSigChecks <;> cases ha : cfg.policy.acceptNonStd <;>
      cases h9 : decide (ora.bestHeight + 1 > cfg.chainParams.upgrade9ForkHeight) <;>
      cases h11 : decide (ora.medianTimePast ≥ cfg.chainParams.upgrade11ActivationTime) <;>
      simp [hl, ha, h9, h11]
  · exact decide_eq_true_iff

/-- C2: for every transaction of serialized size at least
`DefaultBlockPrioritySize - 1000`, acceptance implies a fee of at least
`size * min_relay_fee / 1000` satoshis; and a transaction of such size
reaching the fee gate with a fee below the computed minimum fee is rejected
with `InsufficientFee`. -/
theorem C2_fee_gate :
    (∀ (cfg : Config) (ora : Oracles) (now : Int) (S : MempoolState) (tx : Tx)
        (isNew rateLimit rejectDupOrphans : Bool) (txD : TxDesc),
      (maybeAcceptTransaction cfg ora now S tx isNew rateLimit rejectDupOrphans).1 =
        .accepted txD →
      tx.serializeSize ≥ DefaultBlockPrioritySize - 1000 →
      txD.fee ≥ Int.tdiv (tx.serializeSize * cfg.policy.minRelayTxFee) 1000) ∧
    (∀ (cfg : Config) (ora : Oracles) (now : Int) (S : MempoolState) (tx : Tx)
        (isNew rateLimit rejectDupOrphans : Bool) (v v2 : UtxoView) (lock : SeqLock)
        (txFee : Int),
      ReachesFeeStage cfg ora S tx rejectDupOrphans v v2 lock txFee →
      tx.serializeSize ≥ DefaultBlockPrioritySize - 1000 →
      txFee < calcMinRequiredTxRelayFee tx.serializeSize cfg.policy.minRelayTxFee →
      maybeAcceptTransaction cfg ora now S tx isNew rateLimit rejectDupOrphans =
        (.err (.txRule .insufficientFee), S)) := by
  constructor
  · intro cfg ora now S tx isNew rateLimit rejectDupOrphans txD h hsize
    exact maybeAcceptTransaction_accepted_fee_ge cfg ora now S tx isNew rateLimit
      rejectDupOrphans txD h hsize
  · intro cfg ora now S tx isNew rateLimit rejectDupOrphans v v2 lock txFee hpipe hsize hlow
    rw [maybeAcceptTransaction_eval cfg ora now S tx isNew rateLimit rejectDupOrphans
      v v2 lock txFee hpipe]
    exact feeGateStage_reject cfg ora now S tx isNew rateLimit _ v2 txFee ⟨hsize, hlow⟩

/-- C8: exactly when `rate_limit` is set and the fee is below the computed
minimum relay fee, maybeAcceptTransaction decays `pennyTotal` by
`(1 - 1/600)^(now - lastPennyUnix)`, rejects with `InsufficientFee` when the
decayed total is at least `FreeTxRelayLimit * 10 * 1000` (leaving the total
unincreased), and otherwise increases the total by the serialized size;
when the rate limiter is not engaged the accumulator is unchanged. -/
theorem C8_penny_rate_limiter (cfg : Config) (ora : Oracles) (now : Int) (S : MempoolState)
    (tx : Tx) (isNew rateLimit rejectDupOrphans : Bool) (v v2 : UtxoView) (lock : SeqLock)
    (txFee : Int)
    (hpipe : ReachesFeeStage cfg ora S tx rejectDupOrphans v v2 lock txFee) :
    (¬ (rateLimit = true ∧
        txFee < calcMinRequiredTxRelayFee tx.serializeSize cfg.policy.minRelayTxFee) →
      (maybeAcceptTransaction cfg ora now S tx isNew rateLimit rejectDupOrphans).2.pennyTotal =
        S.pennyTotal ∧
      (maybeAcceptTransaction cfg ora now S tx isNew rateLimit rejectDupOrphans).2.lastPennyUnix =
        S.lastPennyUnix) ∧
    (¬ (tx.serializeSize ≥ DefaultBlockPrioritySize - 1000 ∧
        txFee < calcMinRequiredTxRelayFee tx.serializeSize cfg.policy.minRelayTxFee) →
     ¬ (isNew ∧ ¬ cfg.policy.disableRelayPriority = true ∧
        txFee < calcMinRequiredTxRelayFee tx.serializeSize cfg.policy.minRelayTxFee ∧
        ora.calcPriority tx v2 (ora.bestHeight + 1) ≤ cfg.minHighPriority) →
     txFee < calcMinRequiredTxRelayFee tx.serializeSize cfg.policy.minRelayTxFee →
      (S.pennyTotal * (1 - 1 / 600 : ℚ) ^ (now - S.lastPennyUnix) ≥
          cfg.policy.freeTxRelayLimit * 10 * 1000 →
        maybeAcceptTransaction cfg ora now S tx isNew true rejectDupOrphans =
          (.err (.txRule .insufficientFee),
            { S with
              pennyTotal := S.pennyTotal * (1 - 1 / 600 : ℚ) ^ (now - S.lastPennyUnix)
              lastPennyUnix := now })) ∧
      (¬ S.pennyTotal * (1 - 1 / 600 : ℚ) ^ (now - S.lastPennyUnix) ≥
          cfg.policy.freeTxRelayLimit * 10 * 1000 →
        (maybeAcceptTransaction cfg ora now S tx isNew true rejectDupOrphans).2.pennyTotal =
          S.pennyTotal * (1 - 1 / 600 : ℚ) ^ (now - S.lastPennyUnix) + (tx.serializeSize : ℚ) ∧
        (maybeAcceptTransaction cfg ora now S tx isNew true rejectDupOrphans).2.lastPennyUnix =
          now)) := by
  constructor
  · intro hnorl
    rw [maybeAcceptTransaction_eval cfg ora now S tx isNew rateLimit rejectDupOrphans
      v v2 lock txFee hpipe]
    exact feeGateStage_no_rate_limit cfg ora now S tx isNew rateLimit _ v2 txFee hnorl
  · intro hnogate hnoprio hlow
    constructor
    · intro hover
      rw [maybeAcceptTransaction_eval cfg ora now S tx isNew true rejectDupOrphans
        v v2 lock txFee hpipe]
      exact feeGateStage_rate_limited_reject cfg ora now S tx isNew _ v2 txFee
        hnogate hnoprio hlow hover
    · intro hunder
      rw [maybeAcceptTransaction_eval cfg ora now S tx isNew true rejectDupOrphans
        v v2 lock txFee hpipe]
      exact feeGateStage_rate_limited_charge cfg ora now S tx isNew _ v2 txFee
        hnogate hnoprio hlow hunder

/-- C9: whenever maybeAcceptTransaction returns an error, the pool,
outpoints, orphans and orphansByPrev maps (and the scan deadline and update
stamp) are exactly as they were before the call; the rate-limit accumulator
is the only state that may change, and it is charged before script
validation, so a transaction rejected by the script validator still leaves
the decay and the size charge in place. -/
theorem C9_error_state_preservation :
    (∀ (cfg : Config) (ora : Oracles) (now : Int) (S : MempoolState) (tx : Tx)
        (isNew rateLimit rejectDupOrphans : Bool) (e : GoErr),
      (maybeAcceptTransaction cfg ora now S tx isNew rateLimit rejectDupOrphans).1 = .err e →
      MapsEq S (maybeAcceptTransaction cfg ora now S tx isNew rateLimit rejectDupOrphans).2) ∧
    (∀ (cfg : Config) (ora : Oracles) (now : Int) (S : MempoolState) (tx : Tx)
        (isNew rejectDupOrphans : Bool) (v v2 : UtxoView) (lock : SeqLock) (txFee : Int)
        (e : GoErr),
      ReachesFeeStage cfg ora S tx rejectDupOrphans v v2 lock txFee →
      ¬ (tx.serializeSize ≥ DefaultBlockPrioritySize - 1000 ∧
        txFee < calcMinRequiredTxRelayFee tx.serializeSize cfg.policy.minRelayTxFee) →
      ¬ (isNew ∧ ¬ cfg.policy.disableRelayPriority = true ∧
        txFee < calcMinRequiredTxRelayFee tx.serializeSize cfg.policy.minRelayTxFee ∧
        ora.calcPriority tx v2 (ora.bestHeight + 1) ≤ cfg.minHighPriority) →
      txFee < calcMinRequiredTxRelayFee tx.serializeSize cfg.policy.minRelayTxFee →
      ¬ S.pennyTotal * (1 - 1 / 600 : ℚ) ^ (now - S.lastPennyUnix) ≥
          cfg.policy.freeTxRelayLimit * 10 * 1000 →
      ora.validateTransactionScripts tx v2 (mempoolScriptFlags cfg ora) = some e →
      maybeAcceptTransaction cfg ora now S tx isNew true rejectDupOrphans =
        (.err e,
          { S with
            pennyTotal := S.pennyTotal * (1 - 1 / 600 : ℚ) ^ (now - S.lastPennyUnix) +
              (tx.serializeSize : ℚ)
            lastPennyUnix := now })) := by
  constructor
  · intro cfg ora now S tx isNew rateLimit rejectDupOrphans e he
    have hs := maybeAcceptTransaction_spec cfg ora now S tx isNew rateLimit rejectDupOrphans
    cases hres : maybeAcceptTransaction cfg ora now S tx isNew rateLimit rejectDupOrphans with
    | mk res S' =>
      rw [hres] at hs he
      cases res with
      | err e' => exact hs
      | missing ps => simp at he
      | accepted txD => simp at he
  · intro cfg ora now S tx isNew rejectDupOrphans v v2 lock txFee e hpipe hnogate hnoprio
      hlow hunder hscript
    rw [maybeAcceptTransaction_eval cfg ora now S tx isNew true rejectDupOrphans
      v v2 lock txFee hpipe]
    unfold feeGateStage
    dsimp only
    rw [if_neg hnogate, if_neg hnoprio, if_pos ⟨rfl, hlow⟩, if_neg hunder]
    unfold validateAndAdd
    rw [hscript]

/-- C10: when `Policy.MaxOrphanTxs ≤ 0` and ProcessTransaction is called
with `allowOrphan = true` on a transaction with missing parents whose
serialized size does not exceed `Policy.MaxOrphanTxSize`, the call returns
a nil accepted list and a nil error while the transaction is stored in
neither the pool nor the orphan pool. -/
theorem C10_orphan_disabled_silent_success (cfg : Config) (ora : Oracles) (now : Int)
    (S : MempoolState) (tx : Tx) (rateLimit : Bool) (tag : Nat) (ps : List Hash)
    (hmax : cfg.policy.maxOrphanTxs ≤ 0)
    (hsz : ¬ tx.serializeSize > cfg.policy.maxOrphanTxSize)
    (hmiss : (maybeAcceptTransaction cfg ora now S tx true rateLimit true).1 = .missing ps) :
    processTransaction cfg ora now S tx true rateLimit tag = (.ok [], S) ∧
    alContains S.pool tx.hash = false ∧
    alContains S.orphans tx.hash = false := by
  have hp : alContains S.pool tx.hash = false := by
    cases hc : alContains S.pool tx.hash
    · rfl
    · rw [maybeAcceptTransaction_dup_pool cfg ora now S tx true rateLimit true hc] at hmiss
      simp at hmiss
  have ho : alContains S.orphans tx.hash = false := by
    cases hc : alContains S.orphans tx.hash
    · rfl
    · rw [maybeAcceptTransaction_dup_orphan cfg ora now S tx true rateLimit hc] at hmiss
      simp at hmiss
  refine ⟨?_, hp, ho⟩
  have hs := maybeAcceptTransaction_spec cfg ora now S tx true rateLimit true
  unfold processTransaction
  cases hres : maybeAcceptTransaction cfg ora now S tx true rateLimit true with
  | mk res S' =>
    rw [hres] at hs hmiss
    cases res with
    | err e' => simp at hmiss
    | accepted txD => simp at hmiss
    | missing ps' =>
      have hSS : S' = S := hs
      subst hSS
      simp [maybeAddOrphan, addOrphan, hsz, hmax]

theorem C2_fee_gate_witness :
    (∃ txD, (maybeAcceptTransaction exCfg (exOra 1700000) 0 (newTxPool 0) exBigTx
        false false true).1 = .accepted txD ∧
      txD.fee ≥ Int.tdiv (exBigTx.serializeSize * exCfg.policy.minRelayTxFee) 1000) ∧
    maybeAcceptTransaction exCfg (exOra 5) 0 (newTxPool 0) exBigTx false false true =
      (.err (.txRule .insufficientFee), newTxPool 0) := by
  constructor
  · have heq : (maybeAcceptTransaction exCfg (exOra 1700000) 0 (newTxPool 0) exBigTx
        false false true).1 =
        .accepted { tx := exBigTx, added := 0, height := 100, fee := 1700000,
                    feePerKB := 1063, startingPriority := 1000000000 } := by decide
    exact ⟨_, heq, C2_fee_gate.1 exCfg (exOra 1700000) 0 (newTxPool 0) exBigTx
      false false true _ heq (by decide)⟩
  · exact C2_fee_gate.2 exCfg (exOra 5) 0 (newTxPool 0) exBigTx false false true
      exChainView exChainView ⟨-1, -1⟩ 5 (by decide) (by decide) (by decide)

theorem C8_penny_rate_limiter_witness :
    (maybeAcceptTransaction exCfg (exOra 5) 0 (newTxPool 0) exSmallTx
        false true true).2.pennyTotal =
      (newTxPool 0).pennyTotal * (1 - 1 / 600 : ℚ) ^ ((0 : Int) - (newTxPool 0).lastPennyUnix) +
        (exSmallTx.serializeSize : ℚ) ∧
    (maybeAcceptTransaction exCfg (exOra 5) 0 (newTxPool 0) exSmallTx
        false true true).2.lastPennyUnix = 0 := by
  have h := C8_penny_rate_limiter exCfg (exOra 5) 0 (newTxPool 0) exSmallTx false true true
    exChainView exChainView ⟨-1, -1⟩ 5 (by decide)
  exact (h.2 (by decide) (by decide) (by decide)).2
    (by norm_num [newTxPool, exCfg, exPolicy, zero_mul])

theorem C9_error_state_preservation_witness :
    MapsEq (newTxPool 0)
      (maybeAcceptTransaction exCfg (exOra 5) 0 (newTxPool 0) exBigTx false false true).2 ∧
    maybeAcceptTransaction exCfg
        { exOra 5 with validateTransactionScripts := fun _ _ _ => some .chainRule }
        0 (newTxPool 0) exSmallTx false true true =
      (.err .chainRule,
        { newTxPool 0 with
          pennyTotal := (newTxPool 0).pennyTotal *
              (1 - 1 / 600 : ℚ) ^ ((0 : Int) - (newTxPool 0).lastPennyUnix) +
            (exSmallTx.serializeSize : ℚ)
          lastPennyUnix := 0 }) := by
  constructor
  · exact C9_error_state_preservation.1 exCfg (exOra 5) 0 (newTxPool 0) exBigTx
      false false true (.txRule .insufficientFee) (by decide)
  · exact C9_error_state_preservation.2 exCfg
      { exOra 5 with validateTransactionScripts := fun _ _ _ => some .chainRule }
      0 (newTxPool 0) exSmallTx false true exChainView exChainView ⟨-1, -1⟩ 5 .chainRule
      (by decide) (by decide) (by decide) (by decide)
      (by norm_num [newTxPool, exCfg, exPolicy, zero_mul]) (by decide)

theorem C10_orphan_disabled_silent_success_witness :
    processTransaction
        { exCfg with policy := { exPolicy with maxOrphanTxs := 0 } }
        exOraMissing 0 (newTxPool 0) exOrphanTx true false 7 =
      (.ok [], newTxPool 0) ∧
    alContains (newTxPool 0).pool exOrphanTx.hash = false ∧
    alContains (newTxPool 0).orphans exOrphanTx.hash = false := by
  exact C10_orphan_disabled_silent_success
    { exCfg with policy := { exPolicy with maxOrphanTxs := 0 } }
    exOraMissing 0 (newTxPool 0) exOrphanTx false 7 [5]
    (by decide) (by decide) (by decide)

theorem alLookup_mem {α β : Type} [DecidableEq α] {l : List (α × β)} {k : α} {v : β}
    (h : alLookup l k = some v) : (k, v) ∈ l := by
  induction l with
  | nil => simp [alLookup] at h
  | cons p t ih =>
    rcases p with ⟨k', v'⟩
    by_cases hp : k' = k
    · subst hp
      simp [alLookup] at h
      subst h
      exact List.mem_cons_self _ _
    · simp only [alLookup, hp, if_false, reduceIte] at h
      exact List.mem_cons_of_mem _ (ih h)

theorem mem_alEraseKey {α β : Type} [DecidableEq α] {l : List (α × β)} {k : α} {p : α × β}
    (h : p ∈ alEraseKey l k) : p ∈ l ∧ p.1 ≠ k := by
  induction l with
  | nil => simp [alEraseKey] at h
  | cons q t ih =>
    by_cases hq : q.1 = k
    · simp only [alEraseKey, hq, if_pos] at h
      exact ⟨List.mem_cons_of_mem _ (ih h).1, (ih h).2⟩
    · simp only [alEraseKey, hq, reduceIte, List.mem_cons] at h
      rcases h with h | h
      · subst h
        exact ⟨List.mem_cons_self _ _, hq⟩
      · exact ⟨List.mem_cons_of_mem _ (ih h).1, (ih h).2⟩

theorem alEraseKey_sublist {α β : Type} [DecidableEq α] (l : List (α × β)) (k : α) :
    (alEraseKey l k).Sublist l := by
  induction l with
  | nil => simp [alEraseKey]
  | cons q t ih =>
    by_cases hq : q.1 = k
    · simp only [alEraseKey, hq, if_pos]
      exact ih.cons _
    · simp only [alEraseKey, hq, reduceIte]
      exact ih.cons₂ _

theorem byPrevGet_byPrevRemove (bp : List (OutPoint × List (Hash × Tx))) (op : OutPoint)
    (x : Hash) (op' : OutPoint) :
    byPrevGet (byPrevRemove bp op x) op' =
      if op' = op then alEraseKey (byPrevGet bp op) x else byPrevGet bp op' := by
  unfold byPrevRemove
  cases hl : alLookup bp op with
  | none =>
    by_cases hop : op' = op
    · subst hop
      simp [byPrevGet, hl, alEraseKey]
    · simp [hop]
  | some s =>
    dsimp only
    by_cases hop : op' = op
    · subst hop
      split
      · rename_i hemp
        simp only [byPrevGet, alLookup_eraseKey_self, Option.getD_none, hl, Option.getD_some,
          if_pos]
        rw [List.isEmpty_iff] at hemp
        rw [hemp]
      · simp [byPrevGet, alLookup_insert_self, hl]
    · split
      · simp [byPrevGet, alLookup_eraseKey_ne bp (fun hh => hop hh), hop]
      · simp [byPrevGet, alLookup_insert_ne bp _ (fun hh => hop hh), hop]

theorem byPrevGet_byPrevAdd (bp : List (OutPoint × List (Hash × Tx))) (op : OutPoint)
    (h : Hash) (t : Tx) (op' : OutPoint) :
    byPrevGet (byPrevAdd bp op h t) op' =
      if op' = op then alInsert (byPrevGet bp op) h t else byPrevGet bp op' := by
  unfold byPrevAdd
  by_cases hop : op' = op
  · subst hop
    simp [byPrevGet, alLookup_insert_self]
  · simp [byPrevGet, alLookup_insert_ne bp _ (fun hh => hop hh), hop]

theorem removalAux_refl (escape : Option Hash) (S : MempoolState) : RemovalAux escape S S :=
  ⟨rfl, rfl, rfl, rfl, rfl, rfl, List.Sublist.refl _, fun _ _ h => h, fun _ _ _ h => h,
    fun _ _ h h' => absurd h (by simp [h'])⟩

theorem removalAux_orphans_contains {escape : Option Hash} {S S' : MempoolState}
    (h : RemovalAux escape S S') {k : Hash} (hc : alContains S'.orphans k = true) :
    alContains S.orphans k = true := by
  rw [alContains_iff] at hc ⊢
  obtain ⟨o, ho⟩ := hc
  exact ⟨o, h.2.2.2.2.2.2.2.1 k o ho⟩

theorem removalAux_byPrev_contains {escape : Option Hash} {S S' : MempoolState}
    (h : RemovalAux escape S S') {op : OutPoint} {k : Hash}
    (hc : alContains (byPrevGet S'.orphansByPrev op) k = true) :
    alContains (byPrevGet S.orphansByPrev op) k = true := by
  rw [alContains_iff] at hc ⊢
  obtain ⟨t, ht⟩ := hc
  exact ⟨t, h.2.2.2.2.2.2.2.2.1 op k t ht⟩

theorem removalAux_trans {escape : Option Hash} {S1 S2 S3 : MempoolState}
    (h12 : RemovalAux escape S1 S2) (h23 : RemovalAux escape S2 S3) :
    RemovalAux escape S1 S3 := by
  obtain ⟨a1, b1, c1, d1, e1, f1, g1, lo1, bp1, ls1⟩ := h12
  obtain ⟨a2, b2, c2, d2, e2, f2, g2, lo2, bp2, ls2⟩ := h23
  refine ⟨a2.trans a1, b2.trans b1, c2.trans c1, d2.trans d1, e2.trans e1, f2.trans f1,
    g2.trans g1, fun h o hh => lo1 h o (lo2 h o hh), fun op h t hh => bp1 op h t (bp2 op h t hh),
    ?_⟩
  intro op h hmem hlost
  by_cases hmid : alContains (byPrevGet S2.orphansByPrev op) h = true
  · exact ls2 op h hmid hlost
  · rcases ls1 op h hmem (by cases hx : alContains (byPrevGet S2.orphansByPrev op) h with
      | true => exact absurd hx hmid
      | false => rfl) with hout | hesc
    · left
      cases hx : alContains S3.orphans h with
      | false => rfl
      | true =>
        rw [alContains_iff] at hx
        obtain ⟨o, ho⟩ := hx
        have hc2 : alContains S2.orphans h = true := by
          rw [alContains_iff]
          exact ⟨o, lo2 h o ho⟩
        rw [hout] at hc2
        exact absurd hc2 (by simp)
    · right
      exact hesc

theorem foldl_rel {α : Type} {R : MempoolState → MempoolState → Prop}
    (htrans : ∀ {a b c : MempoolState}, R a b → R b c → R a c)
    (hrefl : ∀ a, R a a)
    (f : MempoolState → α → MempoolState) (l : List α)
    (hstep : ∀ s a, a ∈ l → R s (f s a)) (s : MempoolState) :
    R s (List.foldl f s l) := by
  induction l generalizing s with
  | nil => exact hrefl s
  | cons a t ih =>
    exact htrans (hstep s a (List.mem_cons_self _ _))
      (ih (fun s' b hb => hstep s' b (List.mem_cons_of_mem _ hb)) (f s a))

theorem alContains_of_mem {α β : Type} [DecidableEq α] {l : List (α × β)} {k : α} {v : β}
    (h : (k, v) ∈ l) : alContains l k = true := by
  induction l with
  | nil => simp at h
  | cons p t ih =>
    rcases List.mem_cons.mp h with h | h
    · simp [alContains, alLookup, ← h]
    · by_cases hp : p.1 = k
      · simp [alContains, alLookup, hp]
      · simpa [alContains, alLookup, hp] using ih h

theorem removalAux_weaken {S S' : MempoolState} (escape : Option Hash)
    (h : RemovalOk S S') : RemovalAux escape S S' := by
  obtain ⟨a, b, c, d, e, f, g, lo, bp, ls⟩ := h
  exact ⟨a, b, c, d, e, f, g, lo, bp, fun op k hm hl => .inl ((ls op k hm hl).resolve_right
    (by simp))⟩

theorem removeOrphan_removalOk (fuel : Nat) :
    ∀ (S : MempoolState) (tx : Tx) (b : Bool), RemovalOk S (removeOrphan S tx b fuel) := by
  induction fuel with
  | zero =>
    intro S tx b
    exact removalAux_refl none S
  | succ fuel ih =>
    intro S tx b
    unfold removeOrphan
    cases hl : alLookup S.orphans tx.hash with
    | none => exact removalAux_refl none S
    | some otx =>
      dsimp only
      have hstep1 : ∀ (s : MempoolState) (op : OutPoint),
          RemovalAux (some tx.hash) s
            { s with orphansByPrev := byPrevRemove s.orphansByPrev op tx.hash } := by
        intro s op
        refine ⟨rfl, rfl, rfl, rfl, rfl, rfl, List.Sublist.refl _, fun h o hh => hh, ?_, ?_⟩
        · intro op' h t hh
          rw [show ({ s with orphansByPrev := byPrevRemove s.orphansByPrev op tx.hash } :
              MempoolState).orphansByPrev = byPrevRemove s.orphansByPrev op tx.hash from rfl,
            byPrevGet_byPrevRemove] at hh
          split at hh
          · rename_i hop
            rw [hop]
            by_cases hxh : h = tx.hash
            · rw [hxh, alLookup_eraseKey_self] at hh
              exact absurd hh (by simp)
            · rwa [alLookup_eraseKey_ne _ hxh] at hh
          · exact hh
        · intro op' h hmem hlost
          by_cases hxh : h = tx.hash
          · right
            rw [hxh]
          · exfalso
            rw [show ({ s with orphansByPrev := byPrevRemove s.orphansByPrev op tx.hash } :
                MempoolState).orphansByPrev = byPrevRemove s.orphansByPrev op tx.hash from rfl,
              byPrevGet_byPrevRemove] at hlost
            rw [alContains_iff] at hmem
            obtain ⟨t, ht⟩ := hmem
            split at hlost
            · rename_i hop
              rw [hop] at ht
              have : alContains (alEraseKey (byPrevGet s.orphansByPrev op) tx.hash) h = true := by
                rw [alContains_iff]
                exact ⟨t, by rwa [alLookup_eraseKey_ne _ hxh]⟩
              rw [this] at hlost
              exact absurd hlost (by simp)
            · have : alContains (byPrevGet s.orphansByPrev op') h = true := by
                rw [alContains_iff]
                exact ⟨t, ht⟩
              rw [this] at hlost
              exact absurd hlost (by simp)
      have h1 : RemovalAux (some tx.hash) S
          (otx.tx.inputs.foldl
            (fun s op => { s with orphansByPrev := byPrevRemove s.orphansByPrev op tx.hash }) S) := by
        exact @foldl_rel _ (RemovalAux (some tx.hash))
          (fun {a b c} h12 h23 => removalAux_trans h12 h23) (removalAux_refl _) _ _
          (fun s op _ => hstep1 s op) S
      set S1 := otx.tx.inputs.foldl
        (fun s op => { s with orphansByPrev := byPrevRemove s.orphansByPrev op tx.hash }) S with hS1
      have h2 : RemovalAux (some tx.hash) S1
          (if b then
            (List.range tx.numTxOut).foldl
              (fun s i =>
                (byPrevGet s.orphansByPrev ⟨tx.hash, i⟩).foldl
                  (fun s2 p => removeOrphan s2 p.2 true fuel) s)
              S1
          else S1) := by
        split
        · refine @foldl_rel _ (RemovalAux (some tx.hash))
            (fun {a b c} h12 h23 => removalAux_trans h12 h23) (removalAux_refl _) _ _
            (fun s i _ => ?_) S1
          exact @foldl_rel _ (RemovalAux (some tx.hash))
            (fun {a b c} h12 h23 => removalAux_trans h12 h23) (removalAux_refl _) _ _
            (fun s2 p _ => removalAux_weaken _ (ih s2 p.2 true)) s
        · exact removalAux_refl _ _
      set S2 := (if b then
          (List.range tx.numTxOut).foldl
            (fun s i =>
              (byPrevGet s.orphansByPrev ⟨tx.hash, i⟩).foldl
                (fun s2 p => removeOrphan s2 p.2 true fuel) s)
            S1
        else S1) with hS2
      have h3 : RemovalAux (some tx.hash) S2
          { S2 with orphans := alEraseKey S2.orphans tx.hash } := by
        refine ⟨rfl, rfl, rfl, rfl, rfl, rfl, alEraseKey_sublist _ _, ?_, fun _ _ _ hh => hh, ?_⟩
        · intro h o hh
          by_cases hxh : h = tx.hash
          · rw [hxh, alLookup_eraseKey_self] at hh
            exact absurd hh (by simp)
          · rwa [alLookup_eraseKey_ne _ hxh] at hh
        · intro op h hmem hlost
          rw [hmem] at hlost
          exact absurd hlost (by simp)
      have hall := removalAux_trans h1 (removalAux_trans h2 h3)
      obtain ⟨a, b', c, d, e, f, g, lo, bp, ls⟩ := hall
      refine ⟨a, b', c, d, e, f, g, lo, bp, ?_⟩
      intro op h hmem hlost
      left
      rcases ls op h hmem hlost with hout | hesc
      · exact hout
      · have hh : h = tx.hash := by
          injection hesc with hinj
          exact hinj.symm
        subst hh
        simp [alContains, alLookup_eraseKey_self]

theorem removeOrphan_self (S : MempoolState) (tx : Tx) (b : Bool) (fuel : Nat)
    (hf : fuel ≠ 0) : alContains (removeOrphan S tx b fuel).orphans tx.hash = false := by
  cases fuel with
  | zero => exact absurd rfl hf
  | succ n =>
    unfold removeOrphan
    cases hl : alLookup S.orphans tx.hash with
    | none => simp [alContains, hl]
    | some otx =>
      dsimp only
      simp [alContains, alLookup_eraseKey_self]

theorem alLookup_foldl_erase {α β : Type} [DecidableEq α] (keys : List α)
    (l : List (α × β)) (k : α) :
    alLookup (keys.foldl (fun o key => alEraseKey o key) l) k =
      if k ∈ keys then none else alLookup l k := by
  induction keys generalizing l with
  | nil => simp
  | cons a rest ih =>
    simp only [List.foldl_cons, ih, List.mem_cons]
    by_cases hk : k = a
    · subst hk
      simp [alLookup_eraseKey_self]
    · by_cases hr : k ∈ rest
      · simp [hr, hk]
      · simp [hr, hk, alLookup_eraseKey_ne _ hk]

theorem alLookup_foldl_insert {β : Type} (keys : List OutPoint)
    (l : List (OutPoint × β)) (t : β) (k : OutPoint) :
    alLookup (keys.foldl (fun o op => alInsert o op t) l) k =
      if k ∈ keys then some t else alLookup l k := by
  induction keys generalizing l with
  | nil => simp
  | cons a rest ih =>
    simp only [List.foldl_cons, ih, List.mem_cons]
    by_cases hr : k ∈ rest
    · simp [hr]
    · by_cases hk : k = a
      · subst hk
        simp [hr, alLookup_insert_self]
      · simp [hr, hk, alLookup_insert_ne _ _ hk]

theorem alLookup_eraseKey_cases {α β : Type} [DecidableEq α] {l : List (α × β)} {k k' : α}
    {v : β} (h : alLookup (alEraseKey l k) k' = some v) :
    k' ≠ k ∧ alLookup l k' = some v := by
  by_cases hk : k' = k
  · rw [hk, alLookup_eraseKey_self] at h
    exact absurd h (by simp)
  · rw [alLookup_eraseKey_ne _ hk] at h
    exact ⟨hk, h⟩

theorem checkPoolDoubleSpend_none {S : MempoolState} {tx : Tx}
    (h : checkPoolDoubleSpend S tx = none) :
    ∀ op ∈ tx.inputs, alContains S.outpoints op = false := by
  intro op hop
  unfold checkPoolDoubleSpend at h
  split at h
  · exact absurd h (by simp)
  · rename_i hany
    rw [List.any_eq_true] at hany
    push_neg at hany
    cases hc : alContains S.outpoints op with
    | false => rfl
    | true => exact absurd hc (by simpa using hany op hop)

theorem removeOrphan_length_lt (S : MempoolState) (tx : Tx) (b : Bool) (fuel : Nat)
    (hf : fuel ≠ 0) (hc : alContains S.orphans tx.hash = true) :
    (removeOrphan S tx b fuel).orphans.length < S.orphans.length := by
  have hok := removeOrphan_removalOk fuel S tx b
  have hsub := hok.2.2.2.2.2.2.1
  have hself := removeOrphan_self S tx b fuel hf
  rw [alContains_iff] at hc
  obtain ⟨o, ho⟩ := hc
  rcases lt_or_eq_of_le hsub.length_le with h | h
  · exact h
  · exfalso
    have heq := hsub.eq_of_length h
    have hmem := alLookup_mem ho
    rw [← heq] at hmem
    have := alContains_of_mem hmem
    rw [hself] at this
    exact absurd this (by simp)

theorem poolInv_congr {S S' : MempoolState} (hp : S'.pool = S.pool)
    (ho : S'.outpoints = S.outpoints) (h : PoolInv S) : PoolInv S' := by
  intro k d hd
  rw [hp] at hd
  rw [ho]
  exact h k d hd

theorem stateInv_congr {cfg : Config} {S S' : MempoolState} (h : MapsEq S S')
    (hinv : StateInv cfg S) : StateInv cfg S' := by
  obtain ⟨hp, ho, hor, hbp, _, _⟩ := h
  obtain ⟨h1, h2, h3, h4⟩ := hinv
  refine ⟨poolInv_congr hp ho h1, ?_, ?_, ?_⟩
  · intro k hk
    rw [hp] at hk
    rw [hor]
    exact h2 k hk
  · intro p hp'
    rw [hor] at hp'
    exact h3 p hp'
  · rw [hor]
    exact h4

theorem stateInv_of_removalOk {cfg : Config} {S S' : MempoolState} (h : RemovalOk S S')
    (hinv : StateInv cfg S) : StateInv cfg S' := by
  obtain ⟨hp, ho, _, _, _, _, hsub, hlo, _, _⟩ := h
  obtain ⟨h1, h2, h3, h4⟩ := hinv
  refine ⟨poolInv_congr hp ho h1, ?_, ?_, ?_⟩
  · intro k hk
    rw [hp] at hk
    cases hc : alContains S'.orphans k with
    | false => rfl
    | true =>
      rw [alContains_iff] at hc
      obtain ⟨o, hoo⟩ := hc
      have hcc : alContains S.orphans k = true := by
        rw [alContains_iff]
        exact ⟨o, hlo k o hoo⟩
      rw [h2 k hk] at hcc
      exact absurd hcc (by simp)
  · intro p hp'
    exact h3 p (hsub.mem hp')
  · intro hmax
    have := hsub.length_le
    have h4' := h4 hmax
    omega

theorem removeCore_poolInv (now : Int) (S1 : MempoolState) (tx : Tx) (txDesc : TxDesc)
    (hl : alLookup S1.pool tx.hash = some txDesc) (hinv : PoolInv S1) :
    PoolInv
      { S1 with
        outpoints := txDesc.tx.inputs.foldl (fun o op => alEraseKey o op) S1.outpoints
        pool := alEraseKey S1.pool tx.hash
        lastUpdated := now } := by
  intro h' d' hd'
  obtain ⟨hne, hd''⟩ := alLookup_eraseKey_cases hd'
  obtain ⟨hhash, hops⟩ := hinv h' d' hd''
  refine ⟨hhash, ?_⟩
  intro op hop
  rw [show ({ S1 with
      outpoints := txDesc.tx.inputs.foldl (fun o op => alEraseKey o op) S1.outpoints
      pool := alEraseKey S1.pool tx.hash
      lastUpdated := now } : MempoolState).outpoints =
    txDesc.tx.inputs.foldl (fun o op => alEraseKey o op) S1.outpoints from rfl]
  rw [alLookup_foldl_erase]
  split
  · rename_i hin
    exfalso
    obtain ⟨hhash0, hops0⟩ := hinv tx.hash txDesc hl
    have he1 := hops op hop
    have he2 := hops0 op hin
    rw [he1] at he2
    injection he2 with hh
    rw [hh, hhash0] at hhash
    exact hne hhash.symm
  · exact hops op hop

theorem addTransaction_poolInv {S : MempoolState} {tx : Tx} {txD : TxDesc}
    {S' : MempoolState} (htx : txD.tx = tx)
    (hp : S'.pool = alInsert S.pool tx.hash txD)
    (ho : S'.outpoints = tx.inputs.foldl (fun o op => alInsert o op tx) S.outpoints)
    (hdbl : checkPoolDoubleSpend S tx = none)
    (hinv : PoolInv S) : PoolInv S' := by
  have hnos := checkPoolDoubleSpend_none hdbl
  intro h' d' hd'
  rw [hp] at hd'
  rw [ho]
  by_cases hh : h' = tx.hash
  · subst hh
    rw [alLookup_insert_self] at hd'
    have hdd : d' = txD := by injection hd' with hh'; rw [← hh']
    subst hdd
    refine ⟨by rw [htx], ?_⟩
    intro op hop
    rw [htx] at hop ⊢
    rw [alLookup_foldl_insert]
    simp [hop]
  · rw [alLookup_insert_ne _ _ hh] at hd'
    obtain ⟨hhash, hops⟩ := hinv h' d' hd'
    refine ⟨hhash, ?_⟩
    intro op hop
    rw [alLookup_foldl_insert]
    split
    · rename_i hin
      exfalso
      have hcon : alContains S.outpoints op = true := by
        rw [alContains_iff]
        exact ⟨d'.tx, hops op hop⟩
      rw [hnos op hin] at hcon
      exact absurd hcon (by simp)
    · exact hops op hop

theorem poolShrinkOk_refl (S : MempoolState) : PoolShrinkOk S S :=
  ⟨rfl, rfl, rfl, rfl, rfl, fun _ _ h => h, fun h => h⟩

theorem poolShrinkOk_trans {S1 S2 S3 : MempoolState} (h12 : PoolShrinkOk S1 S2)
    (h23 : PoolShrinkOk S2 S3) : PoolShrinkOk S1 S3 := by
  obtain ⟨a1, b1, c1, d1, e1, f1, g1⟩ := h12
  obtain ⟨a2, b2, c2, d2, e2, f2, g2⟩ := h23
  exact ⟨a2.trans a1, b2.trans b1, c2.trans c1, d2.trans d1, e2.trans e1,
    fun h d hd => f1 h d (f2 h d hd), fun h => g2 (g1 h)⟩

theorem removeTransaction_poolShrinkOk (fuel : Nat) :
    ∀ (now : Int) (S : MempoolState) (tx : Tx) (b : Bool),
      PoolShrinkOk S (removeTransaction now S tx b fuel) := by
  induction fuel with
  | zero =>
    intro now S tx b
    exact poolShrinkOk_refl S
  | succ fuel ih =>
    intro now S tx b
    unfold removeTransaction
    dsimp only
    have h1 : PoolShrinkOk S
        (if b then
          (List.range tx.numTxOut).foldl
            (fun s i =>
              match alLookup s.outpoints ⟨tx.hash, i⟩ with
              | some txRedeemer => removeTransaction now s txRedeemer true fuel
              | none => s)
            S
        else S) := by
      split
      · refine @foldl_rel _ PoolShrinkOk (fun {a b c} h12 h23 => poolShrinkOk_trans h12 h23)
          poolShrinkOk_refl _ _ (fun s i _ => ?_) S
        cases alLookup s.outpoints ⟨tx.hash, i⟩ with
        | some txRedeemer => exact ih now s txRedeemer true
        | none => exact poolShrinkOk_refl s
      · exact poolShrinkOk_refl S
    refine poolShrinkOk_trans h1 ?_
    set S1 := (if b then
        (List.range tx.numTxOut).foldl
          (fun s i =>
            match alLookup s.outpoints ⟨tx.hash, i⟩ with
            | some txRedeemer => removeTransaction now s txRedeemer true fuel
            | none => s)
          S
      else S) with hS1
    cases hl : alLookup S1.pool tx.hash with
    | none => exact poolShrinkOk_refl S1
    | some txDesc =>
      dsimp only
      refine ⟨rfl, rfl, rfl, rfl, rfl, ?_, ?_⟩
      · intro h d hd
        exact (alLookup_eraseKey_cases hd).2
      · intro hinv
        exact removeCore_poolInv now S1 tx txDesc hl hinv

theorem stateInv_of_poolShrinkOk {cfg : Config} {S S' : MempoolState}
    (h : PoolShrinkOk S S') (hinv : StateInv cfg S) : StateInv cfg S' := by
  obtain ⟨ho, hbp, _, _, _, hmono, hpoolinv⟩ := h
  obtain ⟨h1, h2, h3, h4⟩ := hinv
  refine ⟨hpoolinv h1, ?_, ?_, ?_⟩
  · intro k hk
    rw [ho]
    rw [alContains_iff] at hk
    obtain ⟨d, hd⟩ := hk
    refine h2 k ?_
    rw [alContains_iff]
    exact ⟨d, hmono k d hd⟩
  · intro p hp
    rw [ho] at hp
    exact h3 p hp
  · rw [ho]
    exact h4

theorem removalOk_trans {S1 S2 S3 : MempoolState} (h12 : RemovalOk S1 S2)
    (h23 : RemovalOk S2 S3) : RemovalOk S1 S3 :=
  removalAux_trans h12 h23

theorem removeOrphanDoubleSpends_removalOk (S : MempoolState) (tx : Tx) :
    RemovalOk S (removeOrphanDoubleSpends S tx) := by
  unfold removeOrphanDoubleSpends
  refine @foldl_rel _ RemovalOk (fun {a b c} h12 h23 => removalOk_trans h12 h23)
    (removalAux_refl none) _ _ (fun s op _ => ?_) S
  exact @foldl_rel _ RemovalOk (fun {a b c} h12 h23 => removalOk_trans h12 h23)
    (removalAux_refl none) _ _
    (fun s2 p _ => removeOrphan_removalOk (orphanRemoveFuel s2) s2 p.2 true) s

theorem removeOrphansByTag_removalOk (S : MempoolState) (tag : Nat) :
    RemovalOk S (removeOrphansByTag S tag) := by
  unfold removeOrphansByTag
  refine @foldl_rel _ RemovalOk (fun {a b c} h12 h23 => removalOk_trans h12 h23)
    (removalAux_refl none) _ _ (fun s p _ => ?_) S
  split
  · exact removeOrphan_removalOk (orphanRemoveFuel s) s p.2.tx true
  · exact removalAux_refl none s

theorem expireScanFold_removalOk (now : Int) (S : MempoolState) (l : List (Hash × OrphanTx)) :
    RemovalOk S
      (l.foldl
        (fun s p =>
          if now > p.2.expiration then removeOrphan s p.2.tx true (orphanRemoveFuel s) else s)
        S) := by
  refine @foldl_rel _ RemovalOk (fun {a b c} h12 h23 => removalOk_trans h12 h23)
    (removalAux_refl none) _ _ (fun s p _ => ?_) S
  split
  · exact removeOrphan_removalOk (orphanRemoveFuel s) s p.2.tx true
  · exact removalAux_refl none s

theorem byPrevAddFold_fields (inputs : List OutPoint) (tx : Tx) :
    ∀ S : MempoolState,
      (inputs.foldl
        (fun s op => { s with orphansByPrev := byPrevAdd s.orphansByPrev op tx.hash tx })
        S).pool = S.pool ∧
      (inputs.foldl
        (fun s op => { s with orphansByPrev := byPrevAdd s.orphansByPrev op tx.hash tx })
        S).outpoints = S.outpoints ∧
      (inputs.foldl
        (fun s op => { s with orphansByPrev := byPrevAdd s.orphansByPrev op tx.hash tx })
        S).orphans = S.orphans ∧
      (inputs.foldl
        (fun s op => { s with orphansByPrev := byPrevAdd s.orphansByPrev op tx.hash tx })
        S).nextExpireScan = S.nextExpireScan := by
  induction inputs with
  | nil => exact fun S => ⟨rfl, rfl, rfl, rfl⟩
  | cons a rest ih =>
    intro S
    simpa using ih { S with orphansByPrev := byPrevAdd S.orphansByPrev a tx.hash tx }

theorem mem_alInsert {α β : Type} [DecidableEq α] {l : List (α × β)} {k : α} {v : β}
    {p : α × β} (h : p ∈ alInsert l k v) : p ∈ l ∨ p = (k, v) := by
  unfold alInsert at h
  rcases List.mem_append.mp h with h | h
  · exact .inl (mem_alEraseKey h).1
  · simp at h
    exact .inr h

theorem alContains_alInsert_ne {α β : Type} [DecidableEq α] (l : List (α × β)) {k k' : α}
    (v : β) (h : k' ≠ k) : alContains (alInsert l k v) k' = alContains l k' := by
  unfold alContains
  rw [alLookup_insert_ne _ _ h]

theorem stateInv_maybeAccept_true (cfg : Config) (ora : Oracles) (now : Int)
    (S : MempoolState) (tx : Tx) (isNew rateLimit : Bool) (hinv : StateInv cfg S) :
    StateInv cfg (maybeAcceptTransaction cfg ora now S tx isNew rateLimit true).2 := by
  have hs := maybeAcceptTransaction_spec cfg ora now S tx isNew rateLimit true
  cases hres : maybeAcceptTransaction cfg ora now S tx isNew rateLimit true with
  | mk res S' =>
    rw [hres] at hs
    dsimp only
    cases res with
    | err e => exact stateInv_congr hs hinv
    | missing ps =>
      rw [show S' = S from hs]
      exact hinv
    | accepted txD =>
      obtain ⟨htx, hp, ho, horph, hbp, hnes, hnp, hdbl, hord⟩ := hs
      obtain ⟨h1, h2, h3, h4⟩ := hinv
      refine ⟨addTransaction_poolInv htx hp ho hdbl h1, ?_, ?_, ?_⟩
      · intro k hk
        rw [horph]
        rw [alContains, hp] at hk
        by_cases hkh : k = tx.hash
        · subst hkh
          exact hord rfl
        · rw [alLookup_insert_ne _ _ hkh] at hk
          exact h2 k hk
      · intro p hp'
        rw [horph] at hp'
        exact h3 p hp'
      · rw [horph]
        exact h4

theorem stateInv_processOrphanOutMembers (cfg : Config) (ora : Oracles) (now : Int) :
    ∀ (members : List (Hash × Tx)) (S : MempoolState), StateInv cfg S →
      StateInv cfg (processOrphanOutMembers cfg ora now members S).1 := by
  intro members
  induction members with
  | nil =>
    intro S h
    exact h
  | cons p rest ih =>
    intro S hinv
    unfold processOrphanOutMembers
    have hs := maybeAcceptTransaction_spec cfg ora now S p.2 true true false
    cases hres : maybeAcceptTransaction cfg ora now S p.2 true true false with
    | mk res S1 =>
      rw [hres] at hs
      cases res with
      | err e =>
        dsimp only
        exact stateInv_of_removalOk
          (removeOrphan_removalOk (orphanRemoveFuel S1) S1 p.2 true)
          (stateInv_congr hs hinv)
      | missing ms =>
        dsimp only
        refine ih S1 ?_
        rw [show S1 = S from hs]
        exact hinv
      | accepted txD =>
        dsimp only
        obtain ⟨htx, hp, ho, horph, hbp, hnes, hnp, hdbl, _⟩ := hs
        obtain ⟨h1, h2, h3, h4⟩ := hinv
        have hrm := removeOrphan_removalOk (orphanRemoveFuel S1) S1 p.2 false
        obtain ⟨rp, rop, _, _, _, _, rsub, rlo, _, _⟩ := hrm
        have hself := removeOrphan_self S1 p.2 false (orphanRemoveFuel S1)
          (by unfold orphanRemoveFuel; omega)
        refine ⟨poolInv_congr rp rop (addTransaction_poolInv htx hp ho hdbl h1), ?_, ?_, ?_⟩
        · intro k hk
          rw [alContains_iff] at hk
          obtain ⟨d, hd⟩ := hk
          rw [rp, hp] at hd
          by_cases hkh : k = p.2.hash
          · subst hkh
            exact hself
          · rw [alLookup_insert_ne _ _ hkh] at hd
            have hkS : alContains S.pool k = true := by
              rw [alContains_iff]
              exact ⟨d, hd⟩
            have hkso := h2 k hkS
            cases hc : alContains (removeOrphan S1 p.2 false (orphanRemoveFuel S1)).orphans k with
            | false => rfl
            | true =>
              rw [alContains_iff] at hc
              obtain ⟨o, hoo⟩ := hc
              have hS1o := rlo k o hoo
              rw [horph] at hS1o
              have : alContains S.orphans k = true := by
                rw [alContains_iff]
                exact ⟨o, hS1o⟩
              rw [hkso] at this
              exact absurd this (by simp)
        · intro q hq
          have hq1 := rsub.mem hq
          rw [horph] at hq1
          exact h3 q hq1
        · intro hmax
          have hlen := rsub.length_le
          have : S1.orphans.length = S.orphans.length := by rw [horph]
          have h4' := h4 hmax
          omega

theorem stateInv_processOrphanOutputs (cfg : Config) (ora : Oracles) (now : Int) (h : Hash) :
    ∀ (idxs : List Nat) (S : MempoolState) (accD : List TxDesc) (accT : List Tx),
      StateInv cfg S →
      StateInv cfg (processOrphanOutputs cfg ora now h idxs S accD accT).1 := by
  intro idxs
  induction idxs with
  | nil =>
    intro S accD accT hinv
    exact hinv
  | cons i rest ih =>
    intro S accD accT hinv
    unfold processOrphanOutputs
    cases alLookup S.orphansByPrev ⟨h, i⟩ with
    | none => exact ih S accD accT hinv
    | some members =>
      dsimp only
      cases hm : processOrphanOutMembers cfg ora now members S with
      | mk S' opt =>
        have hS' : StateInv cfg S' := by
          have hmm := stateInv_processOrphanOutMembers cfg ora now members S hinv
          rw [hm] at hmm
          exact hmm
        cases opt with
        | none => exact ih S' accD accT hS'
        | some pr =>
          cases pr with
          | mk txD t => exact ih S' (accD ++ [txD]) (accT ++ [t]) hS'

theorem stateInv_processOrphansLoop (cfg : Config) (ora : Oracles) (now : Int) :
    ∀ (fuel : Nat) (items : List Tx) (accD : List TxDesc) (S : MempoolState),
      StateInv cfg S →
      StateInv cfg (processOrphansLoop cfg ora now fuel items accD S).2 := by
  intro fuel
  induction fuel with
  | zero =>
    intro items accD S h
    exact h
  | succ fuel ih =>
    intro items accD S hinv
    cases items with
    | nil => exact hinv
    | cons item rest =>
      unfold processOrphansLoop
      cases hm : processOrphanOutputs cfg ora now item.hash (List.range item.numTxOut) S [] [] with
      | mk S' rest2 =>
        cases rest2 with
        | mk accD' accT' =>
          dsimp only
          refine ih (rest ++ accT') (accD ++ accD') S' ?_
          have hmm := stateInv_processOrphanOutputs cfg ora now item.hash
            (List.range item.numTxOut) S [] [] hinv
          rw [hm] at hmm
          exact hmm

theorem stateInv_foldl_removeOrphanDoubleSpends (cfg : Config) :
    ∀ (l : List TxDesc) (S : MempoolState), StateInv cfg S →
      StateInv cfg (l.foldl (fun s d => removeOrphanDoubleSpends s d.tx) S) := by
  intro l
  induction l with
  | nil =>
    intro S h
    exact h
  | cons d rest ih =>
    intro S hinv
    exact ih _ (stateInv_of_removalOk (removeOrphanDoubleSpends_removalOk S d.tx) hinv)

theorem stateInv_processOrphans (cfg : Config) (ora : Oracles) (now : Int)
    (S : MempoolState) (acceptedTx : Tx) (hinv : StateInv cfg S) :
    StateInv cfg (processOrphans cfg ora now S acceptedTx).2 := by
  unfold processOrphans
  cases hl : processOrphansLoop cfg ora now (S.orphans.length + 1) [acceptedTx] [] S with
  | mk accD S' =>
    dsimp only
    have h1 : StateInv cfg S' := by
      have hmm := stateInv_processOrphansLoop cfg ora now (S.orphans.length + 1)
        [acceptedTx] [] S hinv
      rw [hl] at hmm
      exact hmm
    exact stateInv_foldl_removeOrphanDoubleSpends cfg accD _
      (stateInv_of_removalOk (removeOrphanDoubleSpends_removalOk S' acceptedTx) h1)

theorem stateInv_expireOrphans (cfg : Config) (now : Int) (S : MempoolState)
    (hinv : StateInv cfg S) :
    StateInv cfg (expireOrphans now S) ∧
    (expireOrphans now S).orphans.length ≤ S.orphans.length ∧
    (expireOrphans now S).pool = S.pool ∧
    OrphansWellKeyed (expireOrphans now S) := by
  unfold expireOrphans
  split
  · have hrm := expireScanFold_removalOk now S S.orphans
    have hscan := stateInv_of_removalOk hrm hinv
    obtain ⟨hp, _, _, _, _, _, hsub, _, _, _⟩ := hrm
    exact ⟨⟨hscan.1, hscan.2.1, hscan.2.2.1, hscan.2.2.2⟩, hsub.length_le, hp, hscan.2.2.1⟩
  · exact ⟨hinv, le_refl _, rfl, hinv.2.2.1⟩

theorem stateInv_limitNumOrphans (cfg : Config) (now : Int) (S : MempoolState)
    (hinv : StateInv cfg S) :
    StateInv cfg (limitNumOrphans cfg now S) ∧
    (limitNumOrphans cfg now S).pool = S.pool ∧
    (0 < cfg.policy.maxOrphanTxs →
      ((limitNumOrphans cfg now S).orphans.length : Int) + 1 ≤ cfg.policy.maxOrphanTxs) := by
  unfold limitNumOrphans
  obtain ⟨hS1, hlen1, hpool1, hwk1⟩ := stateInv_expireOrphans cfg now S hinv
  dsimp only
  split
  · rename_i hfits
    exact ⟨hS1, hpool1, fun _ => hfits⟩
  · rename_i hover
    cases horp : (expireOrphans now S).orphans with
    | nil =>
      refine ⟨hS1, hpool1, fun hpos => ?_⟩
      rw [horp]
      simpa using hpos
    | cons p l =>
      have hmem : p ∈ (expireOrphans now S).orphans := by
        rw [horp]
        exact List.mem_cons_self _ _
      have hkey : p.2.tx.hash = p.1 := hwk1 p hmem
      have hcont : alContains (expireOrphans now S).orphans p.2.tx.hash = true := by
        rw [hkey]
        exact alContains_of_mem (l := (expireOrphans now S).orphans) (v := p.2) hmem
      have hrm := removeOrphan_removalOk (orphanRemoveFuel (expireOrphans now S))
        (expireOrphans now S) p.2.tx false
      have hlt := removeOrphan_length_lt (expireOrphans now S) p.2.tx false
        (orphanRemoveFuel (expireOrphans now S)) (by unfold orphanRemoveFuel; omega) hcont
      refine ⟨stateInv_of_removalOk hrm hS1, ?_, fun hpos => ?_⟩
      · rw [hrm.1, hpool1]
      · have hcap : 0 ≤ cfg.policy.maxOrphanTxs := le_of_lt hpos
        have h4 := hS1.2.2.2 hcap
        show ((removeOrphan (expireOrphans now S) p.2.tx false
          (orphanRemoveFuel (expireOrphans now S))).orphans.length : Int) + 1 ≤
            cfg.policy.maxOrphanTxs
        omega

theorem stateInv_addOrphan (cfg : Config) (now : Int) (S : MempoolState) (tx : Tx)
    (tag : Nat) (hnp : alContains S.pool tx.hash = false) (hinv : StateInv cfg S) :
    StateInv cfg (addOrphan cfg now S tx tag) := by
  unfold addOrphan
  split
  · exact hinv
  · rename_i hmax0
    dsimp only
    obtain ⟨hS1, hpool1, hroom⟩ := stateInv_limitNumOrphans cfg now S hinv
    have hpos : 0 < cfg.policy.maxOrphanTxs := by omega
    set S1 := limitNumOrphans cfg now S with hS1def
    set S2 : MempoolState := { S1 with
      orphans := alInsert S1.orphans tx.hash
        { tx := tx, tag := tag, expiration := now + orphanTTL } } with hS2def
    have hS2 : StateInv cfg S2 := by
      obtain ⟨h1, h2, h3, h4⟩ := hS1
      refine ⟨h1, ?_, ?_, ?_⟩
      · intro k hk
        by_cases hkh : k = tx.hash
        · subst hkh
          rw [show (S2 : MempoolState).pool = S1.pool from rfl, hpool1] at hk
          rw [hnp] at hk
          exact absurd hk (by simp)
        · rw [show (S2 : MempoolState).orphans = alInsert S1.orphans tx.hash
            { tx := tx, tag := tag, expiration := now + orphanTTL } from rfl,
            alContains_alInsert_ne _ _ hkh]
          exact h2 k hk
      · intro p hp
        rcases mem_alInsert hp with hp' | hp'
        · exact h3 p hp'
        · rw [hp']
      · intro hmax
        have := alInsert_length_le S1.orphans tx.hash
          { tx := tx, tag := tag, expiration := now + orphanTTL }
        have hr := hroom hpos
        rw [show (S2 : MempoolState).orphans = alInsert S1.orphans tx.hash
          { tx := tx, tag := tag, expiration := now + orphanTTL } from rfl]
        omega
    obtain ⟨hbf1, hbf2, hbf3, _⟩ := byPrevAddFold_fields tx.inputs tx S2
    obtain ⟨g1, g2, g3, g4⟩ := hS2
    refine ⟨poolInv_congr hbf1 hbf2 g1, ?_, ?_, ?_⟩
    · intro k hk
      rw [alContains, hbf1] at hk
      rw [alContains, hbf3]
      exact g2 k hk
    · intro p hp
      rw [hbf3] at hp
      exact g3 p hp
    · rw [hbf3]
      exact g4

theorem stateInv_processTransaction (cfg : Config) (ora : Oracles) (now : Int)
    (S : MempoolState) (tx : Tx) (allowOrphan rateLimit : Bool) (tag : Nat)
    (hinv : StateInv cfg S) :
    StateInv cfg (processTransaction cfg ora now S tx allowOrphan rateLimit tag).2 := by
  unfold processTransaction
  have hs := maybeAcceptTransaction_spec cfg ora now S tx true rateLimit true
  cases hres : maybeAcceptTransaction cfg ora now S tx true rateLimit true with
  | mk res S1 =>
    rw [hres] at hs
    cases res with
    | err e => exact stateInv_congr hs hinv
    | accepted txD =>
      dsimp only
      cases hpo : processOrphans cfg ora now S1 tx with
      | mk newTxs S2 =>
        dsimp only
        have hS1 : StateInv cfg S1 := by
          have hmm := stateInv_maybeAccept_true cfg ora now S tx true rateLimit hinv
          rw [hres] at hmm
          exact hmm
        have hmm := stateInv_processOrphans cfg ora now S1 tx hS1
        rw [hpo] at hmm
        exact hmm
    | missing ps =>
      dsimp only
      have hSS : S1 = S := hs
      subst hSS
      split
      · exact hinv
      · have hnp : alContains S1.pool tx.hash = false := by
          cases hc : alContains S1.pool tx.hash with
          | false => rfl
          | true =>
            rw [maybeAcceptTransaction_dup_pool cfg ora now S1 tx true rateLimit true hc]
              at hres
            simp at hres
        cases hma : maybeAddOrphan cfg now S1 tx tag with
        | mk eopt S2 =>
          have hS2 : StateInv cfg S2 := by
            unfold maybeAddOrphan at hma
            split at hma
            · injection hma with h1 h2
              rw [← h2]
              exact hinv
            · injection hma with h1 h2
              rw [← h2]
              exact stateInv_addOrphan cfg now S1 tx tag hnp hinv
          cases eopt with
          | some e => exact hS2
          | none => exact hS2

theorem stateInv_poolStep {cfg : Config} {S S' : MempoolState} (hstep : PoolStep cfg S S')
    (hinv : StateInv cfg S) : StateInv cfg S' := by
  cases hstep with
  | processTransaction ora now S tx allowOrphan rateLimit tag =>
    exact stateInv_processTransaction cfg ora now S tx allowOrphan rateLimit tag hinv
  | maybeAcceptTransaction ora now S tx isNew rateLimit =>
    exact stateInv_maybeAccept_true cfg ora now S tx isNew rateLimit hinv
  | processOrphans ora now S acceptedTx =>
    exact stateInv_processOrphans cfg ora now S acceptedTx hinv
  | removeTransaction now S tx removeRedeemers =>
    exact stateInv_of_poolShrinkOk
      (removeTransaction_poolShrinkOk (S.pool.length + 1) now S tx removeRedeemers) hinv
  | removeDoubleSpends now S tx =>
    refine stateInv_of_poolShrinkOk ?_ hinv
    unfold removeDoubleSpends
    refine @foldl_rel _ PoolShrinkOk (fun {a b c} h12 h23 => poolShrinkOk_trans h12 h23)
      poolShrinkOk_refl _ _ (fun s op _ => ?_) S
    cases alLookup s.outpoints op with
    | some txRedeemer =>
      dsimp only
      split
      · exact removeTransaction_poolShrinkOk (s.pool.length + 1) now s txRedeemer true
      · exact poolShrinkOk_refl s
    | none => exact poolShrinkOk_refl s
  | removeOrphan S tx =>
    exact stateInv_of_removalOk (removeOrphan_removalOk (orphanRemoveFuel S) S tx false) hinv
  | removeOrphansByTag S tag =>
    exact stateInv_of_removalOk (removeOrphansByTag_removalOk S tag) hinv

theorem stateInv_newTxPool (cfg : Config) (now : Int) : StateInv cfg (newTxPool now) := by
  refine ⟨?_, ?_, ?_, ?_⟩
  · intro h d hd
    simp [newTxPool, alLookup] at hd
  · intro k hk
    simp [newTxPool, alContains, alLookup] at hk
  · intro p hp
    simp [newTxPool] at hp
  · intro hmax
    simp [newTxPool]
    exact hmax

theorem reachable_stateInv {cfg : Config} {S : MempoolState} (h : Reachable cfg S) :
    StateInv cfg S := by
  induction h with
  | init now => exact stateInv_newTxPool cfg now
  | step _ hstep ih => exact stateInv_poolStep hstep ih

/-- C1: in every mempool state reachable through the public TxPool
operations, every input outpoint of every pool transaction maps in
`outpoints` to that transaction (hence to its hash), and no two distinct
pool transactions spend the same outpoint. -/
theorem C1_no_inpool_double_spend (cfg : Config) (S : MempoolState)
    (h : Reachable cfg S) :
    (∀ h' d, alLookup S.pool h' = some d →
      ∀ op ∈ d.tx.inputs, ∃ t, alLookup S.outpoints op = some t ∧ t.hash = h') ∧
    (∀ h1 h2 d1 d2 op, alLookup S.pool h1 = some d1 → alLookup S.pool h2 = some d2 →
      op ∈ d1.tx.inputs → op ∈ d2.tx.inputs → h1 = h2) := by
  have hinv := (reachable_stateInv h).1
  constructor
  · intro h' d hd op hop
    obtain ⟨hh, hops⟩ := hinv h' d hd
    exact ⟨d.tx, hops op hop, hh⟩
  · intro h1 h2 d1 d2 op hd1 hd2 hop1 hop2
    obtain ⟨hh1, hops1⟩ := hinv h1 d1 hd1
    obtain ⟨hh2, hops2⟩ := hinv h2 d2 hd2
    have heq := hops1 op hop1
    rw [hops2 op hop2] at heq
    injection heq with hh
    rw [← hh1, ← hh2, hh]

theorem C1_no_inpool_double_spend_witness :
    (∀ h' d,
      alLookup (processTransaction exCfg (exOra 1000) 0 (newTxPool 0) exSmallTx
        true false 7).2.pool h' = some d →
      ∀ op ∈ d.tx.inputs, ∃ t,
        alLookup (processTransaction exCfg (exOra 1000) 0 (newTxPool 0) exSmallTx
          true false 7).2.outpoints op = some t ∧ t.hash = h') ∧
    (∀ h1 h2 d1 d2 op,
      alLookup (processTransaction exCfg (exOra 1000) 0 (newTxPool 0) exSmallTx
        true false 7).2.pool h1 = some d1 →
      alLookup (processTransaction exCfg (exOra 1000) 0 (newTxPool 0) exSmallTx
        true false 7).2.pool h2 = some d2 →
      op ∈ d1.tx.inputs → op ∈ d2.tx.inputs → h1 = h2) :=
  C1_no_inpool_double_spend exCfg _
    (Reachable.step (Reachable.init 0)
      (PoolStep.processTransaction (exOra 1000) 0 (newTxPool 0) exSmallTx true false 7))

/-- C3: in every mempool state reachable through the public TxPool
operations, no transaction hash is simultaneously a key of the pool map and
of the orphans map. -/
theorem C3_pool_orphan_disjoint (cfg : Config) (S : MempoolState)
    (h : Reachable cfg S) :
    ∀ k : Hash, ¬ (alContains S.pool k = true ∧ alContains S.orphans k = true) := by
  have hinv := (reachable_stateInv h).2.1
  rintro k ⟨hk1, hk2⟩
  rw [hinv k hk1] at hk2
  exact absurd hk2 (by simp)

theorem C3_pool_orphan_disjoint_witness :
    ¬ (alContains (processTransaction exCfg exOraMissing 0 (newTxPool 0) exOrphanTx
          true false 7).2.pool 20 = true ∧
       alContains (processTransaction exCfg exOraMissing 0 (newTxPool 0) exOrphanTx
          true false 7).2.orphans 20 = true) :=
  C3_pool_orphan_disjoint exCfg _
    (Reachable.step (Reachable.init 0)
      (PoolStep.processTransaction exOraMissing 0 (newTxPool 0) exOrphanTx true false 7))
    20

/-- C4: after every ProcessTransaction call on a reachable state the orphan
map has at most `Policy.MaxOrphanTxs` entries; and when adding one more
orphan would exceed the limit, one existing orphan (the one the eviction
loop reaches first) is evicted before the insertion. -/
theorem C4_orphan_capacity :
    (∀ (cfg : Config) (ora : Oracles) (now : Int) (S : MempoolState) (tx : Tx)
        (allowOrphan rateLimit : Bool) (tag : Nat),
      Reachable cfg S → 0 ≤ cfg.policy.maxOrphanTxs →
      (((processTransaction cfg ora now S tx allowOrphan rateLimit tag).2.orphans.length : Int) ≤
        cfg.policy.maxOrphanTxs)) ∧
    (∀ (cfg : Config) (now : Int) (S : MempoolState) (p : Hash × OrphanTx)
        (l : List (Hash × OrphanTx)),
      (expireOrphans now S).orphans = p :: l →
      ¬ ((((p :: l).length : Nat) : Int) + 1 ≤ cfg.policy.maxOrphanTxs) →
      p.2.tx.hash = p.1 →
      alContains (limitNumOrphans cfg now S).orphans p.1 = false ∧
      (limitNumOrphans cfg now S).orphans.length < (p :: l).length) := by
  constructor
  · intro cfg ora now S tx allowOrphan rateLimit tag hreach hmax
    have hr2 : Reachable cfg (processTransaction cfg ora now S tx allowOrphan rateLimit tag).2 :=
      Reachable.step hreach (PoolStep.processTransaction ora now S tx allowOrphan rateLimit tag)
    exact (reachable_stateInv hr2).2.2.2 hmax
  · intro cfg now S p l horp hover hkey
    unfold limitNumOrphans
    dsimp only
    rw [horp]
    rw [if_neg hover]
    have hmem : p ∈ (expireOrphans now S).orphans := by
      rw [horp]
      exact List.mem_cons_self _ _
    have hcont : alContains (expireOrphans now S).orphans p.2.tx.hash = true := by
      rw [hkey]
      exact alContains_of_mem (l := (expireOrphans now S).orphans) (v := p.2) hmem
    constructor
    · rw [← hkey]
      exact removeOrphan_self (expireOrphans now S) p.2.tx false
        (orphanRemoveFuel (expireOrphans now S)) (by unfold orphanRemoveFuel; omega)
    · have hlt := removeOrphan_length_lt (expireOrphans now S) p.2.tx false
        (orphanRemoveFuel (expireOrphans now S)) (by unfold orphanRemoveFuel; omega) hcont
      rw [horp] at hlt
      exact hlt

theorem alLookup_of_mem_nodup {α β : Type} [DecidableEq α] {l : List (α × β)} {k : α} {v : β}
    (hmem : (k, v) ∈ l) (hnd : (l.map Prod.fst).Nodup) : alLookup l k = some v := by
  induction l with
  | nil => simp at hmem
  | cons p t ih =>
    rw [List.map_cons, List.nodup_cons] at hnd
    rcases List.mem_cons.mp hmem with h | h
    · rw [← h]
      simp [alLookup]
    · have hk : p.1 ≠ k := by
        intro he
        exact hnd.1 (he ▸ List.mem_map.mpr ⟨(k, v), h, rfl⟩)
      simp only [alLookup, hk, reduceIte]
      exact ih h hnd.2

theorem alEraseKey_keys_sublist {α β : Type} [DecidableEq α] (l : List (α × β)) (k : α) :
    ((alEraseKey l k).map Prod.fst).Sublist (l.map Prod.fst) :=
  (alEraseKey_sublist l k).map _

theorem alEraseKey_keys_nodup {α β : Type} [DecidableEq α] {l : List (α × β)} (k : α)
    (h : (l.map Prod.fst).Nodup) : ((alEraseKey l k).map Prod.fst).Nodup :=
  List.Nodup.sublist (alEraseKey_keys_sublist l k) h

theorem alInsert_keys_nodup {α β : Type} [DecidableEq α] {l : List (α × β)} (k : α) (v : β)
    (h : (l.map Prod.fst).Nodup) : ((alInsert l k v).map Prod.fst).Nodup := by
  unfold alInsert
  rw [List.map_append]
  rw [List.nodup_append]
  refine ⟨alEraseKey_keys_nodup k h, by simp, ?_⟩
  intro a ha hb
  simp only [List.map_cons, List.map_nil, List.mem_singleton] at hb
  obtain ⟨p, hp, hpe⟩ := List.mem_map.mp ha
  exact (mem_alEraseKey hp).2 (hpe.trans hb)

theorem alContains_eraseKey_self {α β : Type} [DecidableEq α] (l : List (α × β)) (k : α) :
    alContains (alEraseKey l k) k = false := by
  unfold alContains
  rw [alLookup_eraseKey_self]
  rfl

theorem alContains_eraseKey_ne {α β : Type} [DecidableEq α] (l : List (α × β)) {k k' : α}
    (h : k' ≠ k) : alContains (alEraseKey l k) k' = alContains l k' := by
  unfold alContains
  rw [alLookup_eraseKey_ne _ h]

theorem alContains_eraseKey_of_false {α β : Type} [DecidableEq α] {l : List (α × β)} (k : α)
    {k' : α} (h : alContains l k' = false) : alContains (alEraseKey l k) k' = false := by
  by_cases hk : k' = k
  · subst hk
    exact alContains_eraseKey_self l _
  · rw [alContains_eraseKey_ne _ hk]
    exact h

theorem mem_innerKeys {l : List (Hash × Tx)} {h : Hash} :
    h ∈ innerKeys l ↔ ∃ t, (h, t) ∈ l := by
  induction l with
  | nil => simp [innerKeys]
  | cons q t ih =>
    simp only [innerKeys, List.foldr_cons, Finset.mem_insert]
    rw [show List.foldr (fun q a => insert q.1 a) ∅ t = innerKeys t from rfl]
    constructor
    · rintro (he | hm)
      · exact ⟨q.2, by rw [he]; exact List.mem_cons_self _ _⟩
      · obtain ⟨t', ht'⟩ := ih.mp hm
        exact ⟨t', List.mem_cons_of_mem _ ht'⟩
    · rintro ⟨t', ht'⟩
      rcases List.mem_cons.mp ht' with he | hm
      · left
        rw [← he]
      · right
        exact ih.mpr ⟨t', hm⟩

theorem mem_idxKeys {bp : List (OutPoint × List (Hash × Tx))} {h : Hash} :
    h ∈ idxKeys bp ↔ ∃ pr, pr ∈ bp ∧ ∃ t, (h, t) ∈ (pr : OutPoint × List (Hash × Tx)).2 := by
  induction bp with
  | nil => simp [idxKeys]
  | cons p t ih =>
    simp only [idxKeys, List.foldr_cons, Finset.mem_union]
    rw [show List.foldr (fun p a => innerKeys p.2 ∪ a) ∅ t = idxKeys t from rfl]
    constructor
    · rintro (hm | hm)
      · exact ⟨p, List.mem_cons_self _ _, mem_innerKeys.mp hm⟩
      · obtain ⟨pr, hpr, ht⟩ := ih.mp hm
        exact ⟨pr, List.mem_cons_of_mem _ hpr, ht⟩
    · rintro ⟨pr, hpr, ht⟩
      rcases List.mem_cons.mp hpr with he | hm
      · left
        exact mem_innerKeys.mpr (he ▸ ht)
      · right
        exact ih.mpr ⟨pr, hm, ht⟩

theorem wfIdx_byPrevGet_mem {S : MempoolState} (hwf : WfIdx S) {op : OutPoint}
    {q : Hash × Tx} (hq : q ∈ byPrevGet S.orphansByPrev op) :
    q.2.hash = q.1 ∧ op ∈ q.2.inputs ∧
    (alLookup S.orphans q.1).map OrphanTx.tx = some q.2 := by
  unfold byPrevGet at hq
  cases hl : alLookup S.orphansByPrev op with
  | none =>
    rw [hl] at hq
    simp at hq
  | some l =>
    rw [hl] at hq
    simp only [Option.getD_some] at hq
    exact hwf.1 (op, l) (alLookup_mem hl) q hq

theorem wfIdx_surfaced {S : MempoolState} (hwf : WfIdx S) {op : OutPoint} {h : Hash} {t : Tx}
    (hs : alLookup (byPrevGet S.orphansByPrev op) h = some t) :
    t.hash = h ∧ op ∈ t.inputs ∧ ∃ o, alLookup S.orphans h = some o ∧ o.tx = t := by
  obtain ⟨hh, hin, hmap⟩ := wfIdx_byPrevGet_mem hwf (alLookup_mem hs)
  refine ⟨hh, hin, ?_⟩
  cases ho : alLookup S.orphans h with
  | none =>
    rw [ho] at hmap
    exact absurd hmap (by simp)
  | some o =>
    rw [ho] at hmap
    simp only [Option.map_some'] at hmap
    exact ⟨o, rfl, by injection hmap⟩

theorem wfIdx_inner_nodup {S : MempoolState} (hwf : WfIdx S) (op : OutPoint) :
    ((byPrevGet S.orphansByPrev op).map Prod.fst).Nodup := by
  unfold byPrevGet
  cases hl : alLookup S.orphansByPrev op with
  | none => simp
  | some l => simpa using hwf.2.2.2.2 (op, l) (alLookup_mem hl)

theorem mem_idxKeys_of_surfaced {bp : List (OutPoint × List (Hash × Tx))} {op : OutPoint}
    {h : Hash} {t : Tx} (hs : alLookup (byPrevGet bp op) h = some t) : h ∈ idxKeys bp := by
  have hmem := alLookup_mem hs
  unfold byPrevGet at hmem
  cases hl : alLookup bp op with
  | none =>
    rw [hl] at hmem
    simp at hmem
  | some l =>
    rw [hl] at hmem
    simp only [Option.getD_some] at hmem
    exact mem_idxKeys.mpr ⟨(op, l), alLookup_mem hl, t, hmem⟩

theorem surfaced_of_mem_idxKeys {bp : List (OutPoint × List (Hash × Tx))}
    (hnd : (bp.map Prod.fst).Nodup)
    (hinner : ∀ pr ∈ bp, ((pr : OutPoint × List (Hash × Tx)).2.map Prod.fst).Nodup) {h : Hash}
    (hm : h ∈ idxKeys bp) : ∃ op t, alLookup (byPrevGet bp op) h = some t := by
  obtain ⟨pr, hpr, t, ht⟩ := mem_idxKeys.mp hm
  have hl : alLookup bp pr.1 = some pr.2 := alLookup_of_mem_nodup hpr hnd
  refine ⟨pr.1, t, ?_⟩
  have hget : byPrevGet bp pr.1 = pr.2 := by
    unfold byPrevGet
    rw [hl]
    rfl
  rw [hget]
  exact alLookup_of_mem_nodup ht (hinner pr hpr)

theorem idxKeys_subset_of_mono {bp' bp : List (OutPoint × List (Hash × Tx))}
    (hnd : (bp'.map Prod.fst).Nodup)
    (hinner : ∀ pr ∈ bp', ((pr : OutPoint × List (Hash × Tx)).2.map Prod.fst).Nodup)
    (hmono : ∀ op h t, alLookup (byPrevGet bp' op) h = some t →
      alLookup (byPrevGet bp op) h = some t) :
    idxKeys bp' ⊆ idxKeys bp := by
  intro h hm
  obtain ⟨op, t, hs⟩ := surfaced_of_mem_idxKeys hnd hinner hm
  exact mem_idxKeys_of_surfaced (hmono op h t hs)

theorem idxKeys_card_le_orphans (S : MempoolState) (hwf : WfIdx S) :
    (idxKeys S.orphansByPrev).card ≤ S.orphans.length := by
  have hsub : idxKeys S.orphansByPrev ⊆ (S.orphans.map Prod.fst).toFinset := by
    intro h hm
    obtain ⟨op, t, hs⟩ := surfaced_of_mem_idxKeys hwf.2.2.2.1 hwf.2.2.2.2 hm
    obtain ⟨_, _, o, ho, _⟩ := wfIdx_surfaced hwf hs
    rw [List.mem_toFinset]
    exact List.mem_map.mpr ⟨(h, o), alLookup_mem ho, rfl⟩
  calc (idxKeys S.orphansByPrev).card ≤ (S.orphans.map Prod.fst).toFinset.card :=
        Finset.card_le_card hsub
    _ ≤ (S.orphans.map Prod.fst).length := (S.orphans.map Prod.fst).toFinset_card_le
    _ = S.orphans.length := List.length_map _ _

theorem scrubFold_fields (inputs : List OutPoint) (x : Hash) :
    ∀ S : MempoolState,
      inputs.foldl (fun s op => { s with orphansByPrev := byPrevRemove s.orphansByPrev op x }) S
        = { S with orphansByPrev :=
            inputs.foldl (fun bp op => byPrevRemove bp op x) S.orphansByPrev } := by
  induction inputs with
  | nil => intro S; rfl
  | cons a rest ih =>
    intro S
    rw [List.foldl_cons, List.foldl_cons, ih]

theorem scrubFold_contains_false (x : Hash) :
    ∀ (inputs : List OutPoint) (bp : List (OutPoint × List (Hash × Tx))) (op : OutPoint),
      (op ∈ inputs ∨ alContains (byPrevGet bp op) x = false) →
      alContains (byPrevGet (inputs.foldl (fun b o => byPrevRemove b o x) bp) op) x = false := by
  intro inputs
  induction inputs with
  | nil =>
    intro bp op hop
    rcases hop with h | h
    · simp at h
    · exact h
  | cons a rest ih =>
    intro bp op hop
    rw [List.foldl_cons]
    rcases hop with hmem | hfalse
    · rcases List.mem_cons.mp hmem with he | hm
      · subst he
        refine ih _ op (.inr ?_)
        rw [byPrevGet_byPrevRemove, if_pos rfl]
        exact alContains_eraseKey_self _ x
      · exact ih _ op (.inl hm)
    · refine ih _ op (.inr ?_)
      rw [byPrevGet_byPrevRemove]
      split
      · exact alContains_eraseKey_self _ x
      · exact hfalse

theorem byPrevRemove_mono (bp : List (OutPoint × List (Hash × Tx))) (op : OutPoint) (x : Hash)
    (op' : OutPoint) (h : Hash) (t : Tx)
    (hs : alLookup (byPrevGet (byPrevRemove bp op x) op') h = some t) :
    alLookup (byPrevGet bp op') h = some t := by
  rw [byPrevGet_byPrevRemove] at hs
  split at hs
  · rename_i he
    rw [he]
    exact (alLookup_eraseKey_cases hs).2
  · exact hs

theorem scrubFold_mono (x : Hash) :
    ∀ (inputs : List OutPoint) (bp : List (OutPoint × List (Hash × Tx))) (op' : OutPoint)
      (h : Hash) (t : Tx),
      alLookup (byPrevGet (inputs.foldl (fun b o => byPrevRemove b o x) bp) op') h = some t →
      alLookup (byPrevGet bp op') h = some t := by
  intro inputs
  induction inputs with
  | nil =>
    intro bp op' h t hs
    exact hs
  | cons a rest ih =>
    intro bp op' h t hs
    rw [List.foldl_cons] at hs
    exact byPrevRemove_mono bp a x op' h t (ih _ op' h t hs)

theorem scrubFold_get_ne (x : Hash) {h : Hash} (hne : h ≠ x) :
    ∀ (inputs : List OutPoint) (bp : List (OutPoint × List (Hash × Tx))) (op' : OutPoint),
      alLookup (byPrevGet (inputs.foldl (fun b o => byPrevRemove b o x) bp) op') h =
        alLookup (byPrevGet bp op') h := by
  intro inputs
  induction inputs with
  | nil =>
    intro bp op'
    rfl
  | cons a rest ih =>
    intro bp op'
    rw [List.foldl_cons, ih, byPrevGet_byPrevRemove]
    split
    · rename_i he
      rw [he, alLookup_eraseKey_ne _ hne]
    · rfl

theorem byPrevRemove_outer_nodup {bp : List (OutPoint × List (Hash × Tx))} (op : OutPoint)
    (x : Hash) (hnd : (bp.map Prod.fst).Nodup) :
    ((byPrevRemove bp op x).map Prod.fst).Nodup := by
  unfold byPrevRemove
  cases alLookup bp op with
  | none => exact hnd
  | some l =>
    dsimp only
    split
    · exact alEraseKey_keys_nodup op hnd
    · exact alInsert_keys_nodup op _ hnd

theorem mem_byPrevRemove {bp : List (OutPoint × List (Hash × Tx))} {op : OutPoint} {x : Hash}
    {pr : OutPoint × List (Hash × Tx)} (hpr : pr ∈ byPrevRemove bp op x) :
    pr ∈ bp ∨ ∃ l, alLookup bp op = some l ∧ pr = (op, alEraseKey l x) := by
  unfold byPrevRemove at hpr
  cases hl : alLookup bp op with
  | none =>
    rw [hl] at hpr
    exact .inl hpr
  | some l =>
    rw [hl] at hpr
    dsimp only at hpr
    split at hpr
    · exact .inl (mem_alEraseKey hpr).1
    · rcases mem_alInsert hpr with hm | he
      · exact .inl hm
      · exact .inr ⟨l, rfl, he⟩

theorem scrubFold_mem (x : Hash) :
    ∀ (inputs : List OutPoint) (bp : List (OutPoint × List (Hash × Tx)))
      (pr : OutPoint × List (Hash × Tx)),
      pr ∈ inputs.foldl (fun b o => byPrevRemove b o x) bp →
      ∃ pr0, pr0 ∈ bp ∧ pr.1 = (pr0 : OutPoint × List (Hash × Tx)).1 ∧
        pr.2.Sublist pr0.2 := by
  intro inputs
  induction inputs with
  | nil =>
    intro bp pr hpr
    exact ⟨pr, hpr, rfl, List.Sublist.refl _⟩
  | cons a rest ih =>
    intro bp pr hpr
    rw [List.foldl_cons] at hpr
    obtain ⟨pr1, hpr1, he1, hs1⟩ := ih _ pr hpr
    rcases mem_byPrevRemove hpr1 with hm | ⟨l, hl, he⟩
    · exact ⟨pr1, hm, he1, hs1⟩
    · refine ⟨(a, l), alLookup_mem hl, ?_, ?_⟩
      · rw [he1, he]
      · rw [he] at hs1
        exact hs1.trans (alEraseKey_sublist l x)

theorem scrubFold_outer_nodup (x : Hash) :
    ∀ (inputs : List OutPoint) (bp : List (OutPoint × List (Hash × Tx))),
      (bp.map Prod.fst).Nodup →
      ((inputs.foldl (fun b o => byPrevRemove b o x) bp).map Prod.fst).Nodup := by
  intro inputs
  induction inputs with
  | nil => exact fun bp h => h
  | cons a rest ih =>
    intro bp h
    rw [List.foldl_cons]
    exact ih _ (byPrevRemove_outer_nodup a x h)

theorem scrub_bundle (S : MempoolState) (tx : Tx) (otx : OrphanTx) (hwf : WfIdx S)
    (hlook : alLookup S.orphans tx.hash = some otx) :
    RemovalAux (some tx.hash) S
      (otx.tx.inputs.foldl
        (fun s op => { s with orphansByPrev := byPrevRemove s.orphansByPrev op tx.hash }) S) ∧
    WfIdx (otx.tx.inputs.foldl
        (fun s op => { s with orphansByPrev := byPrevRemove s.orphansByPrev op tx.hash }) S) ∧
    (∀ op, alContains (byPrevGet
        (otx.tx.inputs.foldl
          (fun s op => { s with orphansByPrev := byPrevRemove s.orphansByPrev op tx.hash })
          S).orphansByPrev op) tx.hash = false) ∧
    idxKeys (otx.tx.inputs.foldl
        (fun s op => { s with orphansByPrev := byPrevRemove s.orphansByPrev op tx.hash })
        S).orphansByPrev ⊆ idxKeys S.orphansByPrev ∧
    tx.hash ∉ idxKeys (otx.tx.inputs.foldl
        (fun s op => { s with orphansByPrev := byPrevRemove s.orphansByPrev op tx.hash })
        S).orphansByPrev := by
  rw [scrubFold_fields]
  have hbase : ∀ op, alContains (byPrevGet S.orphansByPrev op) tx.hash = false ∨
      op ∈ otx.tx.inputs := by
    intro op
    cases hc : alContains (byPrevGet S.orphansByPrev op) tx.hash with
    | false => exact .inl rfl
    | true =>
      rw [alContains_iff] at hc
      obtain ⟨t, ht⟩ := hc
      obtain ⟨hh, hin, o, ho, hot⟩ := wfIdx_surfaced hwf ht
      rw [hlook] at ho
      injection ho with ho
      right
      rw [ho, hot]
      exact hin
  have hcomp : ∀ op, alContains (byPrevGet
      (otx.tx.inputs.foldl (fun b o => byPrevRemove b o tx.hash) S.orphansByPrev) op)
      tx.hash = false := by
    intro op
    rcases hbase op with h | h
    · exact scrubFold_contains_false tx.hash _ _ op (.inr h)
    · exact scrubFold_contains_false tx.hash _ _ op (.inl h)
  have hond : ((otx.tx.inputs.foldl (fun b o => byPrevRemove b o tx.hash)
      S.orphansByPrev).map Prod.fst).Nodup :=
    scrubFold_outer_nodup tx.hash _ _ hwf.2.2.2.1
  have hinnernd : ∀ pr ∈ otx.tx.inputs.foldl (fun b o => byPrevRemove b o tx.hash)
      S.orphansByPrev, ((pr : OutPoint × List (Hash × Tx)).2.map Prod.fst).Nodup := by
    intro pr hpr
    obtain ⟨pr0, hpr0, _, hsub⟩ := scrubFold_mem tx.hash _ _ pr hpr
    exact List.Nodup.sublist (hsub.map _) (hwf.2.2.2.2 pr0 hpr0)
  refine ⟨⟨rfl, rfl, rfl, rfl, rfl, rfl, List.Sublist.refl _, fun h o hh => hh, ?_, ?_⟩,
    ⟨?_, hwf.2.1, hwf.2.2.1, hond, hinnernd⟩, hcomp, ?_, ?_⟩
  · intro op h t hh
    exact scrubFold_mono tx.hash _ _ op h t hh
  · intro op h hmem hlost
    by_cases hx : h = tx.hash
    · right
      rw [hx]
    · exfalso
      dsimp only at hlost
      unfold alContains at hmem hlost
      rw [scrubFold_get_ne tx.hash hx] at hlost
      rw [hlost] at hmem
      exact absurd hmem (by simp)
  · intro pr hpr q hq
    obtain ⟨pr0, hpr0, heq, hsub⟩ := scrubFold_mem tx.hash _ _ pr hpr
    obtain ⟨h1, h2, h3⟩ := hwf.1 pr0 hpr0 q (hsub.mem hq)
    exact ⟨h1, heq ▸ h2, h3⟩
  · intro h hm
    exact idxKeys_subset_of_mono hond hinnernd
      (fun op h t hh => scrubFold_mono tx.hash _ _ op h t hh) hm
  · intro hm
    obtain ⟨op, t, hs⟩ := surfaced_of_mem_idxKeys hond hinnernd hm
    have := hcomp op
    unfold alContains at this
    rw [hs] at this
    exact absurd this (by simp)

theorem removalAux_lookup_mono {esc : Option Hash} {S S' : MempoolState}
    (h : RemovalAux esc S S') :
    ∀ k o, alLookup S'.orphans k = some o → alLookup S.orphans k = some o :=
  h.2.2.2.2.2.2.2.1

theorem removalAux_bp_mono {esc : Option Hash} {S S' : MempoolState}
    (h : RemovalAux esc S S') :
    ∀ op k t, alLookup (byPrevGet S'.orphansByPrev op) k = some t →
      alLookup (byPrevGet S.orphansByPrev op) k = some t :=
  h.2.2.2.2.2.2.2.2.1

theorem removalAux_loss {esc : Option Hash} {S S' : MempoolState} (h : RemovalAux esc S S') :
    ∀ op k, alContains (byPrevGet S.orphansByPrev op) k = true →
      alContains (byPrevGet S'.orphansByPrev op) k = false →
      alContains S'.orphans k = false ∨ esc = some k :=
  h.2.2.2.2.2.2.2.2.2

theorem removalAux_sublist {esc : Option Hash} {S S' : MempoolState}
    (h : RemovalAux esc S S') : S'.orphans.Sublist S.orphans :=
  h.2.2.2.2.2.2.1

theorem removalAux_contains_false {esc : Option Hash} {S S' : MempoolState}
    (h : RemovalAux esc S S') {k : Hash} (hk : alContains S.orphans k = false) :
    alContains S'.orphans k = false := by
  cases hc : alContains S'.orphans k with
  | false => rfl
  | true =>
    rw [removalAux_orphans_contains h hc] at hk
    exact absurd hk (by simp)

theorem remCloA_refl (esc : Option Hash) (S : MempoolState) : RemCloA esc S S := by
  refine ⟨removalAux_refl esc S, ?_⟩
  intro q o i c t hq hqr _ _
  have : alContains S.orphans q = true := (alContains_iff _ _).mpr ⟨o, hq⟩
  rw [hqr] at this
  exact absurd this (by simp)

theorem remCloA_trans {esc : Option Hash} {S1 S2 S3 : MempoolState}
    (h12 : RemCloA esc S1 S2) (h23 : RemCloA esc S2 S3) : RemCloA esc S1 S3 := by
  refine ⟨removalAux_trans h12.1 h23.1, ?_⟩
  intro q o i c t hq hqr hi hedge
  cases hq2 : alContains S2.orphans q with
  | false =>
    rcases h12.2 q o i c t hq hq2 hi hedge with hc | hesc
    · exact .inl (removalAux_contains_false h23.1 hc)
    · exact .inr hesc
  | true =>
    rw [alContains_iff] at hq2
    obtain ⟨o2, ho2⟩ := hq2
    have ho2' := removalAux_lookup_mono h12.1 q o2 ho2
    rw [hq] at ho2'
    injection ho2' with ho2'
    cases hedge2 : alContains (byPrevGet S2.orphansByPrev ⟨q, i⟩) c with
    | true =>
      rw [alContains_iff] at hedge2
      obtain ⟨t2, ht2⟩ := hedge2
      exact h23.2 q o2 i c t2 ho2 hqr (by rw [← ho2']; exact hi) ht2
    | false =>
      have hedge1 : alContains (byPrevGet S1.orphansByPrev ⟨q, i⟩) c = true :=
        (alContains_iff _ _).mpr ⟨t, hedge⟩
      rcases removalAux_loss h12.1 ⟨q, i⟩ c hedge1 hedge2 with hcf | hesc
      · exact .inl (removalAux_contains_false h23.1 hcf)
      · exact .inr hesc

theorem remCloA_weaken {S S' : MempoolState} (esc : Option Hash) (h : RemCloA none S S') :
    RemCloA esc S S' := by
  refine ⟨removalAux_weaken esc h.1, ?_⟩
  intro q o i c t hq hqr hi hedge
  rcases h.2 q o i c t hq hqr hi hedge with hc | habs
  · exact .inl hc
  · exact absurd habs (by simp)

theorem foldl_relS {α : Type} {R : MempoolState → MempoolState → Prop}
    {I : MempoolState → Prop}
    (htrans : ∀ {a b c : MempoolState}, R a b → R b c → R a c)
    (f : MempoolState → α → MempoolState) (l : List α) (s0 : MempoolState)
    (hstep : ∀ s a, a ∈ l → I s → R s0 s → R s (f s a) ∧ I (f s a)) :
    ∀ s, I s → R s0 s → R s0 (l.foldl f s) ∧ I (l.foldl f s) := by
  induction l with
  | nil =>
    intro s hI hR
    exact ⟨hR, hI⟩
  | cons a t ih =>
    intro s hI hR
    obtain ⟨hstep1, hI1⟩ := hstep s a (List.mem_cons_self _ _) hI hR
    exact ih (fun s' b hb hI' hR' => hstep s' b (List.mem_cons_of_mem _ hb) hI' hR')
      (f s a) hI1 (htrans hR hstep1)

theorem removeOrphan_wfIdx : ∀ (fuel : Nat) (S : MempoolState) (tx : Tx) (b : Bool),
    WfIdx S → WfIdx (removeOrphan S tx b fuel) := by
  intro fuel
  induction fuel with
  | zero => exact fun S tx b h => h
  | succ fuel ih =>
    intro S tx b hwf
    unfold removeOrphan
    cases hlook : alLookup S.orphans tx.hash with
    | none => exact hwf
    | some otx =>
      dsimp only
      obtain ⟨hscrub, hwf1, hcomp1, hsub1, hnot1⟩ := scrub_bundle S tx otx hwf hlook
      set S1 := otx.tx.inputs.foldl
        (fun s op => { s with orphansByPrev := byPrevRemove s.orphansByPrev op tx.hash }) S
        with hS1
      have haux2 : RemovalAux (some tx.hash) S1
          (if b then
            (List.range tx.numTxOut).foldl
              (fun s i =>
                (byPrevGet s.orphansByPrev ⟨tx.hash, i⟩).foldl
                  (fun s2 p => removeOrphan s2 p.2 true fuel) s)
              S1
          else S1) := by
        split
        · refine @foldl_rel _ (RemovalAux (some tx.hash))
            (fun {a b c} h12 h23 => removalAux_trans h12 h23) (removalAux_refl _) _ _
            (fun s i _ => ?_) S1
          exact @foldl_rel _ (RemovalAux (some tx.hash))
            (fun {a b c} h12 h23 => removalAux_trans h12 h23) (removalAux_refl _) _ _
            (fun s2 p _ => removalAux_weaken _ (removeOrphan_removalOk fuel s2 p.2 true)) s
        · exact removalAux_refl _ _
      have hwf2 : WfIdx (if b then
          (List.range tx.numTxOut).foldl
            (fun s i =>
              (byPrevGet s.orphansByPrev ⟨tx.hash, i⟩).foldl
                (fun s2 p => removeOrphan s2 p.2 true fuel) s)
            S1
          else S1) := by
        split
        · refine @foldl_rel _ (fun a b => WfIdx a → WfIdx b)
            (fun {a b c} h12 h23 ha => h23 (h12 ha)) (fun a h => h) _ _
            (fun s i _ => ?_) S1 hwf1
          exact @foldl_rel _ (fun a b => WfIdx a → WfIdx b)
            (fun {a b c} h12 h23 ha => h23 (h12 ha)) (fun a h => h) _ _
            (fun s2 p _ hw => ih s2 p.2 true hw) s
        · exact hwf1
      set S2 := (if b then
          (List.range tx.numTxOut).foldl
            (fun s i =>
              (byPrevGet s.orphansByPrev ⟨tx.hash, i⟩).foldl
                (fun s2 p => removeOrphan s2 p.2 true fuel) s)
            S1
        else S1) with hS2
      have hcomp2 : ∀ op, alContains (byPrevGet S2.orphansByPrev op) tx.hash = false := by
        intro op
        cases hc : alContains (byPrevGet S2.orphansByPrev op) tx.hash with
        | false => rfl
        | true =>
          rw [alContains_iff] at hc
          obtain ⟨t, ht⟩ := hc
          have hm2 := removalAux_bp_mono haux2 op tx.hash t ht
          have hcc : alContains (byPrevGet S1.orphansByPrev op) tx.hash = true :=
            (alContains_iff _ _).mpr ⟨t, hm2⟩
          rw [hcomp1 op] at hcc
          exact absurd hcc (by simp)
      refine ⟨?_, ?_, ?_, hwf2.2.2.2.1, hwf2.2.2.2.2⟩
      · intro pr hpr q hq
        obtain ⟨hh1, hh2, hh3⟩ := hwf2.1 pr hpr q hq
        refine ⟨hh1, hh2, ?_⟩
        have hq1 : q.1 ≠ tx.hash := by
          intro he
          have hl : alLookup S2.orphansByPrev pr.1 = some pr.2 :=
            alLookup_of_mem_nodup hpr hwf2.2.2.2.1
          have hget : byPrevGet S2.orphansByPrev pr.1 = pr.2 := by
            unfold byPrevGet
            rw [hl]
            rfl
          have hsl : alLookup (byPrevGet S2.orphansByPrev pr.1) q.1 = some q.2 := by
            rw [hget]
            exact alLookup_of_mem_nodup hq (hwf2.2.2.2.2 pr hpr)
          have hcf := hcomp2 pr.1
          unfold alContains at hcf
          rw [he] at hsl
          rw [hsl] at hcf
          exact absurd hcf (by simp)
        dsimp only
        rw [alLookup_eraseKey_ne _ hq1]
        exact hh3
      · intro p hp
        exact hwf2.2.1 p (mem_alEraseKey hp).1
      · exact alEraseKey_keys_nodup _ hwf2.2.2.1

theorem removeOrphan_idxKeys_subset (fuel : Nat) (S : MempoolState) (tx : Tx) (b : Bool)
    (hwf : WfIdx S) :
    idxKeys (removeOrphan S tx b fuel).orphansByPrev ⊆ idxKeys S.orphansByPrev := by
  have hwf' := removeOrphan_wfIdx fuel S tx b hwf
  exact idxKeys_subset_of_mono hwf'.2.2.2.1 hwf'.2.2.2.2
    (removalAux_bp_mono (removeOrphan_removalOk fuel S tx b))

theorem killFold (F : Nat) (hF : F ≠ 0) :
    ∀ (L : List (Hash × Tx)) (s : MempoolState),
      (∀ p ∈ L, (p : Hash × Tx).2.hash = p.1) →
      ∀ p ∈ L,
        alContains ((L.foldl (fun s2 q => removeOrphan s2 q.2 true F) s)).orphans p.1 =
          false := by
  intro L
  induction L with
  | nil =>
    intro s _ p hp
    simp at hp
  | cons q t ih =>
    intro s hk p hp
    rw [List.foldl_cons]
    rcases List.mem_cons.mp hp with he | hm
    · have hkill : alContains (removeOrphan s q.2 true F).orphans q.2.hash = false :=
        removeOrphan_self s q.2 true F hF
      rw [hk q (List.mem_cons_self _ _)] at hkill
      have hrest : RemovalOk (removeOrphan s q.2 true F)
          (t.foldl (fun s2 q => removeOrphan s2 q.2 true F) (removeOrphan s q.2 true F)) :=
        @foldl_rel _ RemovalOk (fun {a b c} h12 h23 => removalOk_trans h12 h23)
          (removalAux_refl none) _ _
          (fun s2 p' _ => removeOrphan_removalOk F s2 p'.2 true) (removeOrphan s q.2 true F)
      rw [he]
      exact removalAux_contains_false hrest hkill
    · exact ih _ (fun p' h' => hk p' (List.mem_cons_of_mem _ h')) p hm

theorem removeOrphan_not_present (S : MempoolState) (tx : Tx) (b : Bool) (fuel : Nat)
    (h : alLookup S.orphans tx.hash = none) : removeOrphan S tx b fuel = S := by
  cases fuel with
  | zero => rfl
  | succ n =>
    unfold removeOrphan
    rw [h]

theorem removeOrphan_remClo : ∀ (fuel : Nat) (S : MempoolState) (tx : Tx),
    WfIdx S →
    (∀ o, alLookup S.orphans tx.hash = some o → (o : OrphanTx).tx = tx) →
    ((idxKeys S.orphansByPrev).card + 2 ≤ fuel ∨
      (tx.hash ∈ idxKeys S.orphansByPrev ∧ (idxKeys S.orphansByPrev).card + 1 ≤ fuel)) →
    RemCloA none S (removeOrphan S tx true fuel) := by
  intro fuel
  induction fuel with
  | zero =>
    intro S tx _ _ hfuel
    rcases hfuel with h | ⟨_, h⟩ <;> omega
  | succ F ih =>
    intro S tx hwf harg hfuel
    unfold removeOrphan
    cases hlook : alLookup S.orphans tx.hash with
    | none => exact remCloA_refl none S
    | some otx =>
      dsimp only
      obtain ⟨hscrub, hwf1, hcomp1, hsub1, hnot1⟩ := scrub_bundle S tx otx hwf hlook
      set S1 := otx.tx.inputs.foldl
        (fun s op => { s with orphansByPrev := byPrevRemove s.orphansByPrev op tx.hash }) S
        with hS1
      have hFpos : F ≠ 0 := by
        rcases hfuel with h | ⟨hmem, h⟩
        · omega
        · have hpos : 0 < (idxKeys S.orphansByPrev).card :=
            Finset.card_pos.mpr ⟨tx.hash, hmem⟩
          omega
      have hcard1 : (idxKeys S1.orphansByPrev).card + 1 ≤ F := by
        rcases hfuel with h | ⟨hmem, h⟩
        · have := Finset.card_le_card hsub1
          omega
        · have hss : idxKeys S1.orphansByPrev ⊂ idxKeys S.orphansByPrev := by
            rw [Finset.ssubset_def]
            exact ⟨hsub1, fun hts => hnot1 (hts hmem)⟩
          have := Finset.card_lt_card hss
          omega
      have houter : ∀ (is : List Nat) (s : MempoolState), WfIdx s →
          RemCloA (some tx.hash) S1 s →
          RemCloA (some tx.hash) s
            (is.foldl (fun s i =>
              (byPrevGet s.orphansByPrev ⟨tx.hash, i⟩).foldl
                (fun s2 p => removeOrphan s2 p.2 true F) s) s) ∧
          WfIdx (is.foldl (fun s i =>
              (byPrevGet s.orphansByPrev ⟨tx.hash, i⟩).foldl
                (fun s2 p => removeOrphan s2 p.2 true F) s) s) ∧
          (∀ i ∈ is, ∀ c t1,
            alLookup (byPrevGet s.orphansByPrev ⟨tx.hash, i⟩) c = some t1 →
            alContains (is.foldl (fun s i =>
              (byPrevGet s.orphansByPrev ⟨tx.hash, i⟩).foldl
                (fun s2 p => removeOrphan s2 p.2 true F) s) s).orphans c = false ∨
            c = tx.hash) := by
        intro is
        induction is with
        | nil =>
          intro s hwfs hrel
          exact ⟨remCloA_refl _ s, hwfs, by intro i hi; simp at hi⟩
        | cons i0 rest ihis =>
          intro s hwfs hrel
          rw [List.foldl_cons]
          have hcomps : ∀ op, alContains (byPrevGet s.orphansByPrev op) tx.hash = false := by
            intro op
            cases hc : alContains (byPrevGet s.orphansByPrev op) tx.hash with
            | false => rfl
            | true =>
              rw [alContains_iff] at hc
              obtain ⟨t', ht'⟩ := hc
              have hmm := removalAux_bp_mono hrel.1 op tx.hash t' ht'
              have hcc : alContains (byPrevGet S1.orphansByPrev op) tx.hash = true :=
                (alContains_iff _ _).mpr ⟨t', hmm⟩
              rw [hcomp1 op] at hcc
              exact absurd hcc (by simp)
          have hinner : ∀ s2 p, p ∈ byPrevGet s.orphansByPrev ⟨tx.hash, i0⟩ → WfIdx s2 →
              RemCloA (some tx.hash) s s2 →
              RemCloA (some tx.hash) s2 (removeOrphan s2 p.2 true F) ∧
              WfIdx (removeOrphan s2 p.2 true F) := by
            intro s2 p hp hwf2 hrel2
            refine ⟨?_, removeOrphan_wfIdx F s2 p.2 true hwf2⟩
            obtain ⟨hph, hpin, hpmap⟩ := wfIdx_byPrevGet_mem hwfs hp
            cases hlook2 : alLookup s2.orphans p.2.hash with
            | none =>
              rw [removeOrphan_not_present s2 p.2 true F hlook2]
              exact remCloA_refl _ s2
            | some o2 =>
              have harg2 : ∀ o', alLookup s2.orphans p.2.hash = some o' →
                  (o' : OrphanTx).tx = p.2 := by
                intro o' ho'
                rw [hph] at ho'
                have hs' := removalAux_lookup_mono hrel2.1 p.1 o' ho'
                rw [hs'] at hpmap
                simp only [Option.map_some'] at hpmap
                injection hpmap
              have hcont2 : alContains s2.orphans p.1 = true := by
                rw [alContains_iff]
                exact ⟨o2, by rw [← hph]; exact hlook2⟩
              have hL : alLookup (byPrevGet s.orphansByPrev ⟨tx.hash, i0⟩) p.1 = some p.2 :=
                alLookup_of_mem_nodup hp (wfIdx_inner_nodup hwfs _)
              have hedge2 : alContains (byPrevGet s2.orphansByPrev ⟨tx.hash, i0⟩) p.1 = true := by
                cases hc : alContains (byPrevGet s2.orphansByPrev ⟨tx.hash, i0⟩) p.1 with
                | true => rfl
                | false =>
                  exfalso
                  have hc1 : alContains (byPrevGet s.orphansByPrev ⟨tx.hash, i0⟩) p.1 = true :=
                    (alContains_iff _ _).mpr ⟨p.2, hL⟩
                  rcases removalAux_loss hrel2.1 ⟨tx.hash, i0⟩ p.1 hc1 hc with hdead | hesc
                  · rw [hdead] at hcont2
                    exact absurd hcont2 (by simp)
                  · injection hesc with hesc
                    rw [← hesc] at hc1
                    rw [hcomps ⟨tx.hash, i0⟩] at hc1
                    exact absurd hc1 (by simp)
              have hmemB : p.2.hash ∈ idxKeys s2.orphansByPrev := by
                rw [alContains_iff] at hedge2
                obtain ⟨t2, ht2⟩ := hedge2
                rw [hph]
                exact mem_idxKeys_of_surfaced ht2
              have hcardB : (idxKeys s2.orphansByPrev).card + 1 ≤ F := by
                have hsub2 : idxKeys s2.orphansByPrev ⊆ idxKeys S1.orphansByPrev :=
                  idxKeys_subset_of_mono hwf2.2.2.2.1 hwf2.2.2.2.2
                    (removalAux_bp_mono (remCloA_trans hrel hrel2).1)
                have := Finset.card_le_card hsub2
                omega
              exact remCloA_weaken _ (ih s2 p.2 hwf2 harg2 (.inr ⟨hmemB, hcardB⟩))
          have hin := @foldl_relS (Hash × Tx) (RemCloA (some tx.hash)) WfIdx
            (fun {a b c} => remCloA_trans)
            (fun s2 p => removeOrphan s2 p.2 true F)
            (byPrevGet s.orphansByPrev ⟨tx.hash, i0⟩) s hinner s hwfs (remCloA_refl _ s)
          set si := (byPrevGet s.orphansByPrev ⟨tx.hash, i0⟩).foldl
            (fun s2 p => removeOrphan s2 p.2 true F) s with hsi
          obtain ⟨hreli, hwfi⟩ := hin
          obtain ⟨hrelr, hwfr, hkillr⟩ := ihis si hwfi (remCloA_trans hrel hreli)
          refine ⟨remCloA_trans hreli hrelr, hwfr, ?_⟩
          intro i hi c t1 hedge
          rcases List.mem_cons.mp hi with he | hm
          · by_cases hcx : c = tx.hash
            · exact .inr hcx
            · subst he
              have hmemL : (c, t1) ∈ byPrevGet s.orphansByPrev ⟨tx.hash, i⟩ :=
                alLookup_mem hedge
              have hkilled : alContains si.orphans c = false :=
                killFold F hFpos (byPrevGet s.orphansByPrev ⟨tx.hash, i⟩) s
                  (fun p hp => (wfIdx_byPrevGet_mem hwfs hp).1) (c, t1) hmemL
              exact .inl (removalAux_contains_false hrelr.1 hkilled)
          · cases hedgei : alContains (byPrevGet si.orphansByPrev ⟨tx.hash, i⟩) c with
            | true =>
              rw [alContains_iff] at hedgei
              obtain ⟨t2, ht2⟩ := hedgei
              exact hkillr i hm c t2 ht2
            | false =>
              have hcs : alContains (byPrevGet s.orphansByPrev ⟨tx.hash, i⟩) c = true :=
                (alContains_iff _ _).mpr ⟨t1, hedge⟩
              rcases removalAux_loss hreli.1 ⟨tx.hash, i⟩ c hcs hedgei with hdead | hesc
              · exact .inl (removalAux_contains_false hrelr.1 hdead)
              · injection hesc with hesc
                exact .inr hesc.symm
      have ho := houter (List.range tx.numTxOut) S1 hwf1 (remCloA_refl _ S1)
      set S2 := (List.range tx.numTxOut).foldl
        (fun s i =>
          (byPrevGet s.orphansByPrev ⟨tx.hash, i⟩).foldl
            (fun s2 p => removeOrphan s2 p.2 true F) s) S1 with hS2
      obtain ⟨hrel2, hwf2, hkill2⟩ := ho
      have hS1orph : S1.orphans = S.orphans := by
        rw [hS1, scrubFold_fields]
      have hstep0 : RemCloA (some tx.hash) S S1 := by
        refine ⟨hscrub, ?_⟩
        intro q o i c t hq hqr _ _
        rw [hS1orph] at hqr
        have hcq : alContains S.orphans q = true := (alContains_iff _ _).mpr ⟨o, hq⟩
        rw [hqr] at hcq
        exact absurd hcq (by simp)
      have htot : RemCloA (some tx.hash) S S2 := remCloA_trans hstep0 hrel2
      refine ⟨?_, ?_⟩
      · have hok := removeOrphan_removalOk (F + 1) S tx true
        unfold removeOrphan at hok
        rw [hlook] at hok
        exact hok
      · intro q o i c t hq hqr hi hedge
        dsimp only at hqr
        by_cases hqx : q = tx.hash
        · subst hqx
          rw [hlook] at hq
          injection hq with hq
          have hotx : otx.tx = tx := harg otx hlook
          by_cases hcx : c = tx.hash
          · subst hcx
            left
            dsimp only
            exact alContains_eraseKey_self _ _
          · have hedgeS : alContains (byPrevGet S.orphansByPrev ⟨tx.hash, i⟩) c = true :=
              (alContains_iff _ _).mpr ⟨t, hedge⟩
            have hi' : i < tx.numTxOut := by
              rw [← hq] at hi
              rw [hotx] at hi
              exact hi
            cases hedge1 : alContains (byPrevGet S1.orphansByPrev ⟨tx.hash, i⟩) c with
            | false =>
              rcases removalAux_loss hscrub ⟨tx.hash, i⟩ c hedgeS hedge1 with hdead | hesc
              · left
                dsimp only
                exact alContains_eraseKey_of_false _
                  (removalAux_contains_false hrel2.1 hdead)
              · injection hesc with hesc
                exact absurd hesc.symm hcx
            | true =>
              rw [alContains_iff] at hedge1
              obtain ⟨t1, ht1⟩ := hedge1
              rcases hkill2 i (List.mem_range.mpr hi') c t1 ht1 with hdead | hesc
              · left
                dsimp only
                exact alContains_eraseKey_of_false _ hdead
              · exact absurd hesc hcx
        · have hq2 : alContains S2.orphans q = false := by
            rw [alContains_eraseKey_ne _ hqx] at hqr
            exact hqr
          rcases htot.2 q o i c t hq hq2 hi hedge with hdead | hesc
          · left
            dsimp only
            exact alContains_eraseKey_of_false _ hdead
          · injection hesc with hesc
            left
            dsimp only
            rw [← hesc]
            exact alContains_eraseKey_self _ _

theorem expireScanFold_remClo (now : Int) (S : MempoolState) (hwf : WfIdx S) :
    RemCloA none S
      (S.orphans.foldl
        (fun s p =>
          if now > p.2.expiration then removeOrphan s p.2.tx true (orphanRemoveFuel s) else s)
        S) ∧
    WfIdx (S.orphans.foldl
        (fun s p =>
          if now > p.2.expiration then removeOrphan s p.2.tx true (orphanRemoveFuel s) else s)
        S) := by
  refine @foldl_relS (Hash × OrphanTx) (RemCloA none) WfIdx
    (fun {a b c} => remCloA_trans)
    (fun s p =>
      if now > p.2.expiration then removeOrphan s p.2.tx true (orphanRemoveFuel s) else s)
    S.orphans S ?_ S hwf (remCloA_refl none S)
  intro s p hp hwfs hrel
  dsimp only
  split
  · refine ⟨?_, removeOrphan_wfIdx _ s p.2.tx true hwfs⟩
    apply removeOrphan_remClo (orphanRemoveFuel s) s p.2.tx hwfs
    · intro o' ho'
      have hph : p.2.tx.hash = p.1 := hwf.2.1 p hp
      rw [hph] at ho'
      have hS := removalAux_lookup_mono hrel.1 p.1 o' ho'
      have hSl : alLookup S.orphans p.1 = some p.2 := alLookup_of_mem_nodup hp hwf.2.2.1
      rw [hSl] at hS
      injection hS with hS
      rw [← hS]
    · left
      have hle := idxKeys_card_le_orphans s hwfs
      unfold orphanRemoveFuel
      omega
  · exact ⟨remCloA_refl none s, hwfs⟩

theorem expireScanFold_kills (now : Int) :
    ∀ (l : List (Hash × OrphanTx)) (s : MempoolState),
      (∀ p ∈ l, (p : Hash × OrphanTx).2.tx.hash = p.1) →
      ∀ p ∈ l, now > (p : Hash × OrphanTx).2.expiration →
        alContains ((l.foldl
          (fun s q =>
            if now > q.2.expiration then removeOrphan s q.2.tx true (orphanRemoveFuel s) else s)
          s)).orphans p.1 = false := by
  intro l
  induction l with
  | nil =>
    intro s _ p hp
    simp at hp
  | cons q t ih =>
    intro s hk p hp hexp
    rw [List.foldl_cons]
    rcases List.mem_cons.mp hp with he | hm
    · subst he
      rw [if_pos hexp]
      have hkill : alContains
          (removeOrphan s p.2.tx true (orphanRemoveFuel s)).orphans p.2.tx.hash = false :=
        removeOrphan_self s p.2.tx true (orphanRemoveFuel s) (by unfold orphanRemoveFuel; omega)
      rw [hk p (List.mem_cons_self _ _)] at hkill
      have hrest := expireScanFold_removalOk now
        (removeOrphan s p.2.tx true (orphanRemoveFuel s)) t
      exact removalAux_contains_false hrest hkill
    · exact ih _ (fun p' h' => hk p' (List.mem_cons_of_mem _ h')) p hm hexp

theorem expireOrphans_due (now : Int) (S : MempoolState) (hdue : now > S.nextExpireScan) :
    expireOrphans now S =
      { S.orphans.foldl
          (fun s p =>
            if now > p.2.expiration then removeOrphan s p.2.tx true (orphanRemoveFuel s) else s)
          S with nextExpireScan := now + orphanExpireScanInterval } := by
  unfold expireOrphans
  rw [if_pos hdue]

/-- C6: every orphan admitted by addOrphan is stored with expiration time
`now` plus fifteen minutes; and when the orphan-limit stage runs after the
scheduled scan time has passed, the expiry scan removes every orphan whose
expiration time has passed together with its descendant orphans, and the
next scan is scheduled five minutes ahead. -/
theorem C6_orphan_ttl_expiry (cfg : Config) (now : Int) (S : MempoolState) (tx : Tx)
    (tag : Nat) (hwf : WfIdx S) (hdue : now > S.nextExpireScan) :
    (0 < cfg.policy.maxOrphanTxs →
      alLookup (addOrphan cfg now S tx tag).orphans tx.hash =
        some { tx := tx, tag := tag, expiration := now + 15 * 60 }) ∧
    (expireOrphans now S).nextExpireScan = now + 5 * 60 ∧
    (∀ p ∈ (expireOrphans now S).orphans, ¬ now > (p : Hash × OrphanTx).2.expiration) ∧
    (∀ q o, alLookup S.orphans q = some o → now > o.expiration →
      alContains (expireOrphans now S).orphans q = false ∧
      ∀ d, OrphanDescendant S q d →
        alContains (expireOrphans now S).orphans d = false) := by
  obtain ⟨hrel, hwfr⟩ := expireScanFold_remClo now S hwf
  have heq := expireOrphans_due now S hdue
  set Sscan := S.orphans.foldl
    (fun s p =>
      if now > p.2.expiration then removeOrphan s p.2.tx true (orphanRemoveFuel s) else s)
    S with hSs
  have horph : (expireOrphans now S).orphans = Sscan.orphans := by
    rw [heq]
  have hclo : ∀ a b, OrphanDescendant S a b → alContains Sscan.orphans a = false →
      alContains Sscan.orphans b = false := by
    intro a b hdesc
    induction hdesc with
    | direct hqd hi hedge =>
      intro har
      rcases hrel.2 _ _ _ _ _ hqd har hi hedge with h | h
      · exact h
      · exact absurd h (by simp)
    | trans h1 h2 ih1 ih2 =>
      intro har
      exact ih2 (ih1 har)
  refine ⟨?_, ?_, ?_, ?_⟩
  · intro hmax
    unfold addOrphan
    rw [if_neg (by omega)]
    dsimp only
    rw [(byPrevAddFold_fields tx.inputs tx _).2.2.1]
    rw [show ({ limitNumOrphans cfg now S with
        orphans := alInsert (limitNumOrphans cfg now S).orphans tx.hash
          { tx := tx, tag := tag, expiration := now + orphanTTL } } :
        MempoolState).orphans = alInsert (limitNumOrphans cfg now S).orphans tx.hash
          { tx := tx, tag := tag, expiration := now + orphanTTL } from rfl]
    rw [alLookup_insert_self]
    rfl
  · rw [heq]
    rfl
  · intro p hp hexp
    rw [horph] at hp
    have hpS : p ∈ S.orphans := (removalAux_sublist hrel.1).subset hp
    have hkill := expireScanFold_kills now S.orphans S
      (fun p' hp' => hwf.2.1 p' hp') p hpS hexp
    have hc : alContains Sscan.orphans p.1 = true := alContains_of_mem hp
    rw [hkill] at hc
    exact absurd hc (by simp)
  · intro q o hq hexp
    have hqk : alContains Sscan.orphans q = false :=
      expireScanFold_kills now S.orphans S (fun p' hp' => hwf.2.1 p' hp') (q, o)
        (alLookup_mem hq) hexp
    refine ⟨by rw [horph]; exact hqk, ?_⟩
    intro d hdesc
    rw [horph]
    exact hclo q d hdesc hqk

/-- C5 counterexample: two orphan children spending the same parent output;
accepting the parent then promotes whichever child arrived first and
removes the other as a double spend, so the accepted set depends on the
arrival order. -/
theorem C5_promotion_order_counterexample :
    (processTransaction exCfg exOraC5 0
        (processTransaction exCfg exOraC5 0
          (processTransaction exCfg exOraC5 0 (newTxPool 0) exChildA true false 1).2
          exChildC true false 1).2
        exParentTx true false 1).1.map (fun l => l.map (fun d => d.tx.hash)) =
      .ok [100, 101] ∧
    (processTransaction exCfg exOraC5 0
        (processTransaction exCfg exOraC5 0
          (processTransaction exCfg exOraC5 0 (newTxPool 0) exChildC true false 1).2
          exChildA true false 1).2
        exParentTx true false 1).1.map (fun l => l.map (fun d => d.tx.hash)) =
      .ok [100, 103] := by
  constructor
  · decide
  · decide

theorem C6_orphan_ttl_expiry_witness :
    alLookup (addOrphan exCfg 1000 exWfState exTx40 9).orphans exTx40.hash =
      some { tx := exTx40, tag := 9, expiration := 1000 + 15 * 60 } ∧
    (expireOrphans 1000 exWfState).nextExpireScan = 1000 + 5 * 60 ∧
    alContains (expireOrphans 1000 exWfState).orphans 20 = false ∧
    alContains (expireOrphans 1000 exWfState).orphans 30 = false := by
  have h := C6_orphan_ttl_expiry exCfg 1000 exWfState exTx40 9 (by decide) (by decide)
  exact ⟨h.1 (by decide), h.2.1, (h.2.2.2 20 exO20 (by decide) (by decide)).1,
    (h.2.2.2 20 exO20 (by decide) (by decide)).2 30
      (@OrphanDescendant.direct exWfState 20 exO20 0 30 exTx30 (by decide) (by decide)
        (by decide))⟩

theorem C4_orphan_capacity_witness :
    (((processTransaction exCfg exOraMissing 0 (newTxPool 0) exOrphanTx
        true false 7).2.orphans.length : Int) ≤ exCfg.policy.maxOrphanTxs) ∧
    alContains (limitNumOrphans exCfgMax1 0 exFullPool).orphans 20 = false ∧
    (limitNumOrphans exCfgMax1 0 exFullPool).orphans.length <
      ([((20 : Hash), exOrphanOtx)]).length := by
  refine ⟨?_, ?_⟩
  · exact C4_orphan_capacity.1 exCfg exOraMissing 0 (newTxPool 0) exOrphanTx true false 7
      (Reachable.init 0) (by decide)
  · exact C4_orphan_capacity.2 exCfgMax1 0 exFullPool (20, exOrphanOtx) []
      (by decide) (by decide) (by decide)

theorem alLookup_eraseKey {α β : Type} [DecidableEq α] (l : List (α × β)) (k j : α) :
    alLookup (alEraseKey l k) j = if j = k then none else alLookup l j := by
  by_cases h : j = k
  · rw [if_pos h, h, alLookup_eraseKey_self]
  · rw [if_neg h, alLookup_eraseKey_ne _ h]

theorem alLookup_insert {α β : Type} [DecidableEq α] (l : List (α × β)) (k : α) (v : β)
    (j : α) : alLookup (alInsert l k v) j = if j = k then some v else alLookup l j := by
  by_cases h : j = k
  · rw [if_pos h, h, alLookup_insert_self]
  · rw [if_neg h, alLookup_insert_ne _ _ h]

theorem alEraseKey_of_lookup_none {α β : Type} [DecidableEq α] {l : List (α × β)} {k : α}
    (h : alLookup l k = none) : alEraseKey l k = l := by
  induction l with
  | nil => rfl
  | cons p t ih =>
    by_cases hp : p.1 = k
    · simp [alLookup, hp] at h
    · simp only [alLookup, hp, reduceIte] at h
      simp only [alEraseKey, hp, reduceIte]
      rw [ih h]

theorem alInsert_length_fresh {α β : Type} [DecidableEq α] {l : List (α × β)} {k : α} (v : β)
    (h : alLookup l k = none) : (alInsert l k v).length = l.length + 1 := by
  unfold alInsert
  rw [alEraseKey_of_lookup_none h]
  simp

theorem alLookup_insert_comm {α β : Type} [DecidableEq α] (l : List (α × β)) {k1 k2 : α}
    (v1 v2 : β) (h : k1 ≠ k2) (j : α) :
    alLookup (alInsert (alInsert l k1 v1) k2 v2) j =
      alLookup (alInsert (alInsert l k2 v2) k1 v1) j := by
  simp only [alLookup_insert]
  have h' : ¬ k2 = k1 := fun hh => h hh.symm
  by_cases h2 : j = k2 <;> by_cases h1 : j = k1
  · exact absurd (h1.symm.trans h2) h
  · simp [h1, h2, h, h']
  · simp [h1, h2, h, h']
  · simp [h1, h2]

theorem alLookup_byPrevAdd (bp : List (OutPoint × List (Hash × Tx))) (op : OutPoint)
    (h : Hash) (t : Tx) (op' : OutPoint) :
    alLookup (byPrevAdd bp op h t) op' =
      if op' = op then some (alInsert (byPrevGet bp op) h t) else alLookup bp op' := by
  unfold byPrevAdd
  rw [alLookup_insert]

theorem byPrevAdd_comm_lookup (bp : List (OutPoint × List (Hash × Tx))) {op1 op2 : OutPoint}
    (h1 h2 : Hash) (t1 t2 : Tx) (hop : op1 ≠ op2) (op' : OutPoint) :
    alLookup (byPrevAdd (byPrevAdd bp op1 h1 t1) op2 h2 t2) op' =
      alLookup (byPrevAdd (byPrevAdd bp op2 h2 t2) op1 h1 t1) op' := by
  simp only [alLookup_byPrevAdd, byPrevGet_byPrevAdd]
  have hop' : ¬ op2 = op1 := fun hh => hop hh.symm
  by_cases e2 : op' = op2 <;> by_cases e1 : op' = op1
  · exact absurd (e1.symm.trans e2) hop
  · simp [e1, e2, hop, hop']
  · simp [e1, e2, hop, hop']
  · simp [e1, e2]

theorem byPrevRemove_lookup_congr {bp bp' : List (OutPoint × List (Hash × Tx))}
    (heq : ∀ q, alLookup bp q = alLookup bp' q) (op : OutPoint) (x : Hash) :
    ∀ op', alLookup (byPrevRemove bp op x) op' = alLookup (byPrevRemove bp' op x) op' := by
  intro op'
  unfold byPrevRemove
  rw [← heq op]
  cases hl : alLookup bp op with
  | none => exact heq op'
  | some l =>
    dsimp only
    split
    · rw [alLookup_eraseKey, alLookup_eraseKey, heq op']
    · rw [alLookup_insert, alLookup_insert, heq op']

theorem stEquiv_orphans_length {S S' : MempoolState} (h : StEquiv S S') :
    S.orphans.length = S'.orphans.length := by
  obtain ⟨-, -, -, -, hlk, hnd, hnd', -⟩ := h
  have hperm : (S.orphans.map Prod.fst).Perm (S'.orphans.map Prod.fst) := by
    rw [List.perm_ext_iff_of_nodup hnd hnd']
    intro a
    constructor
    · intro ha
      obtain ⟨p, hp, hpe⟩ := List.mem_map.mp ha
      have hmem : (a, p.2) ∈ S.orphans := by
        rw [← hpe]
        exact hp
      have hc := alContains_of_mem hmem
      rw [alContains_iff] at hc
      obtain ⟨v, hv⟩ := hc
      rw [hlk a] at hv
      exact List.mem_map.mpr ⟨(a, v), alLookup_mem hv, rfl⟩
    · intro ha
      obtain ⟨p, hp, hpe⟩ := List.mem_map.mp ha
      have hmem : (a, p.2) ∈ S'.orphans := by
        rw [← hpe]
        exact hp
      have hc := alContains_of_mem hmem
      rw [alContains_iff] at hc
      obtain ⟨v, hv⟩ := hc
      rw [← hlk a] at hv
      exact List.mem_map.mpr ⟨(a, v), alLookup_mem hv, rfl⟩
  have hlen := hperm.length_eq
  simpa using hlen

theorem stEquiv_byPrevGet {S S' : MempoolState} (h : StEquiv S S') (op : OutPoint) :
    byPrevGet S.orphansByPrev op = byPrevGet S'.orphansByPrev op := by
  unfold byPrevGet
  rw [h.2.2.2.2.2.2.2 op]

theorem stEquiv_contains {S S' : MempoolState} (h : StEquiv S S') (k : Hash) :
    alContains S.orphans k = alContains S'.orphans k := by
  unfold alContains
  rw [h.2.2.2.2.1 k]

theorem foldl_rel2 {α : Type} {R : MempoolState → MempoolState → Prop}
    (f f' : MempoolState → α → MempoolState) :
    ∀ (l : List α) (s s' : MempoolState),
      (∀ t t' a, a ∈ l → R t t' → R (f t a) (f' t' a)) → R s s' →
      R (l.foldl f s) (l.foldl f' s') := by
  intro l
  induction l with
  | nil =>
    intro s s' _ h
    exact h
  | cons a rest ih =>
    intro s s' hstep h
    rw [List.foldl_cons, List.foldl_cons]
    exact ih _ _ (fun t t' b hb => hstep t t' b (List.mem_cons_of_mem _ hb))
      (hstep s s' a (List.mem_cons_self _ _) h)

theorem checkPoolDoubleSpend_congr {S S' : MempoolState} (tx : Tx)
    (h : S'.outpoints = S.outpoints) :
    checkPoolDoubleSpend S' tx = checkPoolDoubleSpend S tx := by
  unfold checkPoolDoubleSpend
  rw [h]

theorem fetchInputUtxos_congr (ora : Oracles) {S S' : MempoolState} (tx : Tx)
    (h : S'.pool = S.pool) : fetchInputUtxos ora S' tx = fetchInputUtxos ora S tx := by
  unfold fetchInputUtxos
  rw [h]

theorem feeGateStage_congr (cfg : Config) (ora : Oracles) (now : Int)
    (S S' : MempoolState) (tx : Tx) (isNew rateLimit : Bool) (sf : ScriptFlags)
    (v : UtxoView) (txFee : Int)
    (hpool : S'.pool = S.pool) (houtp : S'.outpoints = S.outpoints)
    (hpen : S'.pennyTotal = S.pennyTotal) (hlp : S'.lastPennyUnix = S.lastPennyUnix) :
    (feeGateStage cfg ora now S' tx isNew rateLimit sf v txFee).1 =
      (feeGateStage cfg ora now S tx isNew rateLimit sf v txFee).1 ∧
    (feeGateStage cfg ora now S' tx isNew rateLimit sf v txFee).2.pennyTotal =
      (feeGateStage cfg ora now S tx isNew rateLimit sf v txFee).2.pennyTotal ∧
    (feeGateStage cfg ora now S' tx isNew rateLimit sf v txFee).2.lastPennyUnix =
      (feeGateStage cfg ora now S tx isNew rateLimit sf v txFee).2.lastPennyUnix := by
  unfold feeGateStage validateAndAdd addTransaction
  dsimp only
  rw [hpen, hlp]
  repeat' split
  all_goals exact ⟨rfl, by first | rfl | exact hpen, by first | rfl | exact hlp⟩

theorem maybeAcceptTransaction_congr (cfg : Config) (ora : Oracles) (now : Int)
    (S S' : MempoolState) (tx : Tx) (isNew rateLimit rejectDupOrphans : Bool)
    (hpool : S'.pool = S.pool) (houtp : S'.outpoints = S.outpoints)
    (hpen : S'.pennyTotal = S.pennyTotal) (hlp : S'.lastPennyUnix = S.lastPennyUnix)
    (hoc : alContains S'.orphans tx.hash = alContains S.orphans tx.hash) :
    (maybeAcceptTransaction cfg ora now S' tx isNew rateLimit rejectDupOrphans).1 =
      (maybeAcceptTransaction cfg ora now S tx isNew rateLimit rejectDupOrphans).1 ∧
    (maybeAcceptTransaction cfg ora now S' tx isNew rateLimit rejectDupOrphans).2.pennyTotal =
      (maybeAcceptTransaction cfg ora now S tx isNew rateLimit rejectDupOrphans).2.pennyTotal ∧
    (maybeAcceptTransaction cfg ora now S' tx isNew rateLimit
        rejectDupOrphans).2.lastPennyUnix =
      (maybeAcceptTransaction cfg ora now S tx isNew rateLimit
        rejectDupOrphans).2.lastPennyUnix := by
  unfold maybeAcceptTransaction
  dsimp only
  rw [hpool, hoc, checkPoolDoubleSpend_congr tx houtp, fetchInputUtxos_congr ora tx hpool]
  repeat' split
  all_goals
    first
      | exact ⟨rfl, hpen, hlp⟩
      | exact feeGateStage_congr cfg ora now S S' tx isNew rateLimit _ _ _
          hpool houtp hpen hlp

theorem maybeAcceptTransaction_stEquiv (cfg : Config) (ora : Oracles) (now : Int)
    {S S' : MempoolState} (tx : Tx) (isNew rateLimit rejectDupOrphans : Bool)
    (h : StEquiv S S') :
    (maybeAcceptTransaction cfg ora now S tx isNew rateLimit rejectDupOrphans).1 =
      (maybeAcceptTransaction cfg ora now S' tx isNew rateLimit rejectDupOrphans).1 ∧
    StEquiv (maybeAcceptTransaction cfg ora now S tx isNew rateLimit rejectDupOrphans).2
      (maybeAcceptTransaction cfg ora now S' tx isNew rateLimit rejectDupOrphans).2 := by
  have hcong := maybeAcceptTransaction_congr cfg ora now S S' tx isNew rateLimit
    rejectDupOrphans h.1.symm h.2.1.symm h.2.2.1.symm h.2.2.2.1.symm
    (stEquiv_contains h tx.hash).symm
  have hspec := maybeAcceptTransaction_spec cfg ora now S tx isNew rateLimit rejectDupOrphans
  have hspec' := maybeAcceptTransaction_spec cfg ora now S' tx isNew rateLimit rejectDupOrphans
  obtain ⟨hpool, houtp, hpen, hlp, hlk, hnd, hnd', hbp⟩ := h
  cases hres : maybeAcceptTransaction cfg ora now S tx isNew rateLimit rejectDupOrphans with
  | mk r out =>
  cases hres' : maybeAcceptTransaction cfg ora now S' tx isNew rateLimit rejectDupOrphans with
  | mk r' out' =>
  rw [hres] at hspec
  rw [hres'] at hspec'
  rw [hres, hres'] at hcong
  dsimp only at hcong ⊢
  obtain ⟨hr, hopen, holp⟩ := hcong
  rw [hr] at hspec'
  refine ⟨hr.symm, ?_⟩
  cases r with
  | err e =>
    obtain ⟨e1, e2, e3, e4, e5, e6⟩ := hspec
    obtain ⟨f1, f2, f3, f4, f5, f6⟩ := hspec'
    refine ⟨?_, ?_, hopen.symm, holp.symm, ?_, ?_, ?_, ?_⟩
    · rw [e1, f1, hpool]
    · rw [e2, f2, houtp]
    · intro k
      rw [e3, f3, hlk k]
    · rw [e3]
      exact hnd
    · rw [f3]
      exact hnd'
    · intro op
      rw [e4, f4, hbp op]
  | missing ps =>
    rw [hspec, hspec']
    exact ⟨hpool, houtp, hpen, hlp, hlk, hnd, hnd', hbp⟩
  | accepted txD =>
    obtain ⟨-, e2, e3, e4, e5, -, -, -, -⟩ := hspec
    obtain ⟨-, f2, f3, f4, f5, -, -, -, -⟩ := hspec'
    refine ⟨?_, ?_, hopen.symm, holp.symm, ?_, ?_, ?_, ?_⟩
    · rw [e2, f2, hpool]
    · rw [e3, f3, houtp]
    · intro k
      rw [e4, f4, hlk k]
    · rw [e4]
      exact hnd
    · rw [f4]
      exact hnd'
    · intro op
      rw [e5, f5, hbp op]

theorem stEquiv_scrubStep {T T' : MempoolState} (op : OutPoint) (x : Hash)
    (h : StEquiv T T') :
    StEquiv { T with orphansByPrev := byPrevRemove T.orphansByPrev op x }
      { T' with orphansByPrev := byPrevRemove T'.orphansByPrev op x } := by
  obtain ⟨h1, h2, h3, h4, h5, h6, h7, h8⟩ := h
  exact ⟨h1, h2, h3, h4, h5, h6, h7, byPrevRemove_lookup_congr h8 op x⟩

theorem stEquiv_erase {T T' : MempoolState} (x : Hash) (h : StEquiv T T') :
    StEquiv { T with orphans := alEraseKey T.orphans x }
      { T' with orphans := alEraseKey T'.orphans x } := by
  obtain ⟨h1, h2, h3, h4, h5, h6, h7, h8⟩ := h
  refine ⟨h1, h2, h3, h4, ?_, alEraseKey_keys_nodup x h6, alEraseKey_keys_nodup x h7, h8⟩
  intro k
  rw [alLookup_eraseKey, alLookup_eraseKey, h5 k]

theorem removeOrphan_congr : ∀ (fuel : Nat) (S S' : MempoolState) (tx : Tx) (b : Bool),
    StEquiv S S' → StEquiv (removeOrphan S tx b fuel) (removeOrphan S' tx b fuel) := by
  intro fuel
  induction fuel with
  | zero => exact fun S S' tx b h => h
  | succ fuel ih =>
    intro S S' tx b h
    unfold removeOrphan
    rw [← h.2.2.2.2.1 tx.hash]
    cases hl : alLookup S.orphans tx.hash with
    | none => exact h
    | some otx =>
      dsimp only
      have hscrub := @foldl_rel2 OutPoint StEquiv
        (fun s op => { s with orphansByPrev := byPrevRemove s.orphansByPrev op tx.hash })
        (fun s op => { s with orphansByPrev := byPrevRemove s.orphansByPrev op tx.hash })
        otx.tx.inputs S S' (fun t t' op _ hh => stEquiv_scrubStep op tx.hash hh) h
      refine stEquiv_erase tx.hash ?_
      split
      · refine @foldl_rel2 Nat StEquiv _ _ (List.range tx.numTxOut) _ _
          (fun t t' i _ hh => ?_) hscrub
        rw [show byPrevGet t'.orphansByPrev ⟨tx.hash, i⟩ =
            byPrevGet t.orphansByPrev ⟨tx.hash, i⟩ from (stEquiv_byPrevGet hh _).symm]
        exact @foldl_rel2 (Hash × Tx) StEquiv _ _ (byPrevGet t.orphansByPrev ⟨tx.hash, i⟩)
          t t' (fun u u' p _ huu => ih u u' p.2 true huu) hh
      · exact hscrub

theorem processOrphanOutMembers_congr (cfg : Config) (ora : Oracles) (now : Int) :
    ∀ (L : List (Hash × Tx)) (S S' : MempoolState), StEquiv S S' →
      StEquiv (processOrphanOutMembers cfg ora now L S).1
        (processOrphanOutMembers cfg ora now L S').1 ∧
      (processOrphanOutMembers cfg ora now L S).2 =
        (processOrphanOutMembers cfg ora now L S').2 := by
  intro L
  induction L with
  | nil => exact fun S S' h => ⟨h, rfl⟩
  | cons p rest ih =>
    intro S S' h
    obtain ⟨hr, hst⟩ := maybeAcceptTransaction_stEquiv cfg ora now p.2 true true false h
    unfold processOrphanOutMembers
    cases hres : maybeAcceptTransaction cfg ora now S p.2 true true false with
    | mk r out =>
    cases hres' : maybeAcceptTransaction cfg ora now S' p.2 true true false with
    | mk r' out' =>
    rw [hres, hres'] at hr hst
    dsimp only at hr hst
    rw [← hr]
    cases r with
    | err e =>
      dsimp only
      rw [show orphanRemoveFuel out' = orphanRemoveFuel out from by
        have := stEquiv_orphans_length hst
        unfold orphanRemoveFuel
        omega]
      exact ⟨removeOrphan_congr _ out out' p.2 true hst, rfl⟩
    | missing ps =>
      dsimp only
      exact ih out out' hst
    | accepted txD =>
      dsimp only
      rw [show orphanRemoveFuel out' = orphanRemoveFuel out from by
        have := stEquiv_orphans_length hst
        unfold orphanRemoveFuel
        omega]
      exact ⟨removeOrphan_congr _ out out' p.2 false hst, rfl⟩

theorem processOrphanOutputs_congr (cfg : Config) (ora : Oracles) (now : Int) (hh : Hash) :
    ∀ (is : List Nat) (S S' : MempoolState) (accD : List TxDesc) (accT : List Tx),
      StEquiv S S' →
      StEquiv (processOrphanOutputs cfg ora now hh is S accD accT).1
        (processOrphanOutputs cfg ora now hh is S' accD accT).1 ∧
      (processOrphanOutputs cfg ora now hh is S accD accT).2 =
        (processOrphanOutputs cfg ora now hh is S' accD accT).2 := by
  intro is
  induction is with
  | nil => exact fun S S' accD accT h => ⟨h, rfl⟩
  | cons i rest ih =>
    intro S S' accD accT h
    unfold processOrphanOutputs
    rw [← h.2.2.2.2.2.2.2 ⟨hh, i⟩]
    cases hbp : alLookup S.orphansByPrev ⟨hh, i⟩ with
    | none => exact ih S S' accD accT h
    | some orphans =>
      dsimp only
      obtain ⟨hst, hopt⟩ := processOrphanOutMembers_congr cfg ora now orphans S S' h
      cases hm : processOrphanOutMembers cfg ora now orphans S with
      | mk T o =>
      cases hm' : processOrphanOutMembers cfg ora now orphans S' with
      | mk T' o' =>
      rw [hm, hm'] at hst hopt
      dsimp only at hst hopt
      rw [← hopt]
      cases o with
      | none =>
        dsimp only
        exact ih T T' accD accT hst
      | some pr =>
        cases pr with
        | mk txD t =>
        dsimp only
        exact ih T T' (accD ++ [txD]) (accT ++ [t]) hst

theorem processOrphansLoop_congr (cfg : Config) (ora : Oracles) (now : Int) :
    ∀ (fuel : Nat) (items : List Tx) (accD : List TxDesc) (S S' : MempoolState),
      StEquiv S S' →
      (processOrphansLoop cfg ora now fuel items accD S).1 =
        (processOrphansLoop cfg ora now fuel items accD S').1 ∧
      StEquiv (processOrphansLoop cfg ora now fuel items accD S).2
        (processOrphansLoop cfg ora now fuel items accD S').2 := by
  intro fuel
  induction fuel with
  | zero =>
    intro items accD S S' h
    exact ⟨rfl, h⟩
  | succ fuel ih =>
    intro items accD S S' h
    cases items with
    | nil => exact ⟨rfl, h⟩
    | cons item rest =>
      unfold processOrphansLoop
      obtain ⟨hst, hacc⟩ := processOrphanOutputs_congr cfg ora now item.hash
        (List.range item.numTxOut) S S' [] [] h
      cases hP : processOrphanOutputs cfg ora now item.hash (List.range item.numTxOut)
          S [] [] with
      | mk T acc =>
      cases hP' : processOrphanOutputs cfg ora now item.hash (List.range item.numTxOut)
          S' [] [] with
      | mk T' acc' =>
      rw [hP, hP'] at hst hacc
      dsimp only at hst hacc
      rw [← hacc]
      cases acc with
      | mk accD' accT' =>
      dsimp only
      exact ih (rest ++ accT') (accD ++ accD') T T' hst

theorem removeOrphanDoubleSpends_congr (tx : Tx) {S S' : MempoolState} (h : StEquiv S S') :
    StEquiv (removeOrphanDoubleSpends S tx) (removeOrphanDoubleSpends S' tx) := by
  unfold removeOrphanDoubleSpends
  refine @foldl_rel2 OutPoint StEquiv _ _ tx.inputs S S' (fun t t' op _ ht => ?_) h
  rw [show byPrevGet t'.orphansByPrev op = byPrevGet t.orphansByPrev op from
    (stEquiv_byPrevGet ht op).symm]
  refine @foldl_rel2 (Hash × Tx) StEquiv _ _ (byPrevGet t.orphansByPrev op) t t'
    (fun u u' p _ hu => ?_) ht
  rw [show orphanRemoveFuel u' = orphanRemoveFuel u from by
    have := stEquiv_orphans_length hu
    unfold orphanRemoveFuel
    omega]
  exact removeOrphan_congr _ u u' p.2 true hu

theorem processOrphans_congr (cfg : Config) (ora : Oracles) (now : Int) (acceptedTx : Tx)
    {S S' : MempoolState} (h : StEquiv S S') :
    (processOrphans cfg ora now S acceptedTx).1 =
      (processOrphans cfg ora now S' acceptedTx).1 ∧
    StEquiv (processOrphans cfg ora now S acceptedTx).2
      (processOrphans cfg ora now S' acceptedTx).2 := by
  unfold processOrphans
  rw [show S'.orphans.length = S.orphans.length from (stEquiv_orphans_length h).symm]
  obtain ⟨hacc, hst⟩ := processOrphansLoop_congr cfg ora now (S.orphans.length + 1)
    [acceptedTx] [] S S' h
  cases hL : processOrphansLoop cfg ora now (S.orphans.length + 1) [acceptedTx] [] S with
  | mk accT T =>
  cases hL' : processOrphansLoop cfg ora now (S.orphans.length + 1) [acceptedTx] [] S' with
  | mk accT' T' =>
  rw [hL, hL'] at hacc hst
  dsimp only at hacc hst ⊢
  rw [← hacc]
  refine ⟨rfl, ?_⟩
  exact @foldl_rel2 TxDesc StEquiv _ _ accT _ _
    (fun t t' d _ ht => removeOrphanDoubleSpends_congr d.tx ht)
    (removeOrphanDoubleSpends_congr acceptedTx hst)

theorem processTransaction_fst_congr (cfg : Config) (ora : Oracles) (now : Int) (tx : Tx)
    (allowOrphan rateLimit : Bool) (tag : Nat) {S S' : MempoolState} (h : StEquiv S S') :
    (processTransaction cfg ora now S tx allowOrphan rateLimit tag).1 =
      (processTransaction cfg ora now S' tx allowOrphan rateLimit tag).1 := by
  unfold processTransaction
  obtain ⟨hr, hst⟩ := maybeAcceptTransaction_stEquiv cfg ora now tx true rateLimit true h
  cases hres : maybeAcceptTransaction cfg ora now S tx true rateLimit true with
  | mk r out =>
  cases hres' : maybeAcceptTransaction cfg ora now S' tx true rateLimit true with
  | mk r' out' =>
  rw [hres, hres'] at hr hst
  dsimp only at hr hst
  rw [← hr]
  cases r with
  | err e => rfl
  | accepted txD =>
    dsimp only
    obtain ⟨ha, hs2⟩ := processOrphans_congr cfg ora now tx hst
    cases hP : processOrphans cfg ora now out tx with
    | mk newT T =>
    cases hP' : processOrphans cfg ora now out' tx with
    | mk newT' T' =>
    rw [hP, hP'] at ha
    dsimp only at ha
    rw [← ha]
  | missing ps =>
    dsimp only
    split
    · rfl
    · unfold maybeAddOrphan
      by_cases hsz : tx.serializeSize > cfg.policy.maxOrphanTxSize
      · rw [if_pos hsz, if_pos hsz]
      · rw [if_neg hsz, if_neg hsz]

theorem alLookup_eq_none_of_contains_false {α β : Type} [DecidableEq α] {l : List (α × β)}
    {k : α} (h : alContains l k = false) : alLookup l k = none := by
  unfold alContains at h
  cases hl : alLookup l k with
  | none => rfl
  | some v =>
    rw [hl] at h
    simp at h

theorem missing_not_dup (cfg : Config) (ora : Oracles) (now : Int) (T : MempoolState)
    (c : Tx) (rl : Bool) (ps : List Hash)
    (hm : (maybeAcceptTransaction cfg ora now T c true rl true).1 = .missing ps) :
    alContains T.pool c.hash = false ∧ alContains T.orphans c.hash = false := by
  constructor
  · cases hc : alContains T.pool c.hash with
    | false => rfl
    | true =>
      rw [maybeAcceptTransaction_dup_pool cfg ora now T c true rl true hc] at hm
      simp at hm
  · cases hc : alContains T.orphans c.hash with
    | false => rfl
    | true =>
      rw [maybeAcceptTransaction_dup_orphan cfg ora now T c true rl hc] at hm
      simp at hm

theorem addOrphan_noevict (cfg : Config) (now : Int) (T : MempoolState) (c : Tx) (tag : Nat)
    (hmax : 0 < cfg.policy.maxOrphanTxs) (hscan : ¬ now > T.nextExpireScan)
    (hroom : (T.orphans.length : Int) + 1 ≤ cfg.policy.maxOrphanTxs) :
    addOrphan cfg now T c tag =
      c.inputs.foldl
        (fun s op => { s with orphansByPrev := byPrevAdd s.orphansByPrev op c.hash c })
        { T with orphans := alInsert T.orphans c.hash ⟨c, tag, now + orphanTTL⟩ } := by
  unfold addOrphan
  rw [if_neg (by omega)]
  have hexp : expireOrphans now T = T := by
    unfold expireOrphans
    rw [if_neg hscan]
  have hlim : limitNumOrphans cfg now T = T := by
    unfold limitNumOrphans
    rw [hexp]
    dsimp only
    rw [if_pos hroom]
  dsimp only
  rw [hlim]

theorem processTransaction_stash (cfg : Config) (ora : Oracles) (now : Int)
    (T : MempoolState) (c : Tx) (rl : Bool) (tag : Nat) (ps : List Hash)
    (hm : (maybeAcceptTransaction cfg ora now T c true rl true).1 = .missing ps)
    (hsz : ¬ c.serializeSize > cfg.policy.maxOrphanTxSize)
    (hmax : 0 < cfg.policy.maxOrphanTxs)
    (hscan : ¬ now > T.nextExpireScan)
    (hroom : (T.orphans.length : Int) + 1 ≤ cfg.policy.maxOrphanTxs) :
    processTransaction cfg ora now T c true rl tag =
      (.ok [], c.inputs.foldl
        (fun s op => { s with orphansByPrev := byPrevAdd s.orphansByPrev op c.hash c })
        { T with orphans := alInsert T.orphans c.hash ⟨c, tag, now + orphanTTL⟩ }) := by
  have hspec := maybeAcceptTransaction_spec cfg ora now T c true rl true
  unfold processTransaction
  cases hres : maybeAcceptTransaction cfg ora now T c true rl true with
  | mk r out =>
  rw [hres] at hspec hm
  dsimp only at hm
  subst hm
  have hout : out = T := hspec
  subst hout
  dsimp only
  rw [if_neg (show ¬ ¬ (true = true) by simp)]
  unfold maybeAddOrphan
  rw [if_neg hsz]
  dsimp only
  rw [addOrphan_noevict cfg now out c tag hmax hscan hroom]

/-- C5 (amended): accepting a parent transaction and then running
processOrphans on it yields the same accepted transactions regardless of
the order in which two orphan children that spend distinct outputs of the
parent previously arrived: for any configuration, oracles, starting state
and transactions, stashing the two children in either order and then
processing the parent returns equal results.  (With two children spending
the same parent output the accepted set depends on the arrival order, as
the counterexample shows.) -/
theorem C5_promotion_order_amended
    (cfg : Config) (ora : Oracles) (now : Int) (S0 : MempoolState) (P c1 c2 : Tx)
    (t1 t2 tp : Nat) (rl : Bool) (ps1 ps2 : List Hash) (i1 i2 : Nat)
    (hin1 : c1.inputs = [⟨P.hash, i1⟩]) (hin2 : c2.inputs = [⟨P.hash, i2⟩])
    (hii : i1 ≠ i2) (hhh : c1.hash ≠ c2.hash)
    (hnd : (S0.orphans.map Prod.fst).Nodup)
    (hm1 : (maybeAcceptTransaction cfg ora now S0 c1 true rl true).1 = .missing ps1)
    (hm2 : (maybeAcceptTransaction cfg ora now S0 c2 true rl true).1 = .missing ps2)
    (hsz1 : ¬ c1.serializeSize > cfg.policy.maxOrphanTxSize)
    (hsz2 : ¬ c2.serializeSize > cfg.policy.maxOrphanTxSize)
    (hmax : 0 < cfg.policy.maxOrphanTxs)
    (hscan : ¬ now > S0.nextExpireScan)
    (hroom : (S0.orphans.length : Int) + 2 ≤ cfg.policy.maxOrphanTxs) :
    (processTransaction cfg ora now
        (processTransaction cfg ora now
          (processTransaction cfg ora now S0 c1 true rl t1).2 c2 true rl t2).2
        P true rl tp).1 =
      (processTransaction cfg ora now
        (processTransaction cfg ora now
          (processTransaction cfg ora now S0 c2 true rl t2).2 c1 true rl t1).2
        P true rl tp).1 := by
  obtain ⟨hp1, ho1⟩ := missing_not_dup cfg ora now S0 c1 rl ps1 hm1
  obtain ⟨hp2, ho2⟩ := missing_not_dup cfg ora now S0 c2 rl ps2 hm2
  have hlk1 : alLookup S0.orphans c1.hash = none := alLookup_eq_none_of_contains_false ho1
  have hlk2 : alLookup S0.orphans c2.hash = none := alLookup_eq_none_of_contains_false ho2
  have h21 : c2.hash ≠ c1.hash := fun hh => hhh hh.symm
  have hop12 : (⟨P.hash, i1⟩ : OutPoint) ≠ ⟨P.hash, i2⟩ := by
    intro hh
    exact hii (congrArg OutPoint.index hh)
  have hroom1 : (S0.orphans.length : Int) + 1 ≤ cfg.policy.maxOrphanTxs := by omega
  have hA1 := processTransaction_stash cfg ora now S0 c1 rl t1 ps1 hm1 hsz1 hmax hscan hroom1
  have hB1 := processTransaction_stash cfg ora now S0 c2 rl t2 ps2 hm2 hsz2 hmax hscan hroom1
  rw [hin1] at hA1
  rw [hin2] at hB1
  have hA1' : processTransaction cfg ora now S0 c1 true rl t1 =
      (.ok [], { S0 with
        orphans := alInsert S0.orphans c1.hash ⟨c1, t1, now + orphanTTL⟩
        orphansByPrev := byPrevAdd S0.orphansByPrev ⟨P.hash, i1⟩ c1.hash c1 }) := hA1
  have hB1' : processTransaction cfg ora now S0 c2 true rl t2 =
      (.ok [], { S0 with
        orphans := alInsert S0.orphans c2.hash ⟨c2, t2, now + orphanTTL⟩
        orphansByPrev := byPrevAdd S0.orphansByPrev ⟨P.hash, i2⟩ c2.hash c2 }) := hB1
  have hlenA : (alInsert S0.orphans c1.hash
      (⟨c1, t1, now + orphanTTL⟩ : OrphanTx)).length = S0.orphans.length + 1 :=
    alInsert_length_fresh _ hlk1
  have hlenB : (alInsert S0.orphans c2.hash
      (⟨c2, t2, now + orphanTTL⟩ : OrphanTx)).length = S0.orphans.length + 1 :=
    alInsert_length_fresh _ hlk2
  have hcongA := maybeAcceptTransaction_congr cfg ora now S0
    { S0 with
      orphans := alInsert S0.orphans c1.hash ⟨c1, t1, now + orphanTTL⟩
      orphansByPrev := byPrevAdd S0.orphansByPrev ⟨P.hash, i1⟩ c1.hash c1 }
    c2 true rl true rfl rfl rfl rfl
    (by
      show alContains (alInsert S0.orphans c1.hash _) c2.hash = alContains S0.orphans c2.hash
      exact alContains_alInsert_ne _ _ h21)
  have hcongB := maybeAcceptTransaction_congr cfg ora now S0
    { S0 with
      orphans := alInsert S0.orphans c2.hash ⟨c2, t2, now + orphanTTL⟩
      orphansByPrev := byPrevAdd S0.orphansByPrev ⟨P.hash, i2⟩ c2.hash c2 }
    c1 true rl true rfl rfl rfl rfl
    (by
      show alContains (alInsert S0.orphans c2.hash _) c1.hash = alContains S0.orphans c1.hash
      exact alContains_alInsert_ne _ _ hhh)
  have hA2 := processTransaction_stash cfg ora now
    { S0 with
      orphans := alInsert S0.orphans c1.hash ⟨c1, t1, now + orphanTTL⟩
      orphansByPrev := byPrevAdd S0.orphansByPrev ⟨P.hash, i1⟩ c1.hash c1 }
    c2 rl t2 ps2 (by rw [hcongA.1]; exact hm2) hsz2 hmax hscan
    (by
      show ((alInsert S0.orphans c1.hash
        (⟨c1, t1, now + orphanTTL⟩ : OrphanTx)).length : Int) + 1 ≤ cfg.policy.maxOrphanTxs
      rw [hlenA]
      push_cast
      omega)
  have hB2 := processTransaction_stash cfg ora now
    { S0 with
      orphans := alInsert S0.orphans c2.hash ⟨c2, t2, now + orphanTTL⟩
      orphansByPrev := byPrevAdd S0.orphansByPrev ⟨P.hash, i2⟩ c2.hash c2 }
    c1 rl t1 ps1 (by rw [hcongB.1]; exact hm1) hsz1 hmax hscan
    (by
      show ((alInsert S0.orphans c2.hash
        (⟨c2, t2, now + orphanTTL⟩ : OrphanTx)).length : Int) + 1 ≤ cfg.policy.maxOrphanTxs
      rw [hlenB]
      push_cast
      omega)
  rw [hin2] at hA2
  rw [hin1] at hB2
  have hA2' : processTransaction cfg ora now
      ({ S0 with
        orphans := alInsert S0.orphans c1.hash ⟨c1, t1, now + orphanTTL⟩
        orphansByPrev := byPrevAdd S0.orphansByPrev ⟨P.hash, i1⟩ c1.hash c1 })
      c2 true rl t2 =
      (.ok [], { S0 with
        orphans := alInsert (alInsert S0.orphans c1.hash ⟨c1, t1, now + orphanTTL⟩)
          c2.hash ⟨c2, t2, now + orphanTTL⟩
        orphansByPrev := byPrevAdd (byPrevAdd S0.orphansByPrev ⟨P.hash, i1⟩ c1.hash c1)
          ⟨P.hash, i2⟩ c2.hash c2 }) := hA2
  have hB2' : processTransaction cfg ora now
      ({ S0 with
        orphans := alInsert S0.orphans c2.hash ⟨c2, t2, now + orphanTTL⟩
        orphansByPrev := byPrevAdd S0.orphansByPrev ⟨P.hash, i2⟩ c2.hash c2 })
      c1 true rl t1 =
      (.ok [], { S0 with
        orphans := alInsert (alInsert S0.orphans c2.hash ⟨c2, t2, now + orphanTTL⟩)
          c1.hash ⟨c1, t1, now + orphanTTL⟩
        orphansByPrev := byPrevAdd (byPrevAdd S0.orphansByPrev ⟨P.hash, i2⟩ c2.hash c2)
          ⟨P.hash, i1⟩ c1.hash c1 }) := hB2
  have hEquiv : StEquiv
      { S0 with
        orphans := alInsert (alInsert S0.orphans c1.hash ⟨c1, t1, now + orphanTTL⟩)
          c2.hash ⟨c2, t2, now + orphanTTL⟩
        orphansByPrev := byPrevAdd (byPrevAdd S0.orphansByPrev ⟨P.hash, i1⟩ c1.hash c1)
          ⟨P.hash, i2⟩ c2.hash c2 }
      { S0 with
        orphans := alInsert (alInsert S0.orphans c2.hash ⟨c2, t2, now + orphanTTL⟩)
          c1.hash ⟨c1, t1, now + orphanTTL⟩
        orphansByPrev := byPrevAdd (byPrevAdd S0.orphansByPrev ⟨P.hash, i2⟩ c2.hash c2)
          ⟨P.hash, i1⟩ c1.hash c1 } := by
    refine ⟨rfl, rfl, rfl, rfl, ?_, ?_, ?_, ?_⟩
    · intro k
      exact alLookup_insert_comm S0.orphans _ _ hhh k
    · exact alInsert_keys_nodup _ _ (alInsert_keys_nodup _ _ hnd)
    · exact alInsert_keys_nodup _ _ (alInsert_keys_nodup _ _ hnd)
    · intro op
      exact byPrevAdd_comm_lookup S0.orphansByPrev _ _ _ _ hop12 op
  rw [hA1', hB1']
  dsimp only
  rw [hA2', hB2']
  dsimp only
  exact processTransaction_fst_congr cfg ora now P true rl tp hEquiv

theorem C5_promotion_order_amended_witness :
    (processTransaction exCfg exOraC5 0
        (processTransaction exCfg exOraC5 0
          (processTransaction exCfg exOraC5 0 (newTxPool 0) exChildA true false 1).2
          exChildB true false 2).2
        exParentTx true false 3).1 =
      (processTransaction exCfg exOraC5 0
        (processTransaction exCfg exOraC5 0
          (processTransaction exCfg exOraC5 0 (newTxPool 0) exChildB true false 2).2
          exChildA true false 1).2
        exParentTx true false 3).1 :=
  C5_promotion_order_amended exCfg exOraC5 0 (newTxPool 0) exParentTx exChildA exChildB
    1 2 3 false [100] [100] 0 1 (by decide) (by decide) (by decide) (by decide)
    (by decide) (by decide) (by decide) (by decide) (by decide) (by decide)
    (by decide) (by decide)

end Bchd
